import Mathlib

/-!
Shallow embedding of the MatchX limit-order matching engine core
(`order.h`, `price_level.h`, `order_pool.h`, `order_book.cpp`).

Machine integers: `Price`/`Quantity` are `uint32_t` in the source and
`OrderId`/`Timestamp` are `uint64_t`.  We model them as `Nat`; wherever the
source performs `uint32_t` arithmetic that can wrap (the price-level volume
aggregates and the FOK accumulator), we apply an explicit `% 2^32` via
`wadd32`/`wsub32`.  Order quantities themselves never wrap on the `uint32`
domain (fills are clamped by `min`), so plain `Nat` arithmetic is faithful
there.

The `std::map` price collections (bids descending, asks ascending) are
embedded as sorted `List PriceLevel`; the `unordered_map` pool and stop
table are embedded as insertion-ordered association lists (a deterministic
refinement of the unspecified hash iteration order).  Intrusive FIFO lists
become `List OrderId` inside each level, with every order access going
through the pool, mirroring the single shared `Order` object of the source.
-/

namespace MatchX

/-- 2^32, the modulus of `uint32_t` arithmetic. -/
def U32 : Nat := 4294967296

/-- `uint32_t` addition. -/
def wadd32 (a b : Nat) : Nat := (a + b) % U32

/-- `uint32_t` subtraction `a - b` (two's complement wraparound). -/
def wsub32 (a b : Nat) : Nat := (a + U32 - b % U32) % U32

inductive Side
  | buy
  | sell
deriving DecidableEq, Repr

inductive OrderType
  | limit
  | market
  | stop
  | stopLimit
deriving DecidableEq, Repr

inductive OrderState
  | pendingNew
  | active
  | partFilled
  | filled
  | cancelled
  | rejected
  | expired
  | triggered
deriving DecidableEq, Repr

inductive TimeInForce
  | gtc
  | ioc
  | fok
  | day
  | gtd
deriving DecidableEq, Repr

inductive Status
  | ok
  | err
  | invalidParam
  | outOfMemory
  | orderNotFound
  | invalidPrice
  | invalidQuantity
  | duplicateOrder
  | wouldMatch
  | cannotFill
deriving DecidableEq, Repr

inductive OrderEvent
  | accepted
  | rejected
  | filled
  | partFill
  | cancelled
  | expired
  | triggered
deriving DecidableEq, Repr

/-- `matchx::Order` (order.h).  Field names follow the source. -/
structure Order where
  order_id : Nat
  side : Side
  order_type : OrderType
  state : OrderState
  time_in_force : TimeInForce
  flags : Nat
  price : Nat
  stop_price : Nat
  total_quantity : Nat
  filled_quantity : Nat
  display_quantity : Nat
  visible_filled : Nat
  created_time : Nat
  expire_time : Nat
deriving DecidableEq, Repr

namespace Order

/-- `remaining_quantity()`: `total_quantity_ - filled_quantity_` (uint32). -/
def remaining_quantity (o : Order) : Nat := o.total_quantity - o.filled_quantity

/-- `visible_quantity()`: remaining if `display_quantity_ == 0`, else
`display - visible_filled` clamped at 0 (the source's ternary). -/
def visible_quantity (o : Order) : Nat :=
  if o.display_quantity = 0 then o.remaining_quantity
  else o.display_quantity - o.visible_filled

def is_buy (o : Order) : Bool := o.side = Side.buy
def is_sell (o : Order) : Bool := o.side = Side.sell
def is_limit (o : Order) : Bool := o.order_type = OrderType.limit
def is_market (o : Order) : Bool := o.order_type = OrderType.market
def is_stop (o : Order) : Bool :=
  o.order_type = OrderType.stop || o.order_type = OrderType.stopLimit

def is_active (o : Order) : Bool := o.state = OrderState.active
def is_filled (o : Order) : Bool := o.state = OrderState.filled
def is_partially_filled (o : Order) : Bool := o.state = OrderState.partFilled

def is_gtc (o : Order) : Bool := o.time_in_force = TimeInForce.gtc
def is_ioc (o : Order) : Bool := o.time_in_force = TimeInForce.ioc
def is_fok (o : Order) : Bool := o.time_in_force = TimeInForce.fok
def is_day (o : Order) : Bool := o.time_in_force = TimeInForce.day
def is_gtd (o : Order) : Bool := o.time_in_force = TimeInForce.gtd

/-- `MX_ORDER_FLAG_POST_ONLY = 1`. -/
def is_post_only (o : Order) : Bool := o.flags &&& 1 ≠ 0
/-- `is_iceberg()`: `display_quantity_ > 0`. -/
def is_iceberg (o : Order) : Bool := 0 < o.display_quantity

def has_expiry (o : Order) : Bool := 0 < o.expire_time
def is_expired (o : Order) (current_time : Nat) : Bool :=
  o.has_expiry && o.expire_time ≤ current_time

/-- `Order::fill` (order.h): clamp to remaining, advance `filled_quantity_`,
roll the iceberg visible counter, and set the state.  Returns the updated
order and the actual fill. -/
def fill (o : Order) (quantity : Nat) : Order × Nat :=
  let can_fill := min quantity o.remaining_quantity
  if can_fill = 0 then (o, 0)
  else
    let o1 := { o with filled_quantity := o.filled_quantity + can_fill }
    let o2 :=
      if o1.is_iceberg then
        let vf := o1.visible_filled + can_fill
        if o1.display_quantity ≤ vf ∧ 0 < o1.remaining_quantity then
          { o1 with visible_filled := 0 }
        else
          { o1 with visible_filled := vf }
      else o1
    let o3 :=
      if o2.total_quantity ≤ o2.filled_quantity then
        { o2 with state := OrderState.filled }
      else
        { o2 with state := OrderState.partFilled }
    (o3, can_fill)

/-- `Order::reduce_quantity`: only shrinks `total_quantity_`, never below the
filled amount. -/
def reduce_quantity (o : Order) (new_quantity : Nat) : Order :=
  if o.total_quantity ≤ new_quantity then o
  else if new_quantity ≤ o.filled_quantity then o
  else { o with total_quantity := new_quantity }

def cancel (o : Order) : Order := { o with state := OrderState.cancelled }
def reject (o : Order) : Order := { o with state := OrderState.rejected }

/-- `Order::trigger_stop`: stop → market, stop-limit → limit. -/
def trigger_stop (o : Order) : Order :=
  let t :=
    if o.order_type = OrderType.stop then OrderType.market
    else if o.order_type = OrderType.stopLimit then OrderType.limit
    else o.order_type
  { o with order_type := t, state := OrderState.triggered, stop_price := 0 }

end Order

/-- The `OrderPool`'s `OID → Order` index (`order_lookup_`), as an
insertion-ordered association list. -/
abbrev Pool := List (Nat × Order)

namespace Pool

/-- `OrderPool::find_order`. -/
def find_order : Pool → Nat → Option Order
  | [], _ => none
  | (i, o) :: rest, id => if i = id then some o else find_order rest id

/-- `OrderPool::has_order`. -/
def has_order (p : Pool) (id : Nat) : Bool := (p.find_order id).isSome

/-- Overwrite the entry for a live order (mutation of the shared `Order`
object through its pool slot). -/
def update : Pool → Nat → Order → Pool
  | [], _, _ => []
  | (i, o) :: rest, id, o' =>
      if i = id then (i, o') :: rest else (i, o) :: update rest id o'

/-- `OrderPool::destroy_order`: drop the entry. -/
def destroy : Pool → Nat → Pool
  | [], _ => []
  | (i, o) :: rest, id => if i = id then rest else (i, o) :: destroy rest id

/-- `order_lookup_[id] = order` for a fresh id. -/
def insert (p : Pool) (id : Nat) (o : Order) : Pool := p ++ [(id, o)]

end Pool

/-- One `on_trade` / `on_order_event` callback invocation, in emission
order.  `trade a b price qty ts` records the two OID arguments exactly as
the source passes them. -/
inductive Event
  | trade (a b price qty ts : Nat)
  | order (oid : Nat) (ev : OrderEvent) (filled remaining : Nat)
deriving DecidableEq, Repr

/-- The trade events of an event list, as `(first OID, second OID, price,
qty, ts)` tuples. -/
def tradesOf (evts : List Event) : List (Nat × Nat × Nat × Nat × Nat) :=
  evts.filterMap fun e =>
    match e with
    | Event.trade a b p q t => some (a, b, p, q, t)
    | Event.order _ _ _ _ => none

/-- `matchx::PriceLevel` (price_level.h).  The intrusive FIFO is the list of
OIDs, head first. -/
structure PriceLevel where
  price : Nat
  orders : List Nat
  total_volume : Nat
  visible_volume : Nat
deriving DecidableEq, Repr

namespace PriceLevel

/-- `PriceLevel::add_order`: append at the tail, bump both aggregates. -/
def add_order (lvl : PriceLevel) (o : Order) : PriceLevel :=
  { lvl with
      orders := lvl.orders ++ [o.order_id]
      total_volume := wadd32 lvl.total_volume o.remaining_quantity
      visible_volume := wadd32 lvl.visible_volume o.visible_quantity }

/-- `PriceLevel::remove_order`: decrement aggregates, unlink. -/
def remove_order (lvl : PriceLevel) (o : Order) : PriceLevel :=
  { lvl with
      orders := lvl.orders.erase o.order_id
      total_volume := wsub32 lvl.total_volume o.remaining_quantity
      visible_volume := wsub32 lvl.visible_volume o.visible_quantity }

/-- `PriceLevel::update_order_volume`: adjust aggregates to the order's
current values; an iceberg whose visible portion grew is moved to the
tail. -/
def update_order_volume (lvl : PriceLevel) (o : Order)
    (old_remaining old_visible : Nat) : PriceLevel :=
  let tv := wadd32 (wsub32 lvl.total_volume old_remaining) o.remaining_quantity
  let vv := wadd32 (wsub32 lvl.visible_volume old_visible) o.visible_quantity
  let q :=
    if o.is_iceberg ∧ old_visible < o.visible_quantity then
      lvl.orders.erase o.order_id ++ [o.order_id]
    else lvl.orders
  { lvl with orders := q, total_volume := tv, visible_volume := vv }

def empty (lvl : PriceLevel) : Bool := lvl.orders.isEmpty

end PriceLevel

/-- Result of `PriceLevel::match_orders` as invoked from
`OrderBook::match_limit_order` / `match_market_order`: the updated pool and
level, the events emitted by the inlined trade callback (TRADE plus the
passive ORDER_PARTIAL notifications), the OIDs collected in
`filled_orders`, and the total matched quantity. -/
structure MatchOut where
  pool : Pool
  lvl : PriceLevel
  events : List Event
  filled_ids : List Nat
  matched : Nat
deriving DecidableEq, Repr

/-- `PriceLevel::match_orders` specialised to the trade callback the
`OrderBook` passes it, with an explicit fuel for the `while` loop (any fuel
exceeding the FIFO length is enough on well-formed states; the source would
not terminate on the corrupt states where the fuel runs out). -/
def match_orders_fuel : Nat → Pool → Nat → Nat → Nat → PriceLevel → Nat → MatchOut
  | 0, pool, _, _, tm, lvl, _ => ⟨pool, lvl, [], [], tm⟩
  | fuel + 1, pool, agg_id, max_quantity, tm, lvl, ts =>
    if tm < max_quantity then
      match lvl.orders with
      | [] => ⟨pool, lvl, [], [], tm⟩
      | pass_id :: restq =>
        match pool.find_order pass_id, pool.find_order agg_id with
        | some passive, some agg =>
          let aggressive_remaining := max_quantity - tm
          let passive_remaining := passive.remaining_quantity
          let match_qty := min aggressive_remaining passive_remaining
          let execution_price := passive.price
          let agg' := (agg.fill match_qty).1
          let pass' := (passive.fill match_qty).1
          let pool1 := (pool.update agg_id agg').update pass_id pass'
          let tv' := wsub32 lvl.total_volume match_qty
          let vv' := wsub32 lvl.visible_volume (min match_qty pass'.visible_quantity)
          let trade_ev :=
            if agg.is_buy then Event.trade agg_id pass_id execution_price match_qty ts
            else Event.trade pass_id agg_id execution_price match_qty ts
          let step :=
            if pass'.is_filled then ([trade_ev], [pass_id])
            else if 0 < pass'.filled_quantity then
              ([trade_ev,
                Event.order pass_id OrderEvent.partFill pass'.filled_quantity
                  pass'.remaining_quantity], [])
            else ([trade_ev], [])
          let lvl1 :=
            if pass'.is_filled then
              { lvl with orders := restq, total_volume := tv', visible_volume := vv' }
            else if pass'.is_iceberg ∧ pass'.visible_quantity = 0 then
              { lvl with
                  orders := restq ++ [pass_id]
                  total_volume := tv'
                  visible_volume := wadd32 vv' pass'.visible_quantity }
            else
              { lvl with
                  orders := pass_id :: restq
                  total_volume := tv'
                  visible_volume := vv' }
          let tm' := tm + match_qty
          if agg'.is_filled then ⟨pool1, lvl1, step.1, step.2, tm'⟩
          else
            let r := match_orders_fuel fuel pool1 agg_id max_quantity tm' lvl1 ts
            ⟨r.pool, r.lvl, step.1 ++ r.events, step.2 ++ r.filled_ids, r.matched⟩
        | _, _ => ⟨pool, lvl, [], [], tm⟩
    else ⟨pool, lvl, [], [], tm⟩

/-- `matchx::OrderBook` (order_book.h/.cpp).  `bids` is kept sorted by
price descending, `asks` ascending — the iteration order of the source's
`std::map` collections.  Events are returned by each operation rather than
stored. -/
structure OrderBook where
  pool : Pool
  bids : List PriceLevel
  asks : List PriceLevel
  stop_orders : List Nat
  best_bid : Nat
  best_ask : Nat
  total_trades : Nat
  total_volume : Nat
deriving DecidableEq, Repr

namespace OrderBook

def emptyBook : OrderBook := ⟨[], [], [], [], 0, 0, 0, 0⟩

/-- `get_level` on one side's collection: first level with this price. -/
def find_level : List PriceLevel → Nat → Option PriceLevel
  | [], _ => none
  | lvl :: rest, p => if lvl.price = p then some lvl else find_level rest p

/-- Replace the level with this price (in-place mutation through the map). -/
def set_level : List PriceLevel → Nat → PriceLevel → List PriceLevel
  | [], _, _ => []
  | lvl :: rest, p, lvl' =>
      if lvl.price = p then lvl' :: rest else lvl :: set_level rest p lvl'

/-- `bid_levels_.erase / ask_levels_.erase` by key. -/
def erase_level : List PriceLevel → Nat → List PriceLevel
  | [], _ => []
  | lvl :: rest, p => if lvl.price = p then rest else lvl :: erase_level rest p

/-- `get_or_create_level` + `level->add_order(order)` on the descending bid
collection: insert keeping keys strictly descending. -/
def add_level_desc (o : Order) : List PriceLevel → List PriceLevel
  | [] => [PriceLevel.add_order ⟨o.price, [], 0, 0⟩ o]
  | lvl :: rest =>
      if lvl.price < o.price then PriceLevel.add_order ⟨o.price, [], 0, 0⟩ o :: lvl :: rest
      else if lvl.price = o.price then PriceLevel.add_order lvl o :: rest
      else lvl :: add_level_desc o rest

/-- `get_or_create_level` + `level->add_order(order)` on the ascending ask
collection. -/
def add_level_asc (o : Order) : List PriceLevel → List PriceLevel
  | [] => [PriceLevel.add_order ⟨o.price, [], 0, 0⟩ o]
  | lvl :: rest =>
      if o.price < lvl.price then PriceLevel.add_order ⟨o.price, [], 0, 0⟩ o :: lvl :: rest
      else if lvl.price = o.price then PriceLevel.add_order lvl o :: rest
      else lvl :: add_level_asc o rest

/-- The first key of a sorted level collection, 0 when empty — what
`update_best_bid` / `update_best_ask` read from `begin()`. -/
def head_price : List PriceLevel → Nat
  | [] => 0
  | lvl :: _ => lvl.price

/-- `OrderBook::add_to_book`: insert at the order's limit price and push the
cached best outward if improved. -/
def add_to_book (b : OrderBook) (o : Order) : OrderBook :=
  if o.is_buy then
    { b with
        bids := add_level_desc o b.bids
        best_bid := if b.best_bid < o.price then o.price else b.best_bid }
  else
    { b with
        asks := add_level_asc o b.asks
        best_ask := if b.best_ask = 0 ∨ o.price < b.best_ask then o.price else b.best_ask }

/-- `OrderBook::remove_from_book`: only orders in ACTIVE or
PARTIALLY_FILLED state are taken out of a level; the level is erased when
emptied and the cached best recomputed when the frontier was hit. -/
def remove_from_book (b : OrderBook) (o : Order) : OrderBook :=
  if ¬ (o.is_active || o.is_partially_filled) then b
  else if o.is_buy then
    match find_level b.bids o.price with
    | none => b
    | some lvl =>
      let lvl' := lvl.remove_order o
      let bids1 := set_level b.bids o.price lvl'
      let bids2 := if lvl'.empty then erase_level bids1 o.price else bids1
      let bb := if o.price = b.best_bid then head_price bids2 else b.best_bid
      { b with bids := bids2, best_bid := bb }
  else
    match find_level b.asks o.price with
    | none => b
    | some lvl =>
      let lvl' := lvl.remove_order o
      let asks1 := set_level b.asks o.price lvl'
      let asks2 := if lvl'.empty then erase_level asks1 o.price else asks1
      let ba := if o.price = b.best_ask then head_price asks2 else b.best_ask
      { b with asks := asks2, best_ask := ba }

/-- Destruction of the `filled_orders` collected during a level match:
emit ORDER_FILLED and destroy each, in match order. -/
def destroy_filled : Pool → List Nat → Pool × List Event
  | pool, [] => (pool, [])
  | pool, id :: rest =>
    match pool.find_order id with
    | some o =>
      let r := destroy_filled (pool.destroy id) rest
      (r.1, Event.order id OrderEvent.filled o.filled_quantity 0 :: r.2)
    | none => destroy_filled pool rest

/-- Result of one side-walk of the matching algorithm. -/
structure WalkOut where
  pool : Pool
  lvls : List PriceLevel
  best : Nat
  events : List Event
  tt : Nat
  tv : Nat
deriving DecidableEq, Repr

/-- The ask-side walk of `match_limit_order` / `match_market_order` for a
buy aggressor: visit levels in ascending order, halt on the price bound
(never for markets) or when the aggressor is spent; erase emptied levels,
recomputing the cached best ask from the remaining collection (`acc` holds
the levels already visited and kept). -/
def match_buy_asks (pool : Pool) (agg_id : Nat) (acc : List PriceLevel)
    (asks : List PriceLevel) (best_ask : Nat) (tt tv ts : Nat)
    (is_mkt : Bool) : WalkOut :=
  match asks with
  | [] => ⟨pool, acc, best_ask, [], tt, tv⟩
  | lvl :: rest =>
    match pool.find_order agg_id with
    | none => ⟨pool, acc ++ lvl :: rest, best_ask, [], tt, tv⟩
    | some agg =>
      if agg.remaining_quantity = 0 then
        ⟨pool, acc ++ lvl :: rest, best_ask, [], tt, tv⟩
      else if ¬ is_mkt ∧ agg.price < lvl.price then
        ⟨pool, acc ++ lvl :: rest, best_ask, [], tt, tv⟩
      else
        let m := match_orders_fuel (lvl.orders.length + 1) pool agg_id
          agg.remaining_quantity 0 lvl ts
        let d := destroy_filled m.pool m.filled_ids
        let evs := m.events ++ d.2
        let tt' := tt + 1
        let tv' := tv + m.matched
        if m.lvl.empty then
          let best' := head_price (acc ++ rest)
          let w := match_buy_asks d.1 agg_id acc rest best' tt' tv' ts is_mkt
          ⟨w.pool, w.lvls, w.best, evs ++ w.events, w.tt, w.tv⟩
        else
          let w := match_buy_asks d.1 agg_id (acc ++ [m.lvl]) rest best_ask tt' tv' ts is_mkt
          ⟨w.pool, w.lvls, w.best, evs ++ w.events, w.tt, w.tv⟩

/-- The bid-side walk for a sell aggressor: descending bids, halting when
the level price falls below the sell's limit. -/
def match_sell_bids (pool : Pool) (agg_id : Nat) (acc : List PriceLevel)
    (bids : List PriceLevel) (best_bid : Nat) (tt tv ts : Nat)
    (is_mkt : Bool) : WalkOut :=
  match bids with
  | [] => ⟨pool, acc, best_bid, [], tt, tv⟩
  | lvl :: rest =>
    match pool.find_order agg_id with
    | none => ⟨pool, acc ++ lvl :: rest, best_bid, [], tt, tv⟩
    | some agg =>
      if agg.remaining_quantity = 0 then
        ⟨pool, acc ++ lvl :: rest, best_bid, [], tt, tv⟩
      else if ¬ is_mkt ∧ lvl.price < agg.price then
        ⟨pool, acc ++ lvl :: rest, best_bid, [], tt, tv⟩
      else
        let m := match_orders_fuel (lvl.orders.length + 1) pool agg_id
          agg.remaining_quantity 0 lvl ts
        let d := destroy_filled m.pool m.filled_ids
        let evs := m.events ++ d.2
        let tt' := tt + 1
        let tv' := tv + m.matched
        if m.lvl.empty then
          let best' := head_price (acc ++ rest)
          let w := match_sell_bids d.1 agg_id acc rest best' tt' tv' ts is_mkt
          ⟨w.pool, w.lvls, w.best, evs ++ w.events, w.tt, w.tv⟩
        else
          let w := match_sell_bids d.1 agg_id (acc ++ [m.lvl]) rest best_bid tt' tv' ts is_mkt
          ⟨w.pool, w.lvls, w.best, evs ++ w.events, w.tt, w.tv⟩

/-- `OrderBook::match_limit_order`: dispatch on the aggressor's side. -/
def match_limit_order (b : OrderBook) (agg_id : Nat) (ts : Nat) :
    OrderBook × List Event :=
  match b.pool.find_order agg_id with
  | none => (b, [])
  | some agg =>
    if agg.is_buy then
      let w := match_buy_asks b.pool agg_id [] b.asks b.best_ask
        b.total_trades b.total_volume ts false
      ({ b with
          pool := w.pool
          asks := w.lvls
          best_ask := w.best
          total_trades := w.tt
          total_volume := w.tv }, w.events)
    else
      let w := match_sell_bids b.pool agg_id [] b.bids b.best_bid
        b.total_trades b.total_volume ts false
      ({ b with
          pool := w.pool
          bids := w.lvls
          best_bid := w.best
          total_trades := w.tt
          total_volume := w.tv }, w.events)

/-- `OrderBook::match_market_order`: identical walk without the price
halt. -/
def match_market_order (b : OrderBook) (agg_id : Nat) (ts : Nat) :
    OrderBook × List Event :=
  match b.pool.find_order agg_id with
  | none => (b, [])
  | some agg =>
    if agg.is_buy then
      let w := match_buy_asks b.pool agg_id [] b.asks b.best_ask
        b.total_trades b.total_volume ts true
      ({ b with
          pool := w.pool
          asks := w.lvls
          best_ask := w.best
          total_trades := w.tt
          total_volume := w.tv }, w.events)
    else
      let w := match_sell_bids b.pool agg_id [] b.bids b.best_bid
        b.total_trades b.total_volume ts true
      ({ b with
          pool := w.pool
          bids := w.lvls
          best_bid := w.best
          total_trades := w.tt
          total_volume := w.tv }, w.events)

/-- Modelled from the spec: the body of `OrderBook::match_order` is not in
the provided sources (only its declaration and its callers are).  Per the
spec's matching algorithm (§4.4) and the declared `match_limit_order` /
`match_market_order` split, it dispatches on the order type: market orders
walk without a price bound, all others walk with it. -/
def match_order (b : OrderBook) (agg_id : Nat) (ts : Nat) :
    OrderBook × List Event :=
  match b.pool.find_order agg_id with
  | none => (b, [])
  | some agg =>
    if agg.is_market then match_market_order b agg_id ts
    else match_limit_order b agg_id ts

/-- `OrderBook::would_match_immediately`. -/
def would_match_immediately (b : OrderBook) (o : Order) : Bool :=
  if o.is_buy then 0 < b.best_ask && b.best_ask ≤ o.price
  else 0 < b.best_bid && o.price ≤ b.best_bid

/-- The accumulator loop of `OrderBook::can_fill_fok` over one side's
levels: break at the first level whose price is not compatible, otherwise
accumulate `total_volume` (a `uint32`) until it reaches the order's
remaining quantity. -/
def can_fill_fok_walk (need : Nat) (stop_if : Nat → Bool) :
    Nat → List PriceLevel → Bool
  | _, [] => false
  | avail, lvl :: rest =>
    if stop_if lvl.price then false
    else
      let avail' := wadd32 avail lvl.total_volume
      if need ≤ avail' then true else can_fill_fok_walk need stop_if avail' rest

/-- `OrderBook::can_fill_fok`: buys walk the asks breaking when
`order->price() < level.price()`, sells walk the bids breaking when
`order->price() > level.price()`. -/
def can_fill_fok (b : OrderBook) (o : Order) : Bool :=
  if o.is_buy then
    can_fill_fok_walk o.remaining_quantity (fun p => o.price < p) 0 b.asks
  else
    can_fill_fok_walk o.remaining_quantity (fun p => p < o.price) 0 b.bids

/-- `OrderBook::should_trigger_stop`. -/
def should_trigger_stop (b : OrderBook) (o : Order) : Bool :=
  if ¬ o.is_stop then false
  else if o.is_buy then 0 < b.best_ask && o.stop_price ≤ b.best_ask
  else 0 < b.best_bid && b.best_bid ≤ o.stop_price

/-- `OrderBook::handle_ioc_order` after its `match_order` call. -/
def ioc_epilogue (b : OrderBook) (oid : Nat) : OrderBook × List Event :=
  match b.pool.find_order oid with
  | none => (b, [])
  | some o1 =>
    let ev :=
      if 0 < o1.remaining_quantity then
        Event.order oid OrderEvent.cancelled o1.filled_quantity 0
      else
        Event.order oid OrderEvent.filled o1.filled_quantity 0
    ({ b with pool := b.pool.destroy oid }, [ev])

/-- `OrderBook::handle_ioc_order`. -/
def handle_ioc_order (b : OrderBook) (oid ts : Nat) :
    OrderBook × List Event × Status :=
  let m := match_order b oid ts
  let e := ioc_epilogue m.1 oid
  (e.1, m.2 ++ e.2, Status.ok)

/-- `OrderBook::handle_fok_order`. -/
def handle_fok_order (b : OrderBook) (oid ts : Nat) :
    OrderBook × List Event × Status :=
  match b.pool.find_order oid with
  | none => (b, [], Status.err)
  | some o =>
    if ¬ can_fill_fok b o then
      ({ b with pool := b.pool.destroy oid },
       [Event.order oid OrderEvent.rejected 0 0], Status.cannotFill)
    else
      let m := match_order b oid ts
      match (m.1).pool.find_order oid with
      | none => (m.1, m.2, Status.ok)
      | some o1 =>
        let evs :=
          if o1.is_filled then
            [Event.order oid OrderEvent.filled o1.filled_quantity 0]
          else []
        ({ m.1 with pool := (m.1).pool.destroy oid }, m.2 ++ evs, Status.ok)

/-- `OrderBook::process_new_order` (order_book.cpp:218): post-only gate,
FOK/IOC dispatch, regular match, then the aggressor's disposition. -/
def process_new_order (b : OrderBook) (oid ts : Nat) :
    OrderBook × List Event × Status :=
  match b.pool.find_order oid with
  | none => (b, [], Status.err)
  | some o =>
    if o.is_post_only && would_match_immediately b o then
      ({ b with pool := b.pool.destroy oid },
       [Event.order oid OrderEvent.rejected 0 0], Status.wouldMatch)
    else if o.is_fok then handle_fok_order b oid ts
    else if o.is_ioc then handle_ioc_order b oid ts
    else
      let m := match_order b oid ts
      let b1 := m.1
      match b1.pool.find_order oid with
      | none => (b1, m.2, Status.ok)
      | some o1 =>
        if o.is_market then
          let ev :=
            if 0 < o1.remaining_quantity then
              Event.order oid OrderEvent.cancelled o1.filled_quantity 0
            else
              Event.order oid OrderEvent.filled o1.filled_quantity 0
          ({ b1 with pool := b1.pool.destroy oid }, m.2 ++ [ev], Status.ok)
        else if 0 < o1.remaining_quantity ∧ ¬ o1.is_filled then
          if o1.is_gtc || o1.is_day || o1.is_gtd then
            let b2 := add_to_book b1 o1
            let ev :=
              if 0 < o1.filled_quantity then
                Event.order oid OrderEvent.partFill o1.filled_quantity
                  o1.remaining_quantity
              else
                Event.order oid OrderEvent.accepted 0 o1.remaining_quantity
            (b2, m.2 ++ [ev], Status.ok)
          else
            ({ b1 with pool := b1.pool.destroy oid },
             m.2 ++ [Event.order oid OrderEvent.cancelled o1.filled_quantity 0],
             Status.ok)
        else if o1.is_filled then
          ({ b1 with pool := b1.pool.destroy oid },
           m.2 ++ [Event.order oid OrderEvent.filled o1.filled_quantity 0],
           Status.ok)
        else (b1, m.2, Status.ok)

/-- `OrderBook::handle_stop_order`: trigger immediately when the condition
already holds, otherwise park in `stop_orders_` and emit ORDER_ACCEPTED. -/
def handle_stop_order (b : OrderBook) (oid ts : Nat) :
    OrderBook × List Event × Status :=
  match b.pool.find_order oid with
  | none => (b, [], Status.err)
  | some o =>
    if should_trigger_stop b o then
      process_new_order { b with pool := b.pool.update oid o.trigger_stop } oid ts
    else
      ({ b with stop_orders := b.stop_orders ++ [oid] },
       [Event.order oid OrderEvent.accepted 0 o.remaining_quantity], Status.ok)

/-- `OrderBook::add_limit_order`: validation, creation (GTC limit, ACTIVE),
then `process_new_order`. -/
def add_limit_order (b : OrderBook) (oid : Nat) (side : Side)
    (price quantity ts : Nat) : OrderBook × List Event × Status :=
  if oid = 0 then (b, [], Status.invalidParam)
  else if price = 0 then (b, [], Status.invalidPrice)
  else if quantity = 0 then (b, [], Status.invalidQuantity)
  else if b.pool.has_order oid then (b, [], Status.duplicateOrder)
  else
    let o : Order := ⟨oid, side, OrderType.limit, OrderState.active,
      TimeInForce.gtc, 0, price, 0, quantity, 0, 0, 0, ts, 0⟩
    process_new_order { b with pool := b.pool.insert oid o } oid ts

/-- `OrderBook::add_market_order`: market orders carry price 0. -/
def add_market_order (b : OrderBook) (oid : Nat) (side : Side)
    (quantity ts : Nat) : OrderBook × List Event × Status :=
  if oid = 0 then (b, [], Status.invalidParam)
  else if quantity = 0 then (b, [], Status.invalidQuantity)
  else if b.pool.has_order oid then (b, [], Status.duplicateOrder)
  else
    let o : Order := ⟨oid, side, OrderType.market, OrderState.active,
      TimeInForce.gtc, 0, 0, 0, quantity, 0, 0, 0, ts, 0⟩
    process_new_order { b with pool := b.pool.insert oid o } oid ts

/-- `OrderBook::validate_order`. -/
def validate_order (b : OrderBook) (oid : Nat) (t : OrderType)
    (price stop_price quantity : Nat) : Status :=
  if oid = 0 then Status.invalidParam
  else if quantity = 0 then Status.invalidQuantity
  else if (t = OrderType.limit ∨ t = OrderType.stopLimit) ∧ price = 0 then
    Status.invalidPrice
  else if (t = OrderType.stop ∨ t = OrderType.stopLimit) ∧ stop_price = 0 then
    Status.invalidPrice
  else if b.pool.has_order oid then Status.duplicateOrder
  else Status.ok

/-- `OrderBook::add_order` (full entry): validate, create via
`create_order_full` (stops start PENDING_NEW, everything else ACTIVE), then
the stop or regular path. -/
def add_order (b : OrderBook) (oid : Nat) (t : OrderType) (side : Side)
    (price stop_price quantity display_qty : Nat) (tif : TimeInForce)
    (flags expire_time ts : Nat) : OrderBook × List Event × Status :=
  match validate_order b oid t price stop_price quantity with
  | Status.ok =>
    let st :=
      if t = OrderType.stop ∨ t = OrderType.stopLimit then OrderState.pendingNew
      else OrderState.active
    let o : Order := ⟨oid, side, t, st, tif, flags, price, stop_price,
      quantity, 0, display_qty, 0, ts, expire_time⟩
    let b1 := { b with pool := b.pool.insert oid o }
    if o.is_stop then handle_stop_order b1 oid ts
    else process_new_order b1 oid ts
  | s => (b, [], s)

/-- `OrderBook::cancel_order`. -/
def cancel_order (b : OrderBook) (oid : Nat) :
    OrderBook × List Event × Status :=
  match b.pool.find_order oid with
  | none => (b, [], Status.orderNotFound)
  | some o =>
    let b1 :=
      if o.is_stop && o.state = OrderState.pendingNew then
        { b with stop_orders := b.stop_orders.erase oid }
      else remove_from_book b o
    ({ b1 with pool := b1.pool.destroy oid },
     [Event.order oid OrderEvent.cancelled o.filled_quantity 0], Status.ok)

/-- `OrderBook::modify_order`: strictly reduce the quantity; for an order
resting in a level, adjust the level aggregates via
`update_order_volume`. -/
def modify_order (b : OrderBook) (oid new_quantity : Nat) :
    OrderBook × Status :=
  match b.pool.find_order oid with
  | none => (b, Status.orderNotFound)
  | some o =>
    if o.total_quantity ≤ new_quantity then (b, Status.invalidQuantity)
    else if new_quantity ≤ o.filled_quantity then (b, Status.invalidQuantity)
    else if o.is_active || o.is_partially_filled then
      match find_level (if o.is_buy then b.bids else b.asks) o.price with
      | some lvl =>
        let old_remaining := o.remaining_quantity
        let old_visible := o.visible_quantity
        let o' := o.reduce_quantity new_quantity
        let lvl' := lvl.update_order_volume o' old_remaining old_visible
        let b1 := { b with pool := b.pool.update oid o' }
        if o.is_buy then
          ({ b1 with bids := set_level b1.bids o.price lvl' }, Status.ok)
        else
          ({ b1 with asks := set_level b1.asks o.price lvl' }, Status.ok)
      | none => (b, Status.ok)
    else
      ({ b with pool := b.pool.update oid (o.reduce_quantity new_quantity) },
       Status.ok)

/-- `OrderBook::replace_order` verbatim: cancel the old order first, then
look it up again to read its side. -/
def replace_order (b : OrderBook) (old_oid new_oid new_price new_quantity ts : Nat) :
    OrderBook × List Event × Status :=
  let c := cancel_order b old_oid
  match c.2.2 with
  | Status.ok =>
    match (c.1).pool.find_order old_oid with
    | none => (c.1, c.2.1, Status.orderNotFound)
    | some old_o =>
      let a := add_limit_order c.1 new_oid old_o.side new_price new_quantity ts
      (a.1, c.2.1 ++ a.2.1, a.2.2)
  | s => (c.1, c.2.1, s)

/-- The trigger loop of `OrderBook::process_stops`. -/
def process_stops_go (ts : Nat) : OrderBook → List Nat → OrderBook × List Event × Nat
  | b, [] => (b, [], 0)
  | b, id :: rest =>
    if id ∈ b.stop_orders then
      let b1 := { b with stop_orders := b.stop_orders.erase id }
      match b1.pool.find_order id with
      | some o =>
        let o' := o.trigger_stop
        let b2 := { b1 with pool := b1.pool.update id o' }
        let ev := Event.order id OrderEvent.triggered 0 o'.remaining_quantity
        let p := process_new_order b2 id ts
        let r := process_stops_go ts p.1 rest
        (r.1, ev :: p.2.1 ++ r.2.1, r.2.2 + 1)
      | none =>
        let r := process_stops_go ts b1 rest
        (r.1, r.2.1, r.2.2 + 1)
    else
      process_stops_go ts b rest

/-- `OrderBook::process_stops`: snapshot the stops whose trigger condition
holds against the current bests, then trigger each. -/
def process_stops (b : OrderBook) (ts : Nat) : OrderBook × List Event × Nat :=
  let to_trigger := b.stop_orders.filter fun id =>
    match b.pool.find_order id with
    | some o => should_trigger_stop b o
    | none => false
  process_stops_go ts b to_trigger

/-- The cancellation loop of `OrderBook::process_expirations`. -/
def process_expirations_go : OrderBook → List Nat → OrderBook × List Event
  | b, [] => (b, [])
  | b, id :: rest =>
    match b.pool.find_order id with
    | some o =>
      let b1 := remove_from_book b o
      let b2 := { b1 with pool := b1.pool.update id { o with state := OrderState.expired } }
      let b3 := { b2 with pool := b2.pool.destroy id }
      let r := process_expirations_go b3 rest
      (r.1, Event.order id OrderEvent.expired o.filled_quantity 0 :: r.2)
    | none => process_expirations_go b rest

/-- `OrderBook::process_expirations`: collect all expired live orders,
cancel them, and return how many were collected. -/
def process_expirations (b : OrderBook) (current_time : Nat) :
    OrderBook × List Event × Nat :=
  let expired := b.pool.filterMap fun p =>
    if (p.2).is_expired current_time then some p.1 else none
  let r := process_expirations_go b expired
  (r.1, r.2, expired.length)

/-- `OrderBook::clear`: empty every collection and zero the cached bests
(the trade counters are not reset by the source). -/
def clear (b : OrderBook) : OrderBook :=
  { b with
      pool := []
      bids := []
      asks := []
      stop_orders := []
      best_bid := 0
      best_ask := 0 }

end OrderBook

/-- Sum of the remaining quantities of the orders in a level's FIFO (the
right-hand side of the spec's level aggregate invariant, and of the
source's debug `PriceLevel::validate`). -/
def sum_remaining (pool : Pool) (lvl : PriceLevel) : Nat :=
  (lvl.orders.filterMap (pool.find_order ·)).foldr
    (fun o a => o.remaining_quantity + a) 0

/-- Sum of the visible quantities of the orders in a level's FIFO. -/
def sum_visible (pool : Pool) (lvl : PriceLevel) : Nat :=
  (lvl.orders.filterMap (pool.find_order ·)).foldr
    (fun o a => o.visible_quantity + a) 0

section Scenarios

open OrderBook

/-- Book for C1: a single resting buy #1 at 100 for 10, then
`replace_order(1, 2, 110, 20)`. -/
def runC1 : OrderBook × List Event × Status :=
  replace_order (add_limit_order emptyBook 1 Side.buy 100 10 1).1 1 2 110 20 2

/-- Book for C2's counterexample: resting buy #1 at 100, then an incoming
sell #2 crosses it. -/
def runC2 : OrderBook × List Event × Status :=
  add_limit_order (add_limit_order emptyBook 1 Side.buy 100 10 1).1
    2 Side.sell 100 10 2

/-- Book for C5: two plain sells #1 (100) and #2 (50) at 50000, then buy #3
for 100 fully fills #1. -/
def bookC5 : OrderBook :=
  (add_limit_order
    (add_limit_order (add_limit_order emptyBook 1 Side.sell 50000 100 1).1
      2 Side.sell 50000 50 2).1
    3 Side.buy 50000 100 3).1

/-- Book for C6: iceberg sell #1 (total 500, display 100) then plain sell
#2 (50) at 50000, then buy #3 for 100 partially fills the iceberg and
exhausts its visible slice. -/
def bookC6 : OrderBook :=
  (add_limit_order
    (add_limit_order
      (add_order emptyBook 1 OrderType.limit Side.sell 50000 0 500 100
        TimeInForce.gtc 0 0 1).1
      2 Side.sell 50000 50 2).1
    3 Side.buy 50000 100 3).1

/-- Run for C8's counterexample: the spec's scenario 1 (simple cross),
second submission. -/
def runC8 : OrderBook × List Event × Status :=
  add_limit_order (add_limit_order emptyBook 1 Side.sell 15000 100 1).1
    2 Side.buy 15000 100 2

/-- Run for C9: a buy stop (stop price 100, qty 10, expires at 50) parked in
the stop table of an empty book, then `process_expirations(60)`. -/
def runC9 : OrderBook × List Event × Nat :=
  process_expirations
    (add_order emptyBook 1 OrderType.stop Side.buy 0 100 10 0
      TimeInForce.gtc 0 50 1).1 60

/-- The ask book for C7's counterexample: one ask level at 100 with 50. -/
def bookC7 : OrderBook := (add_limit_order emptyBook 1 Side.sell 100 50 1).1

/-- The market FOK buy of C7's counterexample, exactly as
`create_order_full` builds it (market orders submitted through `add_order`
carry the caller's price argument, here 0). -/
def fokOrderC7 : Order :=
  ⟨2, Side.buy, OrderType.market, OrderState.active, TimeInForce.fok,
   0, 0, 0, 50, 0, 0, 0, 2, 0⟩

/-- The FOK feasibility walk as claim C7 states it: for a buy, a level is
included iff its price is at most the buy's limit — except that a market
FOK buy includes all ask levels. -/
def can_fill_fok_claimed (b : OrderBook) (o : Order) : Bool :=
  if o.is_buy then
    can_fill_fok_walk o.remaining_quantity
      (fun p => ¬ o.is_market ∧ o.price < p) 0 b.asks
  else
    can_fill_fok_walk o.remaining_quantity
      (fun p => ¬ o.is_market ∧ p < o.price) 0 b.bids

/-- Witness scenario for C2's amended mapping: resting buy #1 at 100. -/
def wRestBuy : Order :=
  ⟨1, Side.buy, OrderType.limit, OrderState.active, TimeInForce.gtc,
   0, 100, 0, 10, 0, 0, 0, 1, 0⟩

/-- Witness scenario for C2: incoming sell #2 at 100. -/
def wAggSell : Order :=
  ⟨2, Side.sell, OrderType.limit, OrderState.active, TimeInForce.gtc,
   0, 100, 0, 10, 0, 0, 0, 2, 0⟩

def wPool : Pool := [(1, wRestBuy), (2, wAggSell)]

def wLvl : PriceLevel := ⟨100, [1], 10, 10⟩

/-- Witness scenario for C10: resting iceberg sell #1, 500 total with
display 100. -/
def wIceberg : Order :=
  ⟨1, Side.sell, OrderType.limit, OrderState.active, TimeInForce.gtc,
   0, 50000, 0, 500, 0, 100, 0, 1, 0⟩

/-- Witness scenario for C10: incoming buy #2 for 300 — more than the
iceberg's visible slice. -/
def wAggBuy : Order :=
  ⟨2, Side.buy, OrderType.limit, OrderState.active, TimeInForce.gtc,
   0, 50000, 0, 300, 0, 0, 0, 2, 0⟩

def wPoolIce : Pool := [(1, wIceberg), (2, wAggBuy)]

def wLvlIce : PriceLevel := ⟨50000, [1], 500, 100⟩

/-- Witness scenario for C3: buy #1 accepted at time 1, buy #2 accepted at
time 2, both resting at 100; incoming sell #3 for 15. -/
def wA3 : Order :=
  ⟨1, Side.buy, OrderType.limit, OrderState.active, TimeInForce.gtc,
   0, 100, 0, 10, 0, 0, 0, 1, 0⟩

def wB3 : Order :=
  ⟨2, Side.buy, OrderType.limit, OrderState.active, TimeInForce.gtc,
   0, 100, 0, 10, 0, 0, 0, 2, 0⟩

def wAgg3 : Order :=
  ⟨3, Side.sell, OrderType.limit, OrderState.active, TimeInForce.gtc,
   0, 100, 0, 15, 0, 0, 0, 3, 0⟩

def wPool3 : Pool := [(1, wA3), (2, wB3), (3, wAgg3)]

def wLvl3 : PriceLevel := ⟨100, [1, 2], 20, 20⟩

/-- Witness scenario for C8: resting sell #1 at 15000 and the incoming buy
#2 already created in the pool. -/
def wSell8 : Order :=
  ⟨1, Side.sell, OrderType.limit, OrderState.active, TimeInForce.gtc,
   0, 15000, 0, 100, 0, 0, 0, 1, 0⟩

def wBuy8 : Order :=
  ⟨2, Side.buy, OrderType.limit, OrderState.active, TimeInForce.gtc,
   0, 15000, 0, 100, 0, 0, 0, 2, 0⟩

def wBookC8 : OrderBook :=
  ⟨[(1, wSell8), (2, wBuy8)], [], [⟨15000, [1], 100, 100⟩], [], 0, 15000, 0, 0⟩

/-- Witness book for C7's amended walk: one ask level at 100 holding 50 and
the market FOK buy #2 already created in the pool. -/
def wBookC7 : OrderBook :=
  ⟨[(1, ⟨1, Side.sell, OrderType.limit, OrderState.active, TimeInForce.gtc,
      0, 100, 0, 50, 0, 0, 0, 1, 0⟩), (2, fokOrderC7)],
   [], [⟨100, [1], 50, 50⟩], [], 0, 100, 0, 0⟩

/-- Witness order for C8's FOK path: a limit FOK buy of 50 at 100. -/
def wFokBuy : Order :=
  ⟨2, Side.buy, OrderType.limit, OrderState.active, TimeInForce.fok, 0, 100,
    0, 50, 0, 0, 0, 5, 0⟩

/-- Witness book for C8's FOK path: one resting sell of 50 at 100 (OID 1)
with accurate level aggregates, and the incoming FOK buy already in the
pool. -/
def wBookFok : OrderBook :=
  ⟨[(1, ⟨1, Side.sell, OrderType.limit, OrderState.active, TimeInForce.gtc, 0,
      100, 0, 50, 0, 0, 0, 1, 0⟩), (2, wFokBuy)],
    [], [⟨100, [1], 50, 50⟩], [], 0, 100, 0, 0⟩

end Scenarios

/-- The OID an order-event callback is about (`none` for trades). -/
def event_subject : Event → Option Nat
  | Event.trade _ _ _ _ _ => none
  | Event.order oid _ _ _ => some oid

/-- The fill quantities the spec prescribes for one level-match pass: each
fill is the minimum of the aggressor's remaining quantity and the passive's
total remaining quantity, consuming the FIFO head first (claim C10). -/
def spec_fills (agg_rem : Nat) : List Nat → List Nat
  | [] => []
  | r :: rest =>
    if agg_rem = 0 then []
    else
      let f := min agg_rem r
      if f < r then [f] else f :: spec_fills (agg_rem - r) rest

/-- The remaining quantities of a level's FIFO, read through the pool. -/
def queue_remainings (pool : Pool) (q : List Nat) : List Nat :=
  q.filterMap fun id => (pool.find_order id).map Order.remaining_quantity

/-- Largest key of a level collection (0 when empty) — the spec's reading
of "the largest key in the bid level map". -/
def max_key (lvls : List PriceLevel) : Nat :=
  (lvls.map PriceLevel.price).foldr max 0

/-- Smallest key of a level collection (0 when empty). -/
def min_key (lvls : List PriceLevel) : Nat :=
  match lvls with
  | [] => 0
  | lvl :: rest => (rest.map PriceLevel.price).foldr min lvl.price

/-- Keys strictly descending — the `std::map<Price, PriceLevel,
std::greater>` ordering of `bid_levels_`. -/
def sorted_desc : List Nat → Bool
  | [] => true
  | [_] => true
  | a :: b :: r => b < a && sorted_desc (b :: r)

/-- Keys strictly ascending — the ordering of `ask_levels_`. -/
def sorted_asc : List Nat → Bool
  | [] => true
  | [_] => true
  | a :: b :: r => a < b && sorted_asc (b :: r)

/-- Proposition form of `pool_wf`. -/
def pool_ok (pool : Pool) : Prop :=
  (pool.map Prod.fst).Nodup ∧
  ∀ p ∈ pool,
    ((p.2).order_type = OrderType.limit ∨
      (p.2).order_type = OrderType.stopLimit) → 0 < (p.2).price

/-- How a pool changes across one matching pass: assuming unique keys, keys
stay unique and every surviving entry keeps the price and type of the entry
it evolved from (fills and state changes never touch either; destroyed
entries simply disappear). -/
def pool_evolves (p q : Pool) : Prop :=
  (p.map Prod.fst).Nodup →
    (q.map Prod.fst).Nodup ∧
    ∀ id o', q.find_order id = some o' →
      ∃ o, p.find_order id = some o ∧
        o'.order_type = o.order_type ∧ o'.price = o.price

namespace OrderBook

/-- Pool coherence: the `order_lookup_` keys are unique (each OID owns at
most one live slot) and every order carrying a limit price (LIMIT or
STOP_LIMIT typed) has a positive one — both guaranteed on every creation
path by `validate_order` / the duplicate-OID check. -/
def pool_wf (pool : Pool) : Bool :=
  decide (pool.map Prod.fst).Nodup &&
  pool.all fun p =>
    decide ((p.2.order_type = OrderType.limit ∨
      p.2.order_type = OrderType.stopLimit) → 0 < p.2.price)

/-- Well-formedness of a book: the two level collections are sorted as the
source's maps are, ask keys are positive (levels are created only from
validated limit prices), the cached bests equal the frontier keys, and the
pool is coherent. -/
def book_wf (b : OrderBook) : Bool :=
  sorted_desc (b.bids.map PriceLevel.price) &&
  sorted_asc (b.asks.map PriceLevel.price) &&
  b.asks.all (fun l => 0 < l.price) &&
  (b.best_bid = head_price b.bids) &&
  (b.best_ask = head_price b.asks) &&
  pool_wf b.pool

/-- Proposition form of the level/best part of `book_wf`. -/
def levels_ok (b : OrderBook) : Prop :=
  sorted_desc (b.bids.map PriceLevel.price) = true ∧
  sorted_asc (b.asks.map PriceLevel.price) = true ∧
  (∀ q ∈ b.asks.map PriceLevel.price, 0 < q) ∧
  b.best_bid = head_price b.bids ∧
  b.best_ask = head_price b.asks

/-- One public operation of the `OrderBook` API (claim C4's "every public
operation"). -/
inductive BookOp
  | addLimit (oid : Nat) (side : Side) (price quantity : Nat)
  | addMarket (oid : Nat) (side : Side) (quantity : Nat)
  | addFull (oid : Nat) (t : OrderType) (side : Side)
      (price stop_price quantity display_qty : Nat) (tif : TimeInForce)
      (flags expire_time : Nat)
  | cancel (oid : Nat)
  | modify (oid new_quantity : Nat)
  | replace (old_oid new_oid new_price new_quantity : Nat)
  | stops
  | expirations (current_time : Nat)
  | clearOp

/-- Apply one public operation (`ts` is the Context clock sample). -/
def apply_op (b : OrderBook) (ts : Nat) : BookOp → OrderBook
  | BookOp.addLimit oid side price quantity =>
      (add_limit_order b oid side price quantity ts).1
  | BookOp.addMarket oid side quantity =>
      (add_market_order b oid side quantity ts).1
  | BookOp.addFull oid t side price stop_price quantity display_qty tif flags expire_time =>
      (add_order b oid t side price stop_price quantity display_qty tif flags
        expire_time ts).1
  | BookOp.cancel oid => (cancel_order b oid).1
  | BookOp.modify oid new_quantity => (modify_order b oid new_quantity).1
  | BookOp.replace old_oid new_oid new_price new_quantity =>
      (replace_order b old_oid new_oid new_price new_quantity ts).1
  | BookOp.stops => (process_stops b ts).1
  | BookOp.expirations current_time => (process_expirations b current_time).1
  | BookOp.clearOp => clear b

/-- The FOK feasibility criterion of the amended claim C7: walk the ask
side in frontier order and include a level iff its price is at most the
buy's limit price (no market special case); accept iff the included total
volume reaches the order's remaining quantity. -/
def fok_feasible_amended_buy (b : OrderBook) (o : Order) : Bool :=
  o.remaining_quantity ≤
    ((b.asks.filter fun l => l.price ≤ o.price).map PriceLevel.total_volume).sum

end OrderBook

/-!  Theorems.  Each claim's theorem carries the claim id in its doc
comment; the lemmas in between are shared infrastructure. -/

open OrderBook

namespace Order

theorem fill_side (o : Order) (q : Nat) : ((o.fill q).1).side = o.side := by
  simp only [fill]
  split_ifs <;> rfl

theorem fill_order_id (o : Order) (q : Nat) :
    ((o.fill q).1).order_id = o.order_id := by
  simp only [fill]
  split_ifs <;> rfl

theorem fill_price (o : Order) (q : Nat) : ((o.fill q).1).price = o.price := by
  simp only [fill]
  split_ifs <;> rfl

theorem fill_type (o : Order) (q : Nat) :
    ((o.fill q).1).order_type = o.order_type := by
  simp only [fill]
  split_ifs <;> rfl

theorem fill_total (o : Order) (q : Nat) :
    ((o.fill q).1).total_quantity = o.total_quantity := by
  simp only [fill]
  split_ifs <;> rfl

theorem fill_filled (o : Order) (q : Nat) :
    ((o.fill q).1).filled_quantity =
      o.filled_quantity + min q o.remaining_quantity := by
  simp only [fill]
  split_ifs with h <;> simp [h]

theorem fill_remaining (o : Order) (q : Nat) :
    ((o.fill q).1).remaining_quantity =
      o.remaining_quantity - min q o.remaining_quantity := by
  have h1 := fill_total o q
  have h2 := fill_filled o q
  simp only [remaining_quantity] at *
  omega

theorem fill_state_filled_iff (o : Order) (q : Nat)
    (hrem : 0 < o.remaining_quantity) (hq : 0 < q) :
    (((o.fill q).1).state = OrderState.filled) ↔ o.remaining_quantity ≤ q := by
  simp only [remaining_quantity] at *
  simp only [fill, is_iceberg, remaining_quantity]
  have hc : ¬ (min q (o.total_quantity - o.filled_quantity) = 0) := by omega
  simp only [hc, if_false]
  split_ifs <;> simp_all <;> omega

theorem fill_visible_pos (o : Order) (q : Nat)
    (hrem : 0 < o.remaining_quantity) (hq : 0 < q)
    (hnf : ((o.fill q).1).state ≠ OrderState.filled) :
    0 < ((o.fill q).1).visible_quantity := by
  simp only [remaining_quantity] at hrem
  simp only [fill, is_iceberg, remaining_quantity, visible_quantity] at *
  have hc : ¬ (min q (o.total_quantity - o.filled_quantity) = 0) := by omega
  simp only [hc, if_false] at *
  split_ifs at * <;> simp_all <;> omega

end Order

namespace Pool

theorem find_update_self (p : Pool) (id : Nat) (o : Order)
    (h : (p.find_order id).isSome) :
    (p.update id o).find_order id = some o := by
  induction p with
  | nil => simp [find_order] at h
  | cons hd tl ih =>
    obtain ⟨i, x⟩ := hd
    by_cases hi : i = id <;> simp [find_order, update, hi] at h ⊢ <;> simp_all

theorem find_update_of_ne (p : Pool) (id i : Nat) (o : Order) (h : i ≠ id) :
    (p.update id o).find_order i = p.find_order i := by
  induction p with
  | nil => rfl
  | cons hd tl ih =>
    obtain ⟨j, x⟩ := hd
    by_cases hj : j = id <;> by_cases hji : j = i <;>
      simp [find_order, update, hj, hji] at * <;> simp_all [find_order]

theorem find_destroy_of_ne (p : Pool) (id i : Nat) (h : i ≠ id) :
    (p.destroy id).find_order i = p.find_order i := by
  induction p with
  | nil => rfl
  | cons hd tl ih =>
    obtain ⟨j, x⟩ := hd
    by_cases hj : j = id <;> by_cases hji : j = i <;>
      simp [find_order, destroy, hj, hji] at * <;> simp_all [find_order]

end Pool

theorem tradesOf_nil : tradesOf [] = [] := rfl

theorem tradesOf_append (a b : List Event) :
    tradesOf (a ++ b) = tradesOf a ++ tradesOf b := by
  simp [tradesOf, List.filterMap_append]

theorem tradesOf_cons_trade (a b p q t : Nat) (l : List Event) :
    tradesOf (Event.trade a b p q t :: l) = (a, b, p, q, t) :: tradesOf l := rfl

theorem tradesOf_cons_order (i : Nat) (e : OrderEvent) (f r : Nat)
    (l : List Event) :
    tradesOf (Event.order i e f r :: l) = tradesOf l := rfl

theorem spec_fills_zero (l : List Nat) : spec_fills 0 l = [] := by
  cases l <;> simp [spec_fills]

theorem queue_remainings_nil (pool : Pool) : queue_remainings pool [] = [] := rfl

theorem queue_remainings_cons (pool : Pool) (id : Nat) (o : Order)
    (q : List Nat) (h : pool.find_order id = some o) :
    queue_remainings pool (id :: q) =
      o.remaining_quantity :: queue_remainings pool q := by
  simp [queue_remainings, h]

theorem queue_remainings_congr (p1 p2 : Pool) (q : List Nat)
    (h : ∀ id ∈ q, p1.find_order id = p2.find_order id) :
    queue_remainings p1 q = queue_remainings p2 q := by
  induction q with
  | nil => rfl
  | cons hd tl ih =>
    simp only [queue_remainings, List.filterMap_cons] at *
    rw [h hd (by simp), ih fun id hid => h id (by simp [hid])]

/-- C1: `replace_order` is specified to cancel the old order and then add a
fresh order with the old side at the new price and quantity, returning OK
with the new order live.  The source instead looks the old order up *after*
`cancel_order` has destroyed it, so the lookup fails: on a book holding
live order #1 (buy 10 at 100), `replace_order(1, 2, 110, 20)` cancels #1
and then returns ORDER_NOT_FOUND without ever creating #2. -/
theorem replace_order_drops_new_order :
    runC1.2.2 = Status.orderNotFound ∧
    runC1.1.pool.has_order 2 = false ∧
    runC1.1.pool.has_order 1 = false ∧
    runC1.2.1 = [Event.order 1 OrderEvent.cancelled 0 0] := by decide

/-- C5: the level aggregate invariant (asserted by the source's own debug
`PriceLevel::validate`) breaks in `match_orders`, which decrements
`visible_volume_` by `min(match_qty, visible)` computed *after* the fill.
With sells #1 (100) and #2 (50) resting at 50000 and buy #3 for 100 fully
filling #1, the surviving level holds only #2: `total_volume` is the
correct 50, but `visible_volume` stays 150 while the orders' visible sum is
50 — a resting order was fully filled and its visible share never left the
aggregate. -/
theorem match_breaks_visible_volume :
    find_level bookC5.asks 50000 =
      some { price := 50000, orders := [2], total_volume := 50,
             visible_volume := 150 } ∧
    sum_remaining bookC5.pool
      { price := 50000, orders := [2], total_volume := 50,
        visible_volume := 150 } = 50 ∧
    sum_visible bookC5.pool
      { price := 50000, orders := [2], total_volume := 50,
        visible_volume := 150 } = 50 := by decide

/-- C6: the iceberg refresh path in `match_orders` (rotate to tail,
re-add the fresh slice to `visible_volume_`) is dead code: `Order::fill`
has already reset `visible_filled_`, so `visible_quantity() == 0` never
holds for a surviving iceberg.  With iceberg sell #1 (500/display 100) and
plain sell #2 (50) at 50000, a 100-lot buy leaves #1 at the *head*
(`orders = [1, 2]`, not `[2, 1]` as the claim's rotation requires) and
`visible_volume` at 50 instead of the orders' visible sum 150 — the fresh
slice was never re-added. -/
theorem iceberg_slice_not_rotated :
    find_level bookC6.asks 50000 =
      some { price := 50000, orders := [1, 2], total_volume := 450,
             visible_volume := 50 } ∧
    sum_visible bookC6.pool
      { price := 50000, orders := [1, 2], total_volume := 450,
        visible_volume := 50 } = 150 := by decide

/-- C9: `process_expirations` calls `remove_from_book` on every expired
order, but a pending stop is not in any level (its state is PENDING_NEW, so
`remove_from_book` returns without touching anything) and the stop table is
never cleaned: after expiring a parked buy stop #1, the order is destroyed
and ORDER_EXPIRED is emitted with count 1, yet `stop_orders_` still holds
OID 1 — a table entry referencing a destroyed order. -/
theorem expired_stop_left_in_table :
    runC9.2.2 = 1 ∧
    runC9.1.stop_orders = [1] ∧
    runC9.1.pool.find_order 1 = none ∧
    runC9.2.1 = [Event.order 1 OrderEvent.expired 0 0] := by decide

/-- C2 counterexample: with resting buy #1 and incoming sell #2, the single
trade callback is `(1, 2, 100, 10, 2)`: its first OID argument is the
*resting buy* #1, not the incoming order #2 — refuting the claim that the
first argument is always the incoming order's OID. -/
theorem trade_first_slot_not_aggressor :
    tradesOf runC2.2.1 = [(1, 2, 100, 10, 2)] ∧
    runC2.2.1 = [Event.trade 1 2 100 10 2,
      Event.order 1 OrderEvent.filled 10 0,
      Event.order 2 OrderEvent.filled 10 0] := by decide

/-- C8 counterexample: in the simple cross (resting sell #1, incoming buy
#2) the emitted sequence is TRADE, then the *passive's* ORDER_FILLED(#1),
then the aggressor's ORDER_FILLED(#2) — the aggressor's lifecycle event
comes after the passive's, refuting the claimed order (aggressor's event
before every passive event). -/
theorem passive_event_precedes_aggressor_event :
    runC8.2.1 = [Event.trade 2 1 15000 100 2,
      Event.order 1 OrderEvent.filled 100 0,
      Event.order 2 OrderEvent.filled 100 0] := by decide

/-- C7 counterexample: a market FOK buy for 50 against an ask level holding
50 (so the claim's feasibility test — market buys include all ask levels —
accepts) is nevertheless rejected with CANNOT_FILL and no trade:
`can_fill_fok` has no market case, and a market buy's limit price 0 is
below every ask level's price, so the walk breaks immediately. -/
theorem market_fok_buy_cannot_fill :
    can_fill_fok_claimed bookC7 fokOrderC7 = true ∧
    can_fill_fok bookC7 fokOrderC7 = false ∧
    (add_order bookC7 2 OrderType.market Side.buy 0 0 50 0
      TimeInForce.fok 0 0 2).2.2 = Status.cannotFill ∧
    (add_order bookC7 2 OrderType.market Side.buy 0 0 50 0
      TimeInForce.fok 0 0 2).2.1 = [Event.order 2 OrderEvent.rejected 0 0] ∧
    (add_order bookC7 2 OrderType.market Side.buy 0 0 50 0
      TimeInForce.fok 0 0 2).1.asks = bookC7.asks := by decide

/-- Frame/scope facts about one `match_orders` call: the level price is
untouched, every order-event emitted is about an order of the level's FIFO,
the collected `filled_orders` all come from the FIFO, and pool entries of
orders outside the FIFO (other than the aggressor) are untouched. -/
theorem match_scope (fuel : Nat) (pool : Pool) (agg_id maxq tm : Nat)
    (lvl : PriceLevel) (ts : Nat) :
    (match_orders_fuel fuel pool agg_id maxq tm lvl ts).lvl.price = lvl.price ∧
    (∀ e ∈ (match_orders_fuel fuel pool agg_id maxq tm lvl ts).events,
      ∀ i, event_subject e = some i → i ∈ lvl.orders) ∧
    (∀ i ∈ (match_orders_fuel fuel pool agg_id maxq tm lvl ts).filled_ids,
      i ∈ lvl.orders) ∧
    (∀ i, i ∉ lvl.orders → i ≠ agg_id →
      (match_orders_fuel fuel pool agg_id maxq tm lvl ts).pool.find_order i =
        pool.find_order i) := by
  induction fuel generalizing pool lvl tm with
  | zero => simp [match_orders_fuel]
  | succ fuel ih =>
    rw [match_orders_fuel]
    by_cases hg : tm < maxq
    · simp only [if_pos hg]
      cases hq : lvl.orders with
      | nil => simp [event_subject]
      | cons pass_id restq =>
        cases hfp : pool.find_order pass_id with
        | none => simp [hfp, event_subject]
        | some passive =>
          cases hfa : pool.find_order agg_id with
          | none => simp [hfp, hfa, event_subject]
          | some agg =>
            simp only [hfp, hfa]
            generalize (maxq - tm) ⊓ passive.remaining_quantity = mq
            generalize (agg.fill mq).1 = aggF
            generalize (passive.fill mq).1 = passF
            have hframe : ∀ i, i ≠ pass_id → i ≠ agg_id →
                (((pool.update agg_id aggF).update pass_id passF).find_order i) =
                  pool.find_order i := by
              intro i h1 h2
              rw [Pool.find_update_of_ne _ _ _ _ h1,
                Pool.find_update_of_ne _ _ _ _ h2]
            by_cases haf : aggF.is_filled = true
            · simp only [if_pos haf]
              split_ifs <;> refine ⟨rfl, ?_, ?_, ?_⟩ <;>
                first
                | ((intro e he; simp at he;
                    (first | (obtain rfl | rfl := he) | (obtain rfl := he)) <;>
                    simp [event_subject]); done)
                | ((intro i hi; simp at hi; simp [hi]); done)
                | ((intro i hi; simp at hi); done)
                | ((intro i hi1 hi2; simp at hi1;
                    exact hframe i (by tauto) hi2); done)
            · simp only [if_neg haf]
              split_ifs <;> refine ⟨?_, ?_, ?_, ?_⟩ <;>
                first
                | (exact (ih _ _ _).1)
                | ((intro e he
                    rcases List.mem_append.1 he with he | he
                    · simp at he
                      (first | (obtain rfl | rfl := he) | (obtain rfl := he)) <;>
                        simp [event_subject]
                    · intro i hi
                      have h5 := (ih _ _ _).2.1 e he i hi
                      simp at h5 ⊢
                      tauto); done)
                | ((intro i hi
                    rcases List.mem_append.1 hi with hi | hi
                    · first
                      | (simp at hi; simp [hi])
                      | (simp at hi)
                    · have h5 := (ih _ _ _).2.2.1 i hi
                      simp at h5 ⊢
                      tauto); done)
                | ((intro i hi1 hi2
                    simp at hi1
                    rw [(ih _ _ _).2.2.2 i (by simp; tauto) hi2]
                    exact hframe i (by tauto) hi2); done)
    · simp [if_neg hg]

theorem is_filled_iff (o : Order) :
    (o.is_filled = true) ↔ o.state = OrderState.filled := by
  simp [Order.is_filled]

/-- Characterisation of one `match_orders` run on a well-formed level (all
FIFO entries live with positive remaining quantity, no duplicates, the
aggressor not resting in the level): some prefix of length `k` of the FIFO
is fully consumed, the surviving queue is exactly the corresponding
`drop k` (no reordering — in particular no iceberg rotation), the trades
hit the first `m` orders in FIFO order with `m = k` or `m = k + 1` (a last
partial fill), the buy/sell OID slots of every trade follow the incoming
side, and the fill quantities are exactly `spec_fills` — the head-first
min(aggressor remaining, passive total remaining) schedule. -/
theorem match_run (fuel : Nat) (pool : Pool) (agg_id maxq tm : Nat)
    (lvl : PriceLevel) (ts : Nat) (agg : Order)
    (hfa : pool.find_order agg_id = some agg)
    (hrem : agg.remaining_quantity = maxq - tm)
    (htm : tm ≤ maxq)
    (hlive : ∀ id ∈ lvl.orders, ∃ o, pool.find_order id = some o ∧
      0 < o.remaining_quantity)
    (hnodup : lvl.orders.Nodup)
    (hnagg : agg_id ∉ lvl.orders)
    (hfuel : lvl.orders.length < fuel) :
    ∃ k m,
      m ≤ lvl.orders.length ∧ (m = k ∨ m = k + 1) ∧ k ≤ m ∧
      (match_orders_fuel fuel pool agg_id maxq tm lvl ts).lvl.orders =
        lvl.orders.drop k ∧
      (tradesOf (match_orders_fuel fuel pool agg_id maxq tm lvl ts).events).map
          (fun t => if agg.side = Side.buy then t.2.1 else t.1) =
        lvl.orders.take m ∧
      (∀ t ∈ tradesOf (match_orders_fuel fuel pool agg_id maxq tm lvl ts).events,
        (if agg.side = Side.buy then t.1 else t.2.1) = agg_id) ∧
      (tradesOf (match_orders_fuel fuel pool agg_id maxq tm lvl ts).events).map
          (fun t => t.2.2.2.1) =
        spec_fills (maxq - tm) (queue_remainings pool lvl.orders) ∧
      (∀ id ∈ lvl.orders.take k,
        ∃ o', (match_orders_fuel fuel pool agg_id maxq tm lvl ts).pool.find_order
            id = some o' ∧ o'.remaining_quantity = 0) := by
  induction fuel generalizing pool lvl tm agg with
  | zero => omega
  | succ fuel ih =>
    rw [match_orders_fuel]
    by_cases hg : tm < maxq
    · simp only [if_pos hg]
      cases hq : lvl.orders with
      | nil =>
        refine ⟨0, 0, ?_⟩
        simp [hq, tradesOf, spec_fills, queue_remainings]
      | cons pass_id restq =>
        obtain ⟨passive, hfp, hpr⟩ := hlive pass_id (by simp [hq])
        simp only [hfp, hfa]
        have hpid_ne : pass_id ≠ agg_id := by
          intro h
          exact hnagg (h ▸ (by simp [hq]))
        have hpassnodup : pass_id ∉ restq := by
          rw [hq] at hnodup
          exact (List.nodup_cons.1 hnodup).1
        have hrestnodup : restq.Nodup := by
          rw [hq] at hnodup
          exact (List.nodup_cons.1 hnodup).2
        have hnagg' : agg_id ∉ restq := fun h => hnagg (by simp [hq, h])
        set mq := (maxq - tm) ⊓ passive.remaining_quantity with hmq
        have hmq_pos : 0 < mq := by
          rw [hmq]
          exact lt_min (by omega) hpr
        have hfind_pass1 :
            (((pool.update agg_id (agg.fill mq).1).update pass_id
              (passive.fill mq).1).find_order pass_id) =
              some (passive.fill mq).1 := by
          apply Pool.find_update_self
          rw [Pool.find_update_of_ne _ _ _ _ hpid_ne, hfp]
          rfl
        have hfind_agg1 :
            (((pool.update agg_id (agg.fill mq).1).update pass_id
              (passive.fill mq).1).find_order agg_id) =
              some (agg.fill mq).1 := by
          rw [Pool.find_update_of_ne _ _ _ _ (Ne.symm hpid_ne)]
          apply Pool.find_update_self
          rw [hfa]
          rfl
        have hframe1 : ∀ i, i ≠ pass_id → i ≠ agg_id →
            (((pool.update agg_id (agg.fill mq).1).update pass_id
              (passive.fill mq).1).find_order i) = pool.find_order i := by
          intro i h1 h2
          rw [Pool.find_update_of_ne _ _ _ _ h1,
            Pool.find_update_of_ne _ _ _ _ h2]
        have hqr : queue_remainings pool (pass_id :: restq) =
            passive.remaining_quantity :: queue_remainings pool restq :=
          queue_remainings_cons pool pass_id passive restq hfp
        by_cases hcase : passive.remaining_quantity ≤ maxq - tm
        · -- the passive is consumed whole
          have hmq_eq : mq = passive.remaining_quantity := min_eq_right hcase
          have hpfT : ((passive.fill mq).1).is_filled = true := by
            rw [is_filled_iff, Order.fill_state_filled_iff passive mq hpr hmq_pos]
            omega
          have hpassrem0 : ((passive.fill mq).1).remaining_quantity = 0 := by
            rw [Order.fill_remaining]
            omega
          simp only [if_pos hpfT]
          by_cases hacase : maxq - tm ≤ passive.remaining_quantity
          · -- the aggressor is simultaneously exhausted
            have hmq_eq' : mq = maxq - tm := by
              rw [hmq]
              exact min_eq_left hacase
            have hafT : ((agg.fill mq).1).is_filled = true := by
              rw [is_filled_iff, Order.fill_state_filled_iff agg mq (by omega) hmq_pos]
              omega
            simp only [if_pos hafT]
            refine ⟨1, 1, by simp, by omega, by omega, by simp, ?_, ?_, ?_, ?_⟩
            · by_cases hb : agg.side = Side.buy <;>
                simp [Order.is_buy, hb, tradesOf]
            · by_cases hb : agg.side = Side.buy <;>
                simp [Order.is_buy, hb, tradesOf]
            · rw [hqr]
              have hsf : spec_fills (maxq - tm) (passive.remaining_quantity ::
                  queue_remainings pool restq) = [mq] := by
                rw [hmq]
                simp only [spec_fills]
                rw [if_neg (show ¬(maxq - tm = 0) by omega)]
                rw [if_neg (show ¬((maxq - tm) ⊓ passive.remaining_quantity <
                    passive.remaining_quantity) by omega)]
                rw [show maxq - tm - passive.remaining_quantity = 0 by omega,
                  spec_fills_zero]
              rw [hsf]
              by_cases hb : agg.side = Side.buy <;>
                simp [Order.is_buy, hb, tradesOf]
            · intro id hid
              simp at hid
              subst hid
              exact ⟨(passive.fill mq).1, hfind_pass1, hpassrem0⟩
          · -- passive consumed whole, aggressor continues into the rest
            have hmq_lt : passive.remaining_quantity < maxq - tm := by omega
            have hmq_eq : mq = passive.remaining_quantity := min_eq_right hcase
            have hafF : ¬(((agg.fill mq).1).is_filled = true) := by
              rw [is_filled_iff, Order.fill_state_filled_iff agg mq (by omega) hmq_pos]
              omega
            simp only [if_neg hafF]
            generalize hL1 : ({ lvl with
                orders := restq
                total_volume := wsub32 lvl.total_volume mq
                visible_volume := wsub32 lvl.visible_volume
                  (min mq ((passive.fill mq).1).visible_quantity) } :
              PriceLevel) = lvl1
            have hl1o : lvl1.orders = restq := by rw [← hL1]
            have hrem' : ((agg.fill mq).1).remaining_quantity =
                maxq - (tm + mq) := by
              rw [Order.fill_remaining, hrem]
              omega
            have hlive' : ∀ id ∈ lvl1.orders, ∃ o,
                (((pool.update agg_id (agg.fill mq).1).update pass_id
                  (passive.fill mq).1).find_order id) = some o ∧
                0 < o.remaining_quantity := by
              rw [hl1o]
              intro id hid
              obtain ⟨o, ho, hor⟩ := hlive id (by simp [hq, hid])
              refine ⟨o, ?_, hor⟩
              rw [hframe1 id (fun h => hpassnodup (h ▸ hid))
                (fun h => hnagg' (h ▸ hid)), ho]
            have hfuel' : lvl1.orders.length < fuel := by
              rw [hq] at hfuel
              rw [hl1o]
              simp at hfuel
              omega
            obtain ⟨k', m', h1, h2, h3, h4, h5, h6, h7, h8⟩ :=
              ih _ (tm + mq) lvl1 ((agg.fill mq).1) hfind_agg1 hrem'
                (by omega) hlive' (hl1o ▸ hrestnodup) (hl1o ▸ hnagg') hfuel'
            rw [hl1o] at h1 h4 h5
            have hfr := (match_scope fuel
              ((pool.update agg_id (agg.fill mq).1).update pass_id
                (passive.fill mq).1) agg_id maxq (tm + mq) lvl1 ts).2.2.2
            refine ⟨k' + 1, m' + 1, by simp; omega, by omega, by omega,
              ?_, ?_, ?_, ?_, ?_⟩
            · dsimp only
              rw [h4, List.drop_succ_cons]
            · -- the passive-slot projection of the trades
              dsimp only
              by_cases hb : agg.side = Side.buy <;>
                simp [Order.fill_side, hb] at h5 <;>
                simp [Order.is_buy, hb, tradesOf_append, tradesOf_cons_trade,
                  h5, List.take_succ_cons]
            · -- the aggressor-slot of every trade
              dsimp only
              intro t ht
              by_cases hb : agg.side = Side.buy
              · simp [Order.is_buy, hb, tradesOf_append,
                  tradesOf_cons_trade] at ht
                rcases ht with rfl | ht
                · simp [hb]
                · have h6' := h6 t ht
                  simp [Order.fill_side, hb] at h6' ⊢
                  exact h6'
              · simp [Order.is_buy, hb, tradesOf_append,
                  tradesOf_cons_trade] at ht
                rcases ht with rfl | ht
                · simp [hb]
                · have h6' := h6 t ht
                  simp [Order.fill_side, hb] at h6' ⊢
                  exact h6'
            · -- the fill quantities against the spec
              dsimp only
              rw [queue_remainings_congr _ pool _ (by
                rw [hl1o]
                intro id hid
                exact hframe1 id (fun h => hpassnodup (h ▸ hid))
                  (fun h => hnagg' (h ▸ hid)))] at h7
              rw [hl1o] at h7
              rw [hqr]
              have hsf : spec_fills (maxq - tm) (passive.remaining_quantity ::
                  queue_remainings pool restq) =
                  mq :: spec_fills (maxq - (tm + mq))
                    (queue_remainings pool restq) := by
                simp only [spec_fills]
                rw [if_neg (show ¬(maxq - tm = 0) by omega)]
                rw [if_neg (show ¬((maxq - tm) ⊓ passive.remaining_quantity <
                    passive.remaining_quantity) by omega)]
                rw [show maxq - tm - passive.remaining_quantity =
                    maxq - (tm + mq) from by omega]
              rw [hsf]
              by_cases hb : agg.side = Side.buy <;>
                simp [Order.is_buy, hb, tradesOf_append, tradesOf_cons_trade, h7]
            · -- the consumed prefix is fully filled in the pool
              dsimp only
              intro id hid
              rw [List.take_succ_cons] at hid
              rcases List.mem_cons.1 hid with rfl | hid
              · refine ⟨(passive.fill mq).1, ?_, hpassrem0⟩
                rw [hfr id (by rw [hl1o]; exact hpassnodup) hpid_ne]
                exact hfind_pass1
              · exact h8 id (by rw [hl1o]; exact hid)
        · -- the aggressor is exhausted against a partially consumed passive
          have hmq_eq : mq = maxq - tm := by
            rw [hmq]
            exact min_eq_left (by omega)
          have hpfF : ¬(((passive.fill mq).1).is_filled = true) := by
            rw [is_filled_iff, Order.fill_state_filled_iff passive mq hpr hmq_pos]
            omega
          have hafT : ((agg.fill mq).1).is_filled = true := by
            rw [is_filled_iff, Order.fill_state_filled_iff agg mq (by omega) hmq_pos]
            omega
          have hfq : 0 < ((passive.fill mq).1).filled_quantity := by
            rw [Order.fill_filled]
            omega
          have hrot : ¬(((passive.fill mq).1).is_iceberg = true ∧
              ((passive.fill mq).1).visible_quantity = 0) := by
            rintro ⟨hi, hv⟩
            have hvp := Order.fill_visible_pos passive mq hpr hmq_pos (by
              intro h
              apply hpfF
              rw [is_filled_iff]
              exact h)
            omega
          simp only [if_neg hpfF, if_pos hafT, if_pos hfq, if_neg hrot]
          refine ⟨0, 1, by simp, by omega, by omega, by simp, ?_, ?_, ?_, by simp⟩
          · by_cases hb : agg.side = Side.buy <;>
              simp [Order.is_buy, hb, tradesOf]
          · intro t ht
            by_cases hb : agg.side = Side.buy <;>
              simp [Order.is_buy, hb, tradesOf] at ht <;>
              subst ht <;> simp [hb]
          · rw [hqr]
            have hsf : spec_fills (maxq - tm) (passive.remaining_quantity ::
                queue_remainings pool restq) =
                [(maxq - tm) ⊓ passive.remaining_quantity] := by
              simp only [spec_fills]
              rw [if_neg (show ¬(maxq - tm = 0) by omega)]
              rw [if_pos (show (maxq - tm) ⊓ passive.remaining_quantity <
                  passive.remaining_quantity by omega)]
            rw [hsf]
            by_cases hb : agg.side = Side.buy <;>
              simp [Order.is_buy, hb, tradesOf]
    · simp only [if_neg hg]
      refine ⟨0, 0, ?_⟩
      have h0 : maxq - tm = 0 := by omega
      simp [tradesOf, h0, spec_fills_zero]

/-- C2 (amended): the two OID arguments of every trade callback are the
buy-side OID first and the sell-side OID second, resolved from the incoming
order's side: when the incoming order is a buy the first argument is the
incoming OID and the second a resting order's OID; when the incoming order
is a sell the second argument is the incoming OID and the first a resting
order's OID. -/
theorem trade_slots_by_side (fuel : Nat) (pool : Pool) (agg_id maxq : Nat)
    (lvl : PriceLevel) (ts : Nat) (agg : Order)
    (hfa : pool.find_order agg_id = some agg)
    (hrem : agg.remaining_quantity = maxq)
    (hlive : ∀ id ∈ lvl.orders, ∃ o, pool.find_order id = some o ∧
      0 < o.remaining_quantity)
    (hnodup : lvl.orders.Nodup)
    (hnagg : agg_id ∉ lvl.orders)
    (hfuel : lvl.orders.length < fuel) :
    ∀ t ∈ tradesOf (match_orders_fuel fuel pool agg_id maxq 0 lvl ts).events,
      (agg.side = Side.buy → t.1 = agg_id ∧ t.2.1 ∈ lvl.orders) ∧
      (agg.side = Side.sell → t.2.1 = agg_id ∧ t.1 ∈ lvl.orders) := by
  obtain ⟨k, m, h1, h2, h3, h4, h5, h6, h7, h8⟩ :=
    match_run fuel pool agg_id maxq 0 lvl ts agg hfa (by omega) (by omega)
      hlive hnodup hnagg hfuel
  intro t ht
  have hslot := h6 t ht
  have hpass : (if agg.side = Side.buy then t.2.1 else t.1) ∈ lvl.orders := by
    have hm : (if agg.side = Side.buy then t.2.1 else t.1) ∈
        (tradesOf (match_orders_fuel fuel pool agg_id maxq 0 lvl ts).events).map
          (fun t => if agg.side = Side.buy then t.2.1 else t.1) :=
      List.mem_map_of_mem _ ht
    rw [h5] at hm
    exact List.take_subset m _ hm
  constructor
  · intro hb
    rw [if_pos hb] at hslot hpass
    exact ⟨hslot, hpass⟩
  · intro hs
    have hb : ¬(agg.side = Side.buy) := by simp [hs]
    rw [if_neg hb] at hslot hpass
    exact ⟨hslot, hpass⟩

theorem trade_slots_by_side_witness :
    ((1, 2, 100, 10, 5) : Nat × Nat × Nat × Nat × Nat) ∈
      tradesOf (match_orders_fuel 2 wPool 2 10 0 wLvl 5).events ∧
    ((wAggSell.side = Side.buy → 1 = 2 ∧ (2 : Nat) ∈ wLvl.orders) ∧
     (wAggSell.side = Side.sell → 2 = 2 ∧ (1 : Nat) ∈ wLvl.orders)) :=
  ⟨by decide,
   trade_slots_by_side 2 wPool 2 10 wLvl 5 wAggSell (by decide) (by decide)
     (fun id hid => by
       simp [wLvl] at hid
       subst hid
       exact ⟨wRestBuy, by decide, by decide⟩)
     (by decide) (by decide) (by decide)
     ((1, 2, 100, 10, 5) : Nat × Nat × Nat × Nat × Nat) (by decide)⟩

/-- C10: the per-trade fill quantities of a level match are exactly
`spec_fills` — head first, each fill the minimum of the aggressor's
remaining quantity and the passive's total remaining quantity, with no cap
at the passive's display/visible slice (`spec_fills` reads only
`remaining_quantity`; the witness fills 300 of an iceberg showing 100). -/
theorem match_fill_quantities (fuel : Nat) (pool : Pool) (agg_id : Nat)
    (lvl : PriceLevel) (ts : Nat) (agg : Order)
    (hfa : pool.find_order agg_id = some agg)
    (hlive : ∀ id ∈ lvl.orders, ∃ o, pool.find_order id = some o ∧
      0 < o.remaining_quantity)
    (hnodup : lvl.orders.Nodup)
    (hnagg : agg_id ∉ lvl.orders)
    (hfuel : lvl.orders.length < fuel) :
    (tradesOf (match_orders_fuel fuel pool agg_id agg.remaining_quantity 0
        lvl ts).events).map (fun t => t.2.2.2.1) =
      spec_fills agg.remaining_quantity (queue_remainings pool lvl.orders) := by
  obtain ⟨k, m, h1, h2, h3, h4, h5, h6, h7, h8⟩ :=
    match_run fuel pool agg_id agg.remaining_quantity 0 lvl ts agg hfa
      (by omega) (by omega) hlive hnodup hnagg hfuel
  simpa using h7

theorem match_fill_quantities_witness :
    ((tradesOf (match_orders_fuel 2 wPoolIce 2 wAggBuy.remaining_quantity 0
        wLvlIce 5).events).map (fun t => t.2.2.2.1) =
      spec_fills wAggBuy.remaining_quantity
        (queue_remainings wPoolIce wLvlIce.orders)) ∧
    spec_fills wAggBuy.remaining_quantity
      (queue_remainings wPoolIce wLvlIce.orders) = [300] :=
  ⟨match_fill_quantities 2 wPoolIce 2 wLvlIce 5 wAggBuy (by decide)
    (fun id hid => by
      simp [wLvlIce] at hid
      subst hid
      exact ⟨wIceberg, by decide, by decide⟩)
    (by decide) (by decide) (by decide), by decide⟩

theorem nodup_get_mem_take (l : List Nat) (hnd : l.Nodup) (m i : Nat)
    (hi : i < l.length) (h : l[i] ∈ l.take m) : i < m := by
  obtain ⟨j, hj, hjeq⟩ := List.getElem_of_mem h
  rw [List.length_take] at hj
  rw [List.getElem_take] at hjeq
  have := (List.Nodup.getElem_inj_iff hnd).1 hjeq
  omega

theorem nodup_getElem_mem_take (l : List Nat) (m i : Nat)
    (hi : i < l.length) (h : i < m) : l[i] ∈ l.take m := by
  have hm : i < (l.take m).length := by
    rw [List.length_take]
    omega
  have heq : (l.take m)[i] = l[i] := List.getElem_take l
  rw [← heq]
  exact List.getElem_mem hm

theorem nodup_not_mem_drop (l : List Nat) (hnd : l.Nodup) (k i : Nat)
    (hi : i < l.length) (h : i < k) : l[i] ∉ l.drop k := by
  intro hmem
  obtain ⟨j, hj, hjeq⟩ := List.getElem_of_mem hmem
  rw [List.length_drop] at hj
  have heq : (l.drop k)[j] = l[k + j] := by
    rw [List.getElem_drop]
  rw [heq] at hjeq
  have := (List.Nodup.getElem_inj_iff hnd).1 hjeq
  omega

/-- C3: FIFO time priority at a price level.  If the level FIFO lists
orders in non-decreasing creation-time order (`hpw` — maintained because
`add_order` appends at the tail, third conjunct, under a monotone clock)
and order `b` was created strictly later than order `a`, then whenever `b`
receives any fill during a match, `a` has already been fully filled and
removed from the level. -/
theorem level_fifo_time_priority (fuel : Nat) (pool : Pool)
    (agg_id maxq : Nat) (lvl : PriceLevel) (ts : Nat) (agg a b : Order)
    (aId bId : Nat)
    (hfa : pool.find_order agg_id = some agg)
    (hrem : agg.remaining_quantity = maxq)
    (hlive : ∀ id ∈ lvl.orders, ∃ o, pool.find_order id = some o ∧
      0 < o.remaining_quantity)
    (hnodup : lvl.orders.Nodup)
    (hnagg : agg_id ∉ lvl.orders)
    (hfuel : lvl.orders.length < fuel)
    (hA : pool.find_order aId = some a)
    (hB : pool.find_order bId = some b)
    (haq : aId ∈ lvl.orders)
    (hbq : bId ∈ lvl.orders)
    (hpw : List.Pairwise (fun x y => ∀ ox oy,
      pool.find_order x = some ox → pool.find_order y = some oy →
      ox.created_time ≤ oy.created_time) lvl.orders)
    (hab : a.created_time < b.created_time)
    (htraded : ∃ t ∈ tradesOf
        (match_orders_fuel fuel pool agg_id maxq 0 lvl ts).events,
      (if agg.side = Side.buy then t.2.1 else t.1) = bId) :
    aId ∉ (match_orders_fuel fuel pool agg_id maxq 0 lvl ts).lvl.orders ∧
    (∃ a', (match_orders_fuel fuel pool agg_id maxq 0 lvl ts).pool.find_order
        aId = some a' ∧ a'.remaining_quantity = 0) ∧
    (∀ (l2 : PriceLevel) (o : Order),
      (l2.add_order o).orders = l2.orders ++ [o.order_id]) := by
  obtain ⟨ia, hia⟩ := List.mem_iff_get.1 haq
  obtain ⟨ib, hib⟩ := List.mem_iff_get.1 hbq
  have hlt : (ia : Nat) < (ib : Nat) := by
    rcases Nat.lt_trichotomy (ia : Nat) (ib : Nat) with h | h | h
    · exact h
    · exfalso
      have : aId = bId := by
        rw [← hia, ← hib]
        congr 1
        exact Fin.ext h
      rw [this, hB] at hA
      have hba : b = a := by injection hA
      rw [hba] at hab
      omega
    · exfalso
      have hb' : pool.find_order (lvl.orders.get ib) = some b := by
        rw [hib]
        exact hB
      have ha' : pool.find_order (lvl.orders.get ia) = some a := by
        rw [hia]
        exact hA
      have := (List.pairwise_iff_get.1 hpw) ib ia h b a hb' ha'
      omega
  obtain ⟨k, m, h1, h2, h3, h4, h5, h6, h7, h8⟩ :=
    match_run fuel pool agg_id maxq 0 lvl ts agg hfa (by omega) (by omega)
      hlive hnodup hnagg hfuel
  obtain ⟨t, ht, hslot⟩ := htraded
  have hbtake : bId ∈ lvl.orders.take m := by
    rw [← h5, ← hslot]
    exact List.mem_map_of_mem _ ht
  have hibm : (ib : Nat) < m := by
    apply nodup_get_mem_take lvl.orders hnodup m ib ib.2
    have hg : lvl.orders[(ib : Nat)] = bId := by
      rw [← hib]
      simp
    rw [hg]
    exact hbtake
  have hiak : (ia : Nat) < k := by omega
  have hga : lvl.orders[(ia : Nat)] = aId := by
    rw [← hia]
    simp
  have hatake : aId ∈ lvl.orders.take k := by
    rw [← hga]
    exact nodup_getElem_mem_take lvl.orders k ia ia.2 hiak
  refine ⟨?_, h8 aId hatake, fun l2 o => rfl⟩
  rw [h4, ← hga]
  exact nodup_not_mem_drop lvl.orders hnodup k ia ia.2 hiak

theorem level_fifo_time_priority_witness :
    wA3.created_time < wB3.created_time ∧
    (1 ∉ (match_orders_fuel 3 wPool3 3 15 0 wLvl3 7).lvl.orders ∧
     (∃ a', (match_orders_fuel 3 wPool3 3 15 0 wLvl3 7).pool.find_order 1 =
       some a' ∧ a'.remaining_quantity = 0) ∧
     (∀ (l2 : PriceLevel) (o : Order),
       (l2.add_order o).orders = l2.orders ++ [o.order_id])) :=
  ⟨by decide,
   level_fifo_time_priority 3 wPool3 3 15 wLvl3 7 wAgg3 wA3 wB3 1 2
     (by decide) (by decide)
     (fun id hid => by
       simp [wLvl3] at hid
       rcases hid with rfl | rfl
       · exact ⟨wA3, by decide, by decide⟩
       · exact ⟨wB3, by decide, by decide⟩)
     (by decide) (by decide) (by decide) (by decide) (by decide)
     (by decide) (by decide)
     (by
       constructor
       · intro y hy ox oy hox hoy
         simp [wLvl3] at hy
         subst hy
         rw [show wPool3.find_order 1 = some wA3 from rfl] at hox
         rw [show wPool3.find_order 2 = some wB3 from rfl] at hoy
         injection hox with e1
         injection hoy with e2
         subst e1
         subst e2
         decide
       · constructor
         · intro y hy
           simp at hy
         · exact List.Pairwise.nil)
     (by decide) (by decide)⟩

theorem fill_tif (o : Order) (q : Nat) :
    ((o.fill q).1).time_in_force = o.time_in_force := by
  simp only [Order.fill]
  split_ifs <;> rfl

theorem fill_P (o : Order) (q : Nat)
    (hP : o.remaining_quantity = 0 → o.state = OrderState.filled)
    (h0 : ((o.fill q).1).remaining_quantity = 0) :
    ((o.fill q).1).state = OrderState.filled := by
  by_cases hr : o.remaining_quantity = 0
  · have hid : (o.fill q).1 = o := by simp [Order.fill, hr]
    rw [hid]
    exact hP hr
  · by_cases hq : q = 0
    · have hid : (o.fill q).1 = o := by simp [Order.fill, hq]
      rw [hid] at h0
      exact absurd h0 hr
    · rw [Order.fill_state_filled_iff o q (by omega) (by omega)]
      have := Order.fill_remaining o q
      omega

theorem pool_update_isSome (p : Pool) (id : Nat) (o : Order) (i : Nat) :
    ((p.update id o).find_order i).isSome = (p.find_order i).isSome := by
  by_cases h : i = id
  · subst h
    by_cases hs : (p.find_order i).isSome
    · rw [Pool.find_update_self p i o hs, hs]
      rfl
    · have : p.find_order i = none := by
        cases hfo : p.find_order i
        · rfl
        · rw [hfo] at hs
          simp at hs
      induction p with
      | nil => rfl
      | cons hd tl ih =>
        obtain ⟨j, x⟩ := hd
        by_cases hj : j = i <;>
          simp [Pool.find_order, Pool.update, hj] at this ⊢ <;> simp_all
  · rw [Pool.find_update_of_ne p id i o h]

theorem destroy_filled_frame (pool : Pool) (ids : List Nat) (i : Nat)
    (h : i ∉ ids) :
    ((destroy_filled pool ids).1).find_order i = pool.find_order i := by
  induction ids generalizing pool with
  | nil => rfl
  | cons hd tl ih =>
    simp at h
    cases hfo : pool.find_order hd <;> simp [destroy_filled, hfo]
    · exact ih pool h.2
    · rw [ih (pool.destroy hd) h.2]
      exact Pool.find_destroy_of_ne pool hd i h.1

theorem destroy_filled_subjects (pool : Pool) (ids : List Nat) :
    ∀ e ∈ (destroy_filled pool ids).2, ∀ i, event_subject e = some i →
      i ∈ ids := by
  induction ids generalizing pool with
  | nil => intro e he; simp [destroy_filled] at he
  | cons hd tl ih =>
    intro e he i hi
    cases hfo : pool.find_order hd <;> simp [destroy_filled, hfo] at he
    · exact List.mem_cons_of_mem _ (ih pool e he i hi)
    · rcases he with rfl | he
      · simp [event_subject] at hi
        simp [hi]
      · exact List.mem_cons_of_mem _ (ih (pool.destroy hd) e he i hi)

theorem mof_agg_entry (fuel : Nat) (pool : Pool) (agg_id maxq tm : Nat)
    (lvl : PriceLevel) (ts : Nat) (a : Order)
    (hfa : pool.find_order agg_id = some a)
    (hnagg : agg_id ∉ lvl.orders)
    (hP : a.remaining_quantity = 0 → a.state = OrderState.filled) :
    ∃ a', (match_orders_fuel fuel pool agg_id maxq tm lvl ts).pool.find_order
        agg_id = some a' ∧
      a'.order_type = a.order_type ∧ a'.time_in_force = a.time_in_force ∧
      (a'.remaining_quantity = 0 → a'.state = OrderState.filled) := by
  induction fuel generalizing pool lvl tm a with
  | zero => exact ⟨a, hfa, rfl, rfl, hP⟩
  | succ fuel ih =>
    rw [match_orders_fuel]
    by_cases hg : tm < maxq
    · simp only [if_pos hg]
      cases hq : lvl.orders with
      | nil => exact ⟨a, hfa, rfl, rfl, hP⟩
      | cons pass_id restq =>
        cases hfp : pool.find_order pass_id with
        | none => simp [hfp]; exact ⟨a, hfa, rfl, rfl, hP⟩
        | some passive =>
          simp only [hfp, hfa]
          have hpne : pass_id ≠ agg_id := fun h => hnagg (h ▸ by simp [hq])
          generalize (maxq - tm) ⊓ passive.remaining_quantity = mq
          have hfa1 : (((pool.update agg_id (a.fill mq).1).update pass_id
              (passive.fill mq).1).find_order agg_id) = some (a.fill mq).1 := by
            rw [Pool.find_update_of_ne _ _ _ _ (Ne.symm hpne)]
            apply Pool.find_update_self
            rw [hfa]
            rfl
          have hP1 : ((a.fill mq).1).remaining_quantity = 0 →
              ((a.fill mq).1).state = OrderState.filled := fill_P a mq hP
          have htype := Order.fill_type a mq
          have htif := fill_tif a mq
          generalize hpF : (passive.fill mq).1 = passF
          rw [hpF] at hfa1
          have hrec : ∀ (lvl1 : PriceLevel) (tm1 : Nat), agg_id ∉ lvl1.orders →
              ∃ a', (match_orders_fuel fuel
                  ((pool.update agg_id (a.fill mq).1).update pass_id passF)
                  agg_id maxq tm1 lvl1 ts).pool.find_order agg_id = some a' ∧
                a'.order_type = a.order_type ∧
                a'.time_in_force = a.time_in_force ∧
                (a'.remaining_quantity = 0 → a'.state = OrderState.filled) := by
            intro lvl1 tm1 hn1
            obtain ⟨a', ha', ht', hf', hp'⟩ := ih _ tm1 lvl1 _ hfa1 hn1 hP1
            exact ⟨a', ha', ht'.trans htype, hf'.trans htif, hp'⟩
          split_ifs with h1 h2 h3 <;> dsimp only <;>
            first
            | (exact ⟨(a.fill mq).1, hfa1, htype, htif, hP1⟩)
            | (exact hrec _ _ (by rw [hq] at hnagg; simp at hnagg ⊢; tauto))
    · simp only [if_neg hg]
      exact ⟨a, hfa, rfl, rfl, hP⟩

theorem walk_buy_agg_entry (asks : List PriceLevel) (pool : Pool)
    (agg_id : Nat) (acc : List PriceLevel) (best tt tv ts : Nat)
    (is_mkt : Bool) (a : Order)
    (hfa : pool.find_order agg_id = some a)
    (hnagg : ∀ lvl ∈ asks, agg_id ∉ lvl.orders)
    (hP : a.remaining_quantity = 0 → a.state = OrderState.filled) :
    ∃ a', (match_buy_asks pool agg_id acc asks best tt tv ts
        is_mkt).pool.find_order agg_id = some a' ∧
      a'.order_type = a.order_type ∧ a'.time_in_force = a.time_in_force ∧
      (a'.remaining_quantity = 0 → a'.state = OrderState.filled) := by
  induction asks generalizing pool acc best tt tv a with
  | nil => exact ⟨a, hfa, rfl, rfl, hP⟩
  | cons lvl rest ih =>
    rw [match_buy_asks]
    rw [hfa]
    by_cases hr : a.remaining_quantity = 0
    · simp only [hr, if_pos]
      exact ⟨a, hfa, rfl, rfl, hP⟩
    · simp only [if_neg hr]
      by_cases hstop : ¬ is_mkt = true ∧ a.price < lvl.price
      · rw [if_pos hstop]
        exact ⟨a, hfa, rfl, rfl, hP⟩
      · rw [if_neg hstop]
        obtain ⟨a1, ha1, ht1, hf1, hp1⟩ := mof_agg_entry
          (lvl.orders.length + 1) pool agg_id a.remaining_quantity 0 lvl ts a
          hfa (hnagg lvl (by simp)) hP
        have hscope := match_scope (lvl.orders.length + 1) pool agg_id
          a.remaining_quantity 0 lvl ts
        have hdf : ((destroy_filled (match_orders_fuel (lvl.orders.length + 1)
            pool agg_id a.remaining_quantity 0 lvl ts).pool
            (match_orders_fuel (lvl.orders.length + 1) pool agg_id
              a.remaining_quantity 0 lvl ts).filled_ids).1).find_order agg_id =
            some a1 := by
          rw [destroy_filled_frame _ _ _ (fun hmem =>
            hnagg lvl (by simp) (hscope.2.2.1 agg_id hmem))]
          exact ha1
        split_ifs with he
        · obtain ⟨a', ha', ht', hf', hp'⟩ := ih _ _ _ _ _ _ hdf
            (fun l hl => hnagg l (by simp [hl])) hp1
          exact ⟨a', ha', ht'.trans ht1, hf'.trans hf1, hp'⟩
        · obtain ⟨a', ha', ht', hf', hp'⟩ := ih _ _ _ _ _ _ hdf
            (fun l hl => hnagg l (by simp [hl])) hp1
          exact ⟨a', ha', ht'.trans ht1, hf'.trans hf1, hp'⟩

theorem walk_buy_subjects (asks : List PriceLevel) (pool : Pool)
    (agg_id : Nat) (acc : List PriceLevel) (best tt tv ts : Nat)
    (is_mkt : Bool) :
    ∀ e ∈ (match_buy_asks pool agg_id acc asks best tt tv ts is_mkt).events,
      ∀ i, event_subject e = some i → ∃ lvl ∈ asks, i ∈ lvl.orders := by
  induction asks generalizing pool acc best tt tv with
  | nil => intro e he; simp [match_buy_asks] at he
  | cons lvl rest ih =>
    rw [match_buy_asks]
    cases hfa : pool.find_order agg_id with
    | none => intro e he; simp at he
    | some agg =>
      simp only []
      by_cases hr : agg.remaining_quantity = 0
      · simp only [hr, if_pos]
        intro e he
        simp at he
      · simp only [if_neg hr]
        by_cases hstop : ¬ is_mkt = true ∧ agg.price < lvl.price
        · rw [if_pos hstop]
          intro e he
          simp at he
        · rw [if_neg hstop]
          have hscope := match_scope (lvl.orders.length + 1) pool agg_id
            agg.remaining_quantity 0 lvl ts
          have hdfs := destroy_filled_subjects
            (match_orders_fuel (lvl.orders.length + 1) pool agg_id
              agg.remaining_quantity 0 lvl ts).pool
            (match_orders_fuel (lvl.orders.length + 1) pool agg_id
              agg.remaining_quantity 0 lvl ts).filled_ids
          split_ifs with he <;>
            · intro e hev i hi
              dsimp only at hev
              rw [List.mem_append] at hev
              rcases hev with hev | hev
              · rw [List.mem_append] at hev
                rcases hev with hev | hev
                · exact ⟨lvl, by simp, hscope.2.1 e hev i hi⟩
                · exact ⟨lvl, by simp, hscope.2.2.1 i (hdfs e hev i hi)⟩
              · obtain ⟨l, hl, hil⟩ := ih _ _ _ _ _ e hev i hi
                exact ⟨l, by simp [hl], hil⟩

theorem walk_sell_agg_entry (bids : List PriceLevel) (pool : Pool)
    (agg_id : Nat) (acc : List PriceLevel) (best tt tv ts : Nat)
    (is_mkt : Bool) (a : Order)
    (hfa : pool.find_order agg_id = some a)
    (hnagg : ∀ lvl ∈ bids, agg_id ∉ lvl.orders)
    (hP : a.remaining_quantity = 0 → a.state = OrderState.filled) :
    ∃ a', (match_sell_bids pool agg_id acc bids best tt tv ts
        is_mkt).pool.find_order agg_id = some a' ∧
      a'.order_type = a.order_type ∧ a'.time_in_force = a.time_in_force ∧
      (a'.remaining_quantity = 0 → a'.state = OrderState.filled) := by
  induction bids generalizing pool acc best tt tv a with
  | nil => exact ⟨a, hfa, rfl, rfl, hP⟩
  | cons lvl rest ih =>
    rw [match_sell_bids]
    rw [hfa]
    by_cases hr : a.remaining_quantity = 0
    · simp only [hr, if_pos]
      exact ⟨a, hfa, rfl, rfl, hP⟩
    · simp only [if_neg hr]
      by_cases hstop : ¬ is_mkt = true ∧ lvl.price < a.price
      · rw [if_pos hstop]
        exact ⟨a, hfa, rfl, rfl, hP⟩
      · rw [if_neg hstop]
        obtain ⟨a1, ha1, ht1, hf1, hp1⟩ := mof_agg_entry
          (lvl.orders.length + 1) pool agg_id a.remaining_quantity 0 lvl ts a
          hfa (hnagg lvl (by simp)) hP
        have hscope := match_scope (lvl.orders.length + 1) pool agg_id
          a.remaining_quantity 0 lvl ts
        have hdf : ((destroy_filled (match_orders_fuel (lvl.orders.length + 1)
            pool agg_id a.remaining_quantity 0 lvl ts).pool
            (match_orders_fuel (lvl.orders.length + 1) pool agg_id
              a.remaining_quantity 0 lvl ts).filled_ids).1).find_order agg_id =
            some a1 := by
          rw [destroy_filled_frame _ _ _ (fun hmem =>
            hnagg lvl (by simp) (hscope.2.2.1 agg_id hmem))]
          exact ha1
        split_ifs with he
        · obtain ⟨a', ha', ht', hf', hp'⟩ := ih _ _ _ _ _ _ hdf
            (fun l hl => hnagg l (by simp [hl])) hp1
          exact ⟨a', ha', ht'.trans ht1, hf'.trans hf1, hp'⟩
        · obtain ⟨a', ha', ht', hf', hp'⟩ := ih _ _ _ _ _ _ hdf
            (fun l hl => hnagg l (by simp [hl])) hp1
          exact ⟨a', ha', ht'.trans ht1, hf'.trans hf1, hp'⟩

theorem walk_sell_subjects (bids : List PriceLevel) (pool : Pool)
    (agg_id : Nat) (acc : List PriceLevel) (best tt tv ts : Nat)
    (is_mkt : Bool) :
    ∀ e ∈ (match_sell_bids pool agg_id acc bids best tt tv ts is_mkt).events,
      ∀ i, event_subject e = some i → ∃ lvl ∈ bids, i ∈ lvl.orders := by
  induction bids generalizing pool acc best tt tv with
  | nil => intro e he; simp [match_sell_bids] at he
  | cons lvl rest ih =>
    rw [match_sell_bids]
    cases hfa : pool.find_order agg_id with
    | none => intro e he; simp at he
    | some agg =>
      simp only []
      by_cases hr : agg.remaining_quantity = 0
      · simp only [hr, if_pos]
        intro e he
        simp at he
      · simp only [if_neg hr]
        by_cases hstop : ¬ is_mkt = true ∧ lvl.price < agg.price
        · rw [if_pos hstop]
          intro e he
          simp at he
        · rw [if_neg hstop]
          have hscope := match_scope (lvl.orders.length + 1) pool agg_id
            agg.remaining_quantity 0 lvl ts
          have hdfs := destroy_filled_subjects
            (match_orders_fuel (lvl.orders.length + 1) pool agg_id
              agg.remaining_quantity 0 lvl ts).pool
            (match_orders_fuel (lvl.orders.length + 1) pool agg_id
              agg.remaining_quantity 0 lvl ts).filled_ids
          split_ifs with he <;>
            · intro e hev i hi
              dsimp only at hev
              rw [List.mem_append] at hev
              rcases hev with hev | hev
              · rw [List.mem_append] at hev
                rcases hev with hev | hev
                · exact ⟨lvl, by simp, hscope.2.1 e hev i hi⟩
                · exact ⟨lvl, by simp, hscope.2.2.1 i (hdfs e hev i hi)⟩
              · obtain ⟨l, hl, hil⟩ := ih _ _ _ _ _ e hev i hi
                exact ⟨l, by simp [hl], hil⟩

theorem match_order_agg_entry (b : OrderBook) (oid ts : Nat) (a : Order)
    (hfa : b.pool.find_order oid = some a)
    (hbids : ∀ lvl ∈ b.bids, oid ∉ lvl.orders)
    (hasks : ∀ lvl ∈ b.asks, oid ∉ lvl.orders)
    (hP : a.remaining_quantity = 0 → a.state = OrderState.filled) :
    ∃ a', ((match_order b oid ts).1).pool.find_order oid = some a' ∧
      a'.order_type = a.order_type ∧ a'.time_in_force = a.time_in_force ∧
      (a'.remaining_quantity = 0 → a'.state = OrderState.filled) := by
  simp only [match_order, match_limit_order, match_market_order, hfa]
  split_ifs with h1 h2 h3 <;> dsimp only
  · exact walk_buy_agg_entry b.asks b.pool oid [] b.best_ask b.total_trades
      b.total_volume ts true a hfa hasks hP
  · exact walk_sell_agg_entry b.bids b.pool oid [] b.best_bid b.total_trades
      b.total_volume ts true a hfa hbids hP
  · exact walk_buy_agg_entry b.asks b.pool oid [] b.best_ask b.total_trades
      b.total_volume ts false a hfa hasks hP
  · exact walk_sell_agg_entry b.bids b.pool oid [] b.best_bid b.total_trades
      b.total_volume ts false a hfa hbids hP

theorem match_order_subjects (b : OrderBook) (oid ts : Nat) :
    ∀ e ∈ (match_order b oid ts).2, ∀ i, event_subject e = some i →
      (∃ lvl ∈ b.bids, i ∈ lvl.orders) ∨ (∃ lvl ∈ b.asks, i ∈ lvl.orders) := by
  simp only [match_order, match_limit_order, match_market_order]
  cases hfa : b.pool.find_order oid with
  | none => intro e he; simp at he
  | some agg =>
    simp only []
    split_ifs with h1 h2 h3 <;> dsimp only <;> intro e he i hi
    · exact Or.inr (walk_buy_subjects b.asks b.pool oid [] b.best_ask
        b.total_trades b.total_volume ts true e he i hi)
    · exact Or.inl (walk_sell_subjects b.bids b.pool oid [] b.best_bid
        b.total_trades b.total_volume ts true e he i hi)
    · exact Or.inr (walk_buy_subjects b.asks b.pool oid [] b.best_ask
        b.total_trades b.total_volume ts false e he i hi)
    · exact Or.inl (walk_sell_subjects b.bids b.pool oid [] b.best_bid
        b.total_trades b.total_volume ts false e he i hi)

theorem sum_remaining_eq_sum (pool : Pool) (lvl : PriceLevel) :
    sum_remaining pool lvl = (queue_remainings pool lvl.orders).sum := by
  unfold sum_remaining queue_remainings
  generalize lvl.orders = q
  induction q with
  | nil => rfl
  | cons id rest ih =>
    cases hf : pool.find_order id with
    | none => simp [List.filterMap_cons, hf, ih]
    | some o => simp [List.filterMap_cons, hf, ih]

theorem mof_agg_spent (fuel : Nat) (pool : Pool) (agg_id maxq tm : Nat)
    (lvl : PriceLevel) (ts : Nat) (a : Order)
    (hfa : pool.find_order agg_id = some a)
    (hrem : a.remaining_quantity = maxq - tm)
    (hP : a.remaining_quantity = 0 → a.state = OrderState.filled)
    (hlive : ∀ id ∈ lvl.orders, ∃ o, pool.find_order id = some o ∧
      0 < o.remaining_quantity)
    (hnodup : lvl.orders.Nodup)
    (hnagg : agg_id ∉ lvl.orders)
    (hfuel : lvl.orders.length < fuel) :
    ∃ a', (match_orders_fuel fuel pool agg_id maxq tm lvl ts).pool.find_order
        agg_id = some a' ∧
      a'.remaining_quantity =
        (maxq - tm) - min (maxq - tm) (queue_remainings pool lvl.orders).sum ∧
      a'.price = a.price ∧
      (a'.remaining_quantity = 0 → a'.state = OrderState.filled) := by
  induction fuel generalizing pool lvl tm a with
  | zero => omega
  | succ fuel ih =>
    rw [match_orders_fuel]
    by_cases hg : tm < maxq
    · simp only [if_pos hg]
      cases hq : lvl.orders with
      | nil =>
        refine ⟨a, hfa, ?_, rfl, hP⟩
        simp [queue_remainings, hrem]
      | cons pass_id restq =>
        obtain ⟨passive, hfp, hpr⟩ := hlive pass_id (by simp [hq])
        simp only [hfp, hfa]
        have hpne : pass_id ≠ agg_id := fun h => hnagg (h ▸ by simp [hq])
        have hpassnodup : pass_id ∉ restq := by
          rw [hq] at hnodup
          exact (List.nodup_cons.1 hnodup).1
        have hrestnodup : restq.Nodup := by
          rw [hq] at hnodup
          exact (List.nodup_cons.1 hnodup).2
        have hnagg' : agg_id ∉ restq := fun h => hnagg (by simp [hq, h])
        set mq := (maxq - tm) ⊓ passive.remaining_quantity with hmq
        have hmq_pos : 0 < mq := by
          rw [hmq]
          exact lt_min (by omega) hpr
        have hfind_agg1 : (((pool.update agg_id (a.fill mq).1).update pass_id
            (passive.fill mq).1).find_order agg_id) = some (a.fill mq).1 := by
          rw [Pool.find_update_of_ne _ _ _ _ (Ne.symm hpne)]
          apply Pool.find_update_self
          rw [hfa]
          rfl
        have hframe1 : ∀ i, i ≠ pass_id → i ≠ agg_id →
            (((pool.update agg_id (a.fill mq).1).update pass_id
              (passive.fill mq).1).find_order i) = pool.find_order i := by
          intro i h1 h2
          rw [Pool.find_update_of_ne _ _ _ _ h1,
            Pool.find_update_of_ne _ _ _ _ h2]
        have hqr : queue_remainings pool (pass_id :: restq) =
            passive.remaining_quantity :: queue_remainings pool restq :=
          queue_remainings_cons pool pass_id passive restq hfp
        have hremA : ((a.fill mq).1).remaining_quantity = (maxq - tm) - mq := by
          rw [Order.fill_remaining, hrem]
          omega
        have hPA := fill_P a mq hP
        have hpriceA := Order.fill_price a mq
        by_cases hcase : passive.remaining_quantity ≤ maxq - tm
        · have hmq_eq : mq = passive.remaining_quantity := by
            rw [hmq]
            exact min_eq_right hcase
          have hpfT : ((passive.fill mq).1).is_filled = true := by
            rw [is_filled_iff, Order.fill_state_filled_iff passive mq hpr hmq_pos]
            omega
          simp only [if_pos hpfT]
          by_cases hacase : maxq - tm ≤ passive.remaining_quantity
          · have hafT : ((a.fill mq).1).is_filled = true := by
              rw [is_filled_iff, Order.fill_state_filled_iff a mq (by omega) hmq_pos]
              omega
            simp only [if_pos hafT]
            refine ⟨(a.fill mq).1, hfind_agg1, ?_, hpriceA, hPA⟩
            rw [hremA, hqr]
            simp only [List.sum_cons]
            omega
          · have hafF : ¬(((a.fill mq).1).is_filled = true) := by
              rw [is_filled_iff, Order.fill_state_filled_iff a mq (by omega) hmq_pos]
              omega
            simp only [if_neg hafF]
            generalize hL1 : ({ lvl with
                orders := restq
                total_volume := wsub32 lvl.total_volume mq
                visible_volume := wsub32 lvl.visible_volume
                  (min mq ((passive.fill mq).1).visible_quantity) } :
              PriceLevel) = lvl1
            have hl1o : lvl1.orders = restq := by rw [← hL1]
            have hremA' : ((a.fill mq).1).remaining_quantity =
                maxq - (tm + mq) := by
              rw [hremA]
              omega
            have hlive' : ∀ id ∈ lvl1.orders, ∃ o,
                (((pool.update agg_id (a.fill mq).1).update pass_id
                  (passive.fill mq).1).find_order id) = some o ∧
                0 < o.remaining_quantity := by
              rw [hl1o]
              intro id hid
              obtain ⟨o, ho, hor⟩ := hlive id (by simp [hq, hid])
              refine ⟨o, ?_, hor⟩
              rw [hframe1 id (fun h => hpassnodup (h ▸ hid))
                (fun h => hnagg' (h ▸ hid))]
              exact ho
            have hfuel' : lvl1.orders.length < fuel := by
              rw [hq] at hfuel
              rw [hl1o]
              simp at hfuel
              omega
            obtain ⟨a', ha', harem, haprice, haP⟩ :=
              ih _ (tm + mq) lvl1 ((a.fill mq).1) hfind_agg1 hremA' hPA hlive'
                (hl1o ▸ hrestnodup) (hl1o ▸ hnagg') hfuel'
            refine ⟨a', ha', ?_, haprice.trans hpriceA, haP⟩
            rw [harem, hl1o, hqr]
            rw [queue_remainings_congr _ pool restq (fun id hid =>
              hframe1 id (fun h => hpassnodup (h ▸ hid))
                (fun h => hnagg' (h ▸ hid)))]
            simp only [List.sum_cons]
            omega
        · have hmq_eq : mq = maxq - tm := by
            rw [hmq]
            exact min_eq_left (by omega)
          have hpfF : ¬(((passive.fill mq).1).is_filled = true) := by
            rw [is_filled_iff, Order.fill_state_filled_iff passive mq hpr hmq_pos]
            omega
          have hafT : ((a.fill mq).1).is_filled = true := by
            rw [is_filled_iff, Order.fill_state_filled_iff a mq (by omega) hmq_pos]
            omega
          simp only [if_neg hpfF, if_pos hafT]
          refine ⟨(a.fill mq).1, hfind_agg1, ?_, hpriceA, hPA⟩
          rw [hremA, hqr]
          simp only [List.sum_cons]
          omega
    · simp only [if_neg hg]
      refine ⟨a, hfa, ?_, rfl, hP⟩
      omega

theorem walk_buy_frozen (asks : List PriceLevel) (pool : Pool) (agg_id : Nat)
    (acc : List PriceLevel) (best tt tv ts : Nat) (mkt : Bool) (a : Order)
    (hfa : pool.find_order agg_id = some a)
    (hrem : a.remaining_quantity = 0) :
    (match_buy_asks pool agg_id acc asks best tt tv ts mkt).pool = pool := by
  cases asks with
  | nil => rw [match_buy_asks]
  | cons lvl rest =>
    rw [match_buy_asks]
    rw [hfa]
    simp only [hrem, if_pos]

theorem walk_sell_frozen (bids : List PriceLevel) (pool : Pool) (agg_id : Nat)
    (acc : List PriceLevel) (best tt tv ts : Nat) (mkt : Bool) (a : Order)
    (hfa : pool.find_order agg_id = some a)
    (hrem : a.remaining_quantity = 0) :
    (match_sell_bids pool agg_id acc bids best tt tv ts mkt).pool = pool := by
  cases bids with
  | nil => rw [match_sell_bids]
  | cons lvl rest =>
    rw [match_sell_bids]
    rw [hfa]
    simp only [hrem, if_pos]

theorem walk_buy_fok (asks : List PriceLevel) (pool : Pool) (agg_id : Nat)
    (acc : List PriceLevel) (best tt tv ts : Nat) (mkt : Bool) (a : Order)
    (bound avail need : Nat)
    (hfa : pool.find_order agg_id = some a)
    (hbd : a.price = bound)
    (hpos : 0 < a.remaining_quantity)
    (hneed : a.remaining_quantity + avail = need)
    (hlive : ∀ lvl ∈ asks, ∀ id ∈ lvl.orders, ∃ o,
      pool.find_order id = some o ∧ 0 < o.remaining_quantity)
    (hnodup : ∀ lvl ∈ asks, lvl.orders.Nodup)
    (hnagg : ∀ lvl ∈ asks, agg_id ∉ lvl.orders)
    (hdisj : asks.Pairwise (fun l1 l2 => ∀ i ∈ l1.orders, i ∉ l2.orders))
    (hvol : ∀ lvl ∈ asks, lvl.total_volume = sum_remaining pool lvl)
    (hovf : avail + (asks.map PriceLevel.total_volume).sum < U32)
    (hfeas : can_fill_fok_walk need (fun p => bound < p) avail asks = true) :
    ∃ a', (match_buy_asks pool agg_id acc asks best tt tv ts
        mkt).pool.find_order agg_id = some a' ∧
      a'.remaining_quantity = 0 ∧ a'.is_filled = true := by
  induction asks generalizing pool acc best tt tv a avail with
  | nil => simp [can_fill_fok_walk] at hfeas
  | cons lvl rest ih =>
    rw [match_buy_asks]
    rw [hfa]
    have hr0 : ¬ (a.remaining_quantity = 0) := by omega
    simp only [if_neg hr0]
    simp only [can_fill_fok_walk] at hfeas
    by_cases hpp : bound < lvl.price
    · simp [hpp] at hfeas
    · have hstop : ¬(¬ mkt = true ∧ a.price < lvl.price) := by
        rw [hbd]
        tauto
      rw [if_neg hstop]
      rw [if_neg (by simp [hpp] :
        ¬ (decide (bound < lvl.price) = true))] at hfeas
      have hwadd : wadd32 avail lvl.total_volume =
          avail + lvl.total_volume := by
        simp only [wadd32]
        apply Nat.mod_eq_of_lt
        simp at hovf
        omega
      rw [hwadd] at hfeas
      have hS : lvl.total_volume = (queue_remainings pool lvl.orders).sum := by
        rw [hvol lvl (by simp), sum_remaining_eq_sum]
      obtain ⟨a1, hfa1, ha1rem, ha1price, ha1P⟩ :=
        mof_agg_spent (lvl.orders.length + 1) pool agg_id
          a.remaining_quantity 0 lvl ts a hfa (by omega)
          (fun h => absurd h (by omega))
          (hlive lvl (by simp)) (hnodup lvl (by simp)) (hnagg lvl (by simp))
          (by omega)
      have hscope := match_scope (lvl.orders.length + 1) pool agg_id
        a.remaining_quantity 0 lvl ts
      have hfd : ((destroy_filled (match_orders_fuel (lvl.orders.length + 1)
          pool agg_id a.remaining_quantity 0 lvl ts).pool
          (match_orders_fuel (lvl.orders.length + 1) pool agg_id
            a.remaining_quantity 0 lvl ts).filled_ids).1).find_order agg_id =
          some a1 := by
        rw [destroy_filled_frame _ _ _ (fun hmem =>
          hnagg lvl (by simp) (hscope.2.2.1 agg_id hmem))]
        exact hfa1
      have hframe : ∀ l2 ∈ rest, ∀ id ∈ l2.orders,
          ((destroy_filled (match_orders_fuel (lvl.orders.length + 1)
            pool agg_id a.remaining_quantity 0 lvl ts).pool
            (match_orders_fuel (lvl.orders.length + 1) pool agg_id
              a.remaining_quantity 0 lvl ts).filled_ids).1).find_order id =
            pool.find_order id := by
        intro l2 hl2 id hid
        have hidnl : id ∉ lvl.orders := fun hinl =>
          (List.rel_of_pairwise_cons hdisj hl2) id hinl hid
        have hidna : id ≠ agg_id := fun h => hnagg l2 (by simp [hl2]) (h ▸ hid)
        rw [destroy_filled_frame _ _ _ (fun hmem =>
          hidnl (hscope.2.2.1 id hmem))]
        exact hscope.2.2.2 id hidnl hidna
      by_cases hdone : need ≤ avail + lvl.total_volume
      · have ha1rem0 : a1.remaining_quantity = 0 := by
          rw [ha1rem]
          omega
        have ha1fil : a1.is_filled = true := by
          rw [is_filled_iff]
          exact ha1P ha1rem0
        split_ifs with hemp
        · refine ⟨a1, ?_, ha1rem0, ha1fil⟩
          rw [walk_buy_frozen rest _ agg_id _ _ _ _ _ mkt a1 hfd ha1rem0]
          exact hfd
        · refine ⟨a1, ?_, ha1rem0, ha1fil⟩
          rw [walk_buy_frozen rest _ agg_id _ _ _ _ _ mkt a1 hfd ha1rem0]
          exact hfd
      · have hfeas' : can_fill_fok_walk need (fun p => bound < p)
            (avail + lvl.total_volume) rest = true := by
          rw [if_neg hdone] at hfeas
          exact hfeas
        have ha1rempos : 0 < a1.remaining_quantity := by
          rw [ha1rem]
          omega
        have hneed' : a1.remaining_quantity + (avail + lvl.total_volume) =
            need := by
          rw [ha1rem]
          omega
        have hlive' : ∀ l2 ∈ rest, ∀ id ∈ l2.orders, ∃ o,
            ((destroy_filled (match_orders_fuel (lvl.orders.length + 1)
              pool agg_id a.remaining_quantity 0 lvl ts).pool
              (match_orders_fuel (lvl.orders.length + 1) pool agg_id
                a.remaining_quantity 0 lvl ts).filled_ids).1).find_order id =
              some o ∧ 0 < o.remaining_quantity := by
          intro l2 hl2 id hid
          obtain ⟨o, ho, hor⟩ := hlive l2 (by simp [hl2]) id hid
          refine ⟨o, ?_, hor⟩
          rw [hframe l2 hl2 id hid]
          exact ho
        have hvol' : ∀ l2 ∈ rest, l2.total_volume =
            sum_remaining ((destroy_filled (match_orders_fuel
              (lvl.orders.length + 1) pool agg_id a.remaining_quantity 0
              lvl ts).pool
              (match_orders_fuel (lvl.orders.length + 1) pool agg_id
                a.remaining_quantity 0 lvl ts).filled_ids).1) l2 := by
          intro l2 hl2
          rw [sum_remaining_eq_sum,
            queue_remainings_congr _ pool _ (fun id hid =>
              hframe l2 hl2 id hid),
            ← sum_remaining_eq_sum]
          exact hvol l2 (by simp [hl2])
        have hovf' : (avail + lvl.total_volume) +
            (rest.map PriceLevel.total_volume).sum < U32 := by
          simp at hovf
          omega
        have hnodup' : ∀ l2 ∈ rest, l2.orders.Nodup :=
          fun l2 hl2 => hnodup l2 (by simp [hl2])
        have hnagg2 : ∀ l2 ∈ rest, agg_id ∉ l2.orders :=
          fun l2 hl2 => hnagg l2 (by simp [hl2])
        have hdisj' := (List.pairwise_cons.1 hdisj).2
        split_ifs with hemp
        · exact ih _ _ _ _ _ a1 _ hfd (ha1price.trans hbd) ha1rempos hneed'
            hlive' hnodup' hnagg2 hdisj' hvol' hovf' hfeas'
        · exact ih _ _ _ _ _ a1 _ hfd (ha1price.trans hbd) ha1rempos hneed'
            hlive' hnodup' hnagg2 hdisj' hvol' hovf' hfeas'

theorem walk_sell_fok (bids : List PriceLevel) (pool : Pool) (agg_id : Nat)
    (acc : List PriceLevel) (best tt tv ts : Nat) (mkt : Bool) (a : Order)
    (bound avail need : Nat)
    (hfa : pool.find_order agg_id = some a)
    (hbd : a.price = bound)
    (hpos : 0 < a.remaining_quantity)
    (hneed : a.remaining_quantity + avail = need)
    (hlive : ∀ lvl ∈ bids, ∀ id ∈ lvl.orders, ∃ o,
      pool.find_order id = some o ∧ 0 < o.remaining_quantity)
    (hnodup : ∀ lvl ∈ bids, lvl.orders.Nodup)
    (hnagg : ∀ lvl ∈ bids, agg_id ∉ lvl.orders)
    (hdisj : bids.Pairwise (fun l1 l2 => ∀ i ∈ l1.orders, i ∉ l2.orders))
    (hvol : ∀ lvl ∈ bids, lvl.total_volume = sum_remaining pool lvl)
    (hovf : avail + (bids.map PriceLevel.total_volume).sum < U32)
    (hfeas : can_fill_fok_walk need (fun p => p < bound) avail bids = true) :
    ∃ a', (match_sell_bids pool agg_id acc bids best tt tv ts
        mkt).pool.find_order agg_id = some a' ∧
      a'.remaining_quantity = 0 ∧ a'.is_filled = true := by
  induction bids generalizing pool acc best tt tv a avail with
  | nil => simp [can_fill_fok_walk] at hfeas
  | cons lvl rest ih =>
    rw [match_sell_bids]
    rw [hfa]
    have hr0 : ¬ (a.remaining_quantity = 0) := by omega
    simp only [if_neg hr0]
    simp only [can_fill_fok_walk] at hfeas
    by_cases hpp : lvl.price < bound
    · simp [hpp] at hfeas
    · have hstop : ¬(¬ mkt = true ∧ lvl.price < a.price) := by
        rw [hbd]
        tauto
      rw [if_neg hstop]
      rw [if_neg (by simp [hpp] :
        ¬ (decide (lvl.price < bound) = true))] at hfeas
      have hwadd : wadd32 avail lvl.total_volume =
          avail + lvl.total_volume := by
        simp only [wadd32]
        apply Nat.mod_eq_of_lt
        simp at hovf
        omega
      rw [hwadd] at hfeas
      have hS : lvl.total_volume = (queue_remainings pool lvl.orders).sum := by
        rw [hvol lvl (by simp), sum_remaining_eq_sum]
      obtain ⟨a1, hfa1, ha1rem, ha1price, ha1P⟩ :=
        mof_agg_spent (lvl.orders.length + 1) pool agg_id
          a.remaining_quantity 0 lvl ts a hfa (by omega)
          (fun h => absurd h (by omega))
          (hlive lvl (by simp)) (hnodup lvl (by simp)) (hnagg lvl (by simp))
          (by omega)
      have hscope := match_scope (lvl.orders.length + 1) pool agg_id
        a.remaining_quantity 0 lvl ts
      have hfd : ((destroy_filled (match_orders_fuel (lvl.orders.length + 1)
          pool agg_id a.remaining_quantity 0 lvl ts).pool
          (match_orders_fuel (lvl.orders.length + 1) pool agg_id
            a.remaining_quantity 0 lvl ts).filled_ids).1).find_order agg_id =
          some a1 := by
        rw [destroy_filled_frame _ _ _ (fun hmem =>
          hnagg lvl (by simp) (hscope.2.2.1 agg_id hmem))]
        exact hfa1
      have hframe : ∀ l2 ∈ rest, ∀ id ∈ l2.orders,
          ((destroy_filled (match_orders_fuel (lvl.orders.length + 1)
            pool agg_id a.remaining_quantity 0 lvl ts).pool
            (match_orders_fuel (lvl.orders.length + 1) pool agg_id
              a.remaining_quantity 0 lvl ts).filled_ids).1).find_order id =
            pool.find_order id := by
        intro l2 hl2 id hid
        have hidnl : id ∉ lvl.orders := fun hinl =>
          (List.rel_of_pairwise_cons hdisj hl2) id hinl hid
        have hidna : id ≠ agg_id := fun h => hnagg l2 (by simp [hl2]) (h ▸ hid)
        rw [destroy_filled_frame _ _ _ (fun hmem =>
          hidnl (hscope.2.2.1 id hmem))]
        exact hscope.2.2.2 id hidnl hidna
      by_cases hdone : need ≤ avail + lvl.total_volume
      · have ha1rem0 : a1.remaining_quantity = 0 := by
          rw [ha1rem]
          omega
        have ha1fil : a1.is_filled = true := by
          rw [is_filled_iff]
          exact ha1P ha1rem0
        split_ifs with hemp
        · refine ⟨a1, ?_, ha1rem0, ha1fil⟩
          rw [walk_sell_frozen rest _ agg_id _ _ _ _ _ mkt a1 hfd ha1rem0]
          exact hfd
        · refine ⟨a1, ?_, ha1rem0, ha1fil⟩
          rw [walk_sell_frozen rest _ agg_id _ _ _ _ _ mkt a1 hfd ha1rem0]
          exact hfd
      · have hfeas' : can_fill_fok_walk need (fun p => p < bound)
            (avail + lvl.total_volume) rest = true := by
          rw [if_neg hdone] at hfeas
          exact hfeas
        have ha1rempos : 0 < a1.remaining_quantity := by
          rw [ha1rem]
          omega
        have hneed' : a1.remaining_quantity + (avail + lvl.total_volume) =
            need := by
          rw [ha1rem]
          omega
        have hlive' : ∀ l2 ∈ rest, ∀ id ∈ l2.orders, ∃ o,
            ((destroy_filled (match_orders_fuel (lvl.orders.length + 1)
              pool agg_id a.remaining_quantity 0 lvl ts).pool
              (match_orders_fuel (lvl.orders.length + 1) pool agg_id
                a.remaining_quantity 0 lvl ts).filled_ids).1).find_order id =
              some o ∧ 0 < o.remaining_quantity := by
          intro l2 hl2 id hid
          obtain ⟨o, ho, hor⟩ := hlive l2 (by simp [hl2]) id hid
          refine ⟨o, ?_, hor⟩
          rw [hframe l2 hl2 id hid]
          exact ho
        have hvol' : ∀ l2 ∈ rest, l2.total_volume =
            sum_remaining ((destroy_filled (match_orders_fuel
              (lvl.orders.length + 1) pool agg_id a.remaining_quantity 0
              lvl ts).pool
              (match_orders_fuel (lvl.orders.length + 1) pool agg_id
                a.remaining_quantity 0 lvl ts).filled_ids).1) l2 := by
          intro l2 hl2
          rw [sum_remaining_eq_sum,
            queue_remainings_congr _ pool _ (fun id hid =>
              hframe l2 hl2 id hid),
            ← sum_remaining_eq_sum]
          exact hvol l2 (by simp [hl2])
        have hovf' : (avail + lvl.total_volume) +
            (rest.map PriceLevel.total_volume).sum < U32 := by
          simp at hovf
          omega
        have hnodup' : ∀ l2 ∈ rest, l2.orders.Nodup :=
          fun l2 hl2 => hnodup l2 (by simp [hl2])
        have hnagg2 : ∀ l2 ∈ rest, agg_id ∉ l2.orders :=
          fun l2 hl2 => hnagg l2 (by simp [hl2])
        have hdisj' := (List.pairwise_cons.1 hdisj).2
        split_ifs with hemp
        · exact ih _ _ _ _ _ a1 _ hfd (ha1price.trans hbd) ha1rempos hneed'
            hlive' hnodup' hnagg2 hdisj' hvol' hovf' hfeas'
        · exact ih _ _ _ _ _ a1 _ hfd (ha1price.trans hbd) ha1rempos hneed'
            hlive' hnodup' hnagg2 hdisj' hvol' hovf' hfeas'

theorem match_order_fok_filled (b : OrderBook) (oid ts : Nat) (o : Order)
    (hfind : b.pool.find_order oid = some o)
    (hrem : 0 < o.remaining_quantity)
    (hcan : can_fill_fok b o = true)
    (haskf : o.is_buy = true →
      (∀ lvl ∈ b.asks, ∀ id ∈ lvl.orders, ∃ p, b.pool.find_order id = some p ∧
        0 < p.remaining_quantity) ∧
      (∀ lvl ∈ b.asks, lvl.orders.Nodup) ∧
      (∀ lvl ∈ b.asks, oid ∉ lvl.orders) ∧
      b.asks.Pairwise (fun l1 l2 => ∀ i ∈ l1.orders, i ∉ l2.orders) ∧
      (∀ lvl ∈ b.asks, lvl.total_volume = sum_remaining b.pool lvl) ∧
      (b.asks.map PriceLevel.total_volume).sum < U32)
    (hbidf : ¬ o.is_buy = true →
      (∀ lvl ∈ b.bids, ∀ id ∈ lvl.orders, ∃ p, b.pool.find_order id = some p ∧
        0 < p.remaining_quantity) ∧
      (∀ lvl ∈ b.bids, lvl.orders.Nodup) ∧
      (∀ lvl ∈ b.bids, oid ∉ lvl.orders) ∧
      b.bids.Pairwise (fun l1 l2 => ∀ i ∈ l1.orders, i ∉ l2.orders) ∧
      (∀ lvl ∈ b.bids, lvl.total_volume = sum_remaining b.pool lvl) ∧
      (b.bids.map PriceLevel.total_volume).sum < U32) :
    ∃ o1, ((match_order b oid ts).1).pool.find_order oid = some o1 ∧
      o1.is_filled = true := by
  simp only [match_order, hfind]
  by_cases hm : o.is_market = true
  · simp only [if_pos hm, match_market_order, hfind]
    by_cases hb : o.is_buy = true
    · simp only [if_pos hb]
      obtain ⟨h1, h2, h3, h4, h5, h6⟩ := haskf hb
      have hfeas : can_fill_fok_walk o.remaining_quantity
          (fun p => o.price < p) 0 b.asks = true := by
        have hc := hcan
        simp only [can_fill_fok, if_pos hb] at hc
        exact hc
      obtain ⟨a', ha', hr', hf'⟩ := walk_buy_fok b.asks b.pool oid []
        b.best_ask b.total_trades b.total_volume ts true o o.price 0
        o.remaining_quantity hfind rfl hrem (by omega) h1 h2 h3 h4 h5
        (by omega) hfeas
      exact ⟨a', ha', hf'⟩
    · simp only [if_neg hb]
      obtain ⟨h1, h2, h3, h4, h5, h6⟩ := hbidf hb
      have hfeas : can_fill_fok_walk o.remaining_quantity
          (fun p => p < o.price) 0 b.bids = true := by
        have hc := hcan
        simp only [can_fill_fok, if_neg hb] at hc
        exact hc
      obtain ⟨a', ha', hr', hf'⟩ := walk_sell_fok b.bids b.pool oid []
        b.best_bid b.total_trades b.total_volume ts true o o.price 0
        o.remaining_quantity hfind rfl hrem (by omega) h1 h2 h3 h4 h5
        (by omega) hfeas
      exact ⟨a', ha', hf'⟩
  · simp only [if_neg hm, match_limit_order, hfind]
    by_cases hb : o.is_buy = true
    · simp only [if_pos hb]
      obtain ⟨h1, h2, h3, h4, h5, h6⟩ := haskf hb
      have hfeas : can_fill_fok_walk o.remaining_quantity
          (fun p => o.price < p) 0 b.asks = true := by
        have hc := hcan
        simp only [can_fill_fok, if_pos hb] at hc
        exact hc
      obtain ⟨a', ha', hr', hf'⟩ := walk_buy_fok b.asks b.pool oid []
        b.best_ask b.total_trades b.total_volume ts false o o.price 0
        o.remaining_quantity hfind rfl hrem (by omega) h1 h2 h3 h4 h5
        (by omega) hfeas
      exact ⟨a', ha', hf'⟩
    · simp only [if_neg hb]
      obtain ⟨h1, h2, h3, h4, h5, h6⟩ := hbidf hb
      have hfeas : can_fill_fok_walk o.remaining_quantity
          (fun p => p < o.price) 0 b.bids = true := by
        have hc := hcan
        simp only [can_fill_fok, if_neg hb] at hc
        exact hc
      obtain ⟨a', ha', hr', hf'⟩ := walk_sell_fok b.bids b.pool oid []
        b.best_bid b.total_trades b.total_volume ts false o o.price 0
        o.remaining_quantity hfind rfl hrem (by omega) h1 h2 h3 h4 h5
        (by omega) hfeas
      exact ⟨a', ha', hf'⟩

/-- C8 (amended): the callbacks of one submission are delivered as the
match-phase events (TRADE callbacks in match order, each passive's
ORDER_PARTIAL directly after its trade and each fully filled passive's
ORDER_FILLED after its level completes — never an event about the incoming
order) followed by the aggressor's own lifecycle event *last*, on every
submission path of `process_new_order` — FOK included: the pre-match
feasibility check guarantees the full fill that `handle_fok_order` then
reports as the final ORDER_FILLED.  The FOK-guarded hypotheses are the
reachable-state facts about the opposite side: live FIFO entries, no
duplicate or cross-level shared OIDs, level `total_volume` aggregates
matching the orders' remaining quantities, and no `uint32` wraparound in
the feasibility accumulator. -/
theorem aggressor_lifecycle_event_last (b : OrderBook) (oid ts : Nat)
    (o : Order)
    (hfind : b.pool.find_order oid = some o)
    (hrem : 0 < o.remaining_quantity)
    (hbids : ∀ lvl ∈ b.bids, oid ∉ lvl.orders)
    (hasks : ∀ lvl ∈ b.asks, oid ∉ lvl.orders)
    (hfok_asks : o.is_fok = true → o.is_buy = true →
      (∀ lvl ∈ b.asks, ∀ id ∈ lvl.orders, ∃ p, b.pool.find_order id = some p ∧
        0 < p.remaining_quantity) ∧
      (∀ lvl ∈ b.asks, lvl.orders.Nodup) ∧
      b.asks.Pairwise (fun l1 l2 => ∀ i ∈ l1.orders, i ∉ l2.orders) ∧
      (∀ lvl ∈ b.asks, lvl.total_volume = sum_remaining b.pool lvl) ∧
      (b.asks.map PriceLevel.total_volume).sum < U32)
    (hfok_bids : o.is_fok = true → ¬ o.is_buy = true →
      (∀ lvl ∈ b.bids, ∀ id ∈ lvl.orders, ∃ p, b.pool.find_order id = some p ∧
        0 < p.remaining_quantity) ∧
      (∀ lvl ∈ b.bids, lvl.orders.Nodup) ∧
      b.bids.Pairwise (fun l1 l2 => ∀ i ∈ l1.orders, i ∉ l2.orders) ∧
      (∀ lvl ∈ b.bids, lvl.total_volume = sum_remaining b.pool lvl) ∧
      (b.bids.map PriceLevel.total_volume).sum < U32) :
    ∃ evs ev f r,
      (process_new_order b oid ts).2.1 = evs ++ [Event.order oid ev f r] ∧
      ∀ e ∈ evs, event_subject e ≠ some oid := by
  have hP : o.remaining_quantity = 0 → o.state = OrderState.filled := by
    omega
  have hsub : ∀ e ∈ (match_order b oid ts).2, event_subject e ≠ some oid := by
    intro e he hi
    rcases match_order_subjects b oid ts e he oid hi with ⟨l, hl, hm⟩ | ⟨l, hl, hm⟩
    · exact hbids l hl hm
    · exact hasks l hl hm
  obtain ⟨o1, ho1, htype1, htif1, hP1⟩ :=
    match_order_agg_entry b oid ts o hfind hbids hasks hP
  simp only [process_new_order, hfind]
  by_cases hpo : (o.is_post_only && would_match_immediately b o) = true
  · simp only [hpo, if_pos]
    exact ⟨[], OrderEvent.rejected, 0, 0, by simp, by simp⟩
  · simp only [hpo, Bool.false_eq_true, if_false]
    by_cases hfok : o.is_fok = true
    · rw [if_pos hfok]
      simp only [handle_fok_order, hfind]
      by_cases hcan : ¬ can_fill_fok b o = true
      · simp only [if_pos hcan]
        exact ⟨[], OrderEvent.rejected, 0, 0, by simp, by simp⟩
      · simp only [if_neg hcan]
        simp only [ho1]
        obtain ⟨o1', ho1', hfil'⟩ := match_order_fok_filled b oid ts o hfind
          hrem (not_not.1 hcan)
          (fun hb => ⟨(hfok_asks hfok hb).1, (hfok_asks hfok hb).2.1, hasks,
            (hfok_asks hfok hb).2.2.1, (hfok_asks hfok hb).2.2.2.1,
            (hfok_asks hfok hb).2.2.2.2⟩)
          (fun hb => ⟨(hfok_bids hfok hb).1, (hfok_bids hfok hb).2.1, hbids,
            (hfok_bids hfok hb).2.2.1, (hfok_bids hfok hb).2.2.2.1,
            (hfok_bids hfok hb).2.2.2.2⟩)
        rw [ho1] at ho1'
        injection ho1' with ho1'
        rw [← ho1'] at hfil'
        rw [if_pos hfil']
        exact ⟨(match_order b oid ts).2, OrderEvent.filled,
          o1.filled_quantity, 0, rfl, hsub⟩
    · rw [if_neg hfok]
      by_cases hioc : o.is_ioc = true
      · rw [if_pos hioc]
        simp only [handle_ioc_order, ioc_epilogue, ho1]
        split_ifs with h
        · exact ⟨(match_order b oid ts).2, OrderEvent.cancelled,
            o1.filled_quantity, 0, rfl, hsub⟩
        · exact ⟨(match_order b oid ts).2, OrderEvent.filled,
            o1.filled_quantity, 0, rfl, hsub⟩
      · rw [if_neg hioc]
        simp only [ho1]
        by_cases hmkt : o.is_market = true
        · rw [if_pos hmkt]
          split_ifs with h
          · exact ⟨(match_order b oid ts).2, OrderEvent.cancelled,
              o1.filled_quantity, 0, rfl, hsub⟩
          · exact ⟨(match_order b oid ts).2, OrderEvent.filled,
              o1.filled_quantity, 0, rfl, hsub⟩
        · rw [if_neg hmkt]
          by_cases hfil : o1.is_filled = true
          · rw [if_neg (by simp [hfil])]
            rw [if_pos hfil]
            exact ⟨(match_order b oid ts).2, OrderEvent.filled,
              o1.filled_quantity, 0, rfl, hsub⟩
          · have hr1 : 0 < o1.remaining_quantity := by
              rcases Nat.eq_zero_or_pos o1.remaining_quantity with h0 | h0
              · exact absurd (by rw [is_filled_iff]; exact hP1 h0) hfil
              · exact h0
            rw [if_pos ⟨hr1, by simp [hfil]⟩]
            have htifs : (o1.is_gtc || o1.is_day || o1.is_gtd) = true := by
              simp [Order.is_gtc, Order.is_day, Order.is_gtd, htif1]
              simp [Order.is_fok] at hfok
              simp [Order.is_ioc] at hioc
              cases hc : o.time_in_force <;> simp_all
            rw [if_pos htifs]
            split_ifs with h
            · exact ⟨(match_order b oid ts).2, OrderEvent.partFill,
                o1.filled_quantity, o1.remaining_quantity, rfl, hsub⟩
            · exact ⟨(match_order b oid ts).2, OrderEvent.accepted, 0,
                o1.remaining_quantity, rfl, hsub⟩

theorem aggressor_lifecycle_event_last_witness :
    ∃ evs ev f r,
      (process_new_order wBookFok 2 5).2.1 = evs ++ [Event.order 2 ev f r] ∧
      ∀ e ∈ evs, event_subject e ≠ some 2 :=
  aggressor_lifecycle_event_last wBookFok 2 5 wFokBuy (by decide) (by decide)
    (by decide) (by decide)
    (fun _ _ => ⟨fun lvl hlvl id hid => by
        simp [wBookFok] at hlvl
        subst hlvl
        simp at hid
        subst hid
        exact ⟨⟨1, Side.sell, OrderType.limit, OrderState.active,
          TimeInForce.gtc, 0, 100, 0, 50, 0, 0, 0, 1, 0⟩, by decide, by decide⟩,
      by decide, by decide, by decide, by decide⟩)
    (fun _ hb => absurd (by decide) hb)

theorem sorted_asc_head_lt (p : Nat) (rest : List PriceLevel)
    (h : sorted_asc (p :: rest.map PriceLevel.price) = true) :
    ∀ l ∈ rest, p < l.price := by
  induction rest generalizing p with
  | nil => intro l hl; simp at hl
  | cons x xs ih =>
    intro l hl
    simp only [List.map_cons, sorted_asc, Bool.and_eq_true] at h
    rcases List.mem_cons.1 hl with rfl | hl
    · exact of_decide_eq_true h.1
    · exact lt_trans (of_decide_eq_true h.1) (ih x.price h.2 l hl)

theorem sorted_asc_tail (p : Nat) (rest : List Nat)
    (h : sorted_asc (p :: rest) = true) : sorted_asc rest = true := by
  cases rest with
  | nil => rfl
  | cons x xs =>
    simp only [sorted_asc, Bool.and_eq_true] at h
    exact h.2

theorem walk_buy_eq (need bound : Nat) (asks : List PriceLevel) (acc : Nat)
    (hacc : acc < need)
    (hsorted : sorted_asc (asks.map PriceLevel.price) = true)
    (hsum : acc + (asks.map PriceLevel.total_volume).sum < U32) :
    (can_fill_fok_walk need (fun p => bound < p) acc asks = true ↔
      need ≤ acc +
        ((asks.filter fun l => l.price ≤ bound).map PriceLevel.total_volume).sum) := by
  induction asks generalizing acc with
  | nil =>
    simp [can_fill_fok_walk]
    omega
  | cons lvl rest ih =>
    by_cases hstop : bound < lvl.price
    · have hrest : ∀ l ∈ rest, ¬ (l.price ≤ bound) := by
        intro l hl
        have := sorted_asc_head_lt lvl.price rest (by simpa using hsorted) l hl
        omega
      rw [show (can_fill_fok_walk need (fun p => bound < p) acc (lvl :: rest)) =
        false from by simp [can_fill_fok_walk, hstop]]
      rw [List.filter_cons_of_neg (by simp; omega)]
      rw [List.filter_eq_nil_iff.2 (by
        intro l hl
        simp
        have := hrest l hl
        omega)]
      simp
      omega
    · have hwadd : wadd32 acc lvl.total_volume = acc + lvl.total_volume := by
        simp only [wadd32]
        apply Nat.mod_eq_of_lt
        simp at hsum
        omega
      rw [show (can_fill_fok_walk need (fun p => bound < p) acc (lvl :: rest)) =
        (if need ≤ acc + lvl.total_volume then true
         else can_fill_fok_walk need (fun p => bound < p)
           (acc + lvl.total_volume) rest) from by
        simp [can_fill_fok_walk, hstop, hwadd]]
      rw [List.filter_cons_of_pos (by simp; omega)]
      by_cases hdone : need ≤ acc + lvl.total_volume
      · simp only [if_pos hdone]
        simp
        omega
      · simp only [if_neg hdone]
        rw [ih (acc + lvl.total_volume) (by omega)
          (sorted_asc_tail _ _ (by simpa using hsorted)) (by simp at hsum ⊢; omega)]
        simp
        omega

/-- C7 (amended): the FOK pre-match feasibility walk visits the opposite
side in frontier order and, for a buy, includes a level iff its price is at
most the buy's limit price — with *no* market special case, so a market FOK
buy (limit price 0) includes no ask level and is always rejected; the
accumulated total volumes (hidden quantity included) must reach the order's
quantity.  On a negative answer the order is rejected with CANNOT_FILL,
ORDER_REJECTED is the only event, and the book is unchanged except that the
order is destroyed. -/
theorem fok_feasibility_and_rejection (b : OrderBook) (o : Order)
    (oid ts : Nat)
    (hbuy : o.side = Side.buy)
    (hrem : 0 < o.remaining_quantity)
    (hsorted : sorted_asc (b.asks.map PriceLevel.price) = true)
    (hsum : (b.asks.map PriceLevel.total_volume).sum < U32)
    (hfind : b.pool.find_order oid = some o)
    (htif : o.time_in_force = TimeInForce.fok)
    (hpo : o.is_post_only = false) :
    (can_fill_fok b o = fok_feasible_amended_buy b o) ∧
    (can_fill_fok b o = false →
      (process_new_order b oid ts).2.2 = Status.cannotFill ∧
      (process_new_order b oid ts).2.1 =
        [Event.order oid OrderEvent.rejected 0 0] ∧
      (process_new_order b oid ts).1.asks = b.asks ∧
      (process_new_order b oid ts).1.bids = b.bids ∧
      (process_new_order b oid ts).1.stop_orders = b.stop_orders ∧
      (process_new_order b oid ts).1.pool = b.pool.destroy oid) := by
  constructor
  · have hiff := walk_buy_eq o.remaining_quantity o.price b.asks 0 (by omega)
      hsorted (by omega)
    rw [Bool.eq_iff_iff]
    simp only [can_fill_fok, Order.is_buy, hbuy, if_pos,
      fok_feasible_amended_buy, decide_eq_true_eq]
    simpa using hiff
  · intro hcant
    have hgate : ¬ ((o.is_post_only && would_match_immediately b o) = true) := by
      simp [hpo]
    have hfok : o.is_fok = true := by simp [Order.is_fok, htif]
    simp only [process_new_order, hfind, hgate, Bool.false_eq_true, if_false,
      if_neg hgate, hfok, if_pos, handle_fok_order]
    rw [if_pos (by simp [hcant])]
    exact ⟨rfl, rfl, rfl, rfl, rfl, rfl⟩

theorem fok_feasibility_and_rejection_witness :
    (can_fill_fok wBookC7 fokOrderC7 =
      fok_feasible_amended_buy wBookC7 fokOrderC7) ∧
    (can_fill_fok wBookC7 fokOrderC7 = false →
      (process_new_order wBookC7 2 9).2.2 = Status.cannotFill ∧
      (process_new_order wBookC7 2 9).2.1 =
        [Event.order 2 OrderEvent.rejected 0 0] ∧
      (process_new_order wBookC7 2 9).1.asks = wBookC7.asks ∧
      (process_new_order wBookC7 2 9).1.bids = wBookC7.bids ∧
      (process_new_order wBookC7 2 9).1.stop_orders = wBookC7.stop_orders ∧
      (process_new_order wBookC7 2 9).1.pool = wBookC7.pool.destroy 2) :=
  fok_feasibility_and_rejection wBookC7 fokOrderC7 2 9 (by decide) (by decide)
    (by decide) (by decide) (by decide) (by decide) (by decide)


theorem level_add_order_price (lvl : PriceLevel) (o : Order) :
    (lvl.add_order o).price = lvl.price := rfl

theorem sorted_asc_iff_pairwise (l : List Nat) :
    sorted_asc l = true ↔ l.Pairwise (· < ·) := by
  induction l with
  | nil => simp [sorted_asc]
  | cons a l ih =>
    cases l with
    | nil => simp [sorted_asc]
    | cons b r =>
      simp only [sorted_asc, Bool.and_eq_true, decide_eq_true_iff] at *
      constructor
      · rintro ⟨hab, hs⟩
        have hp := ih.1 hs
        refine List.Pairwise.cons ?_ hp
        intro x hx
        rcases List.mem_cons.1 hx with rfl | hx
        · exact hab
        · exact lt_trans hab (List.rel_of_pairwise_cons hp hx)
      · intro hp
        rcases List.pairwise_cons.1 hp with ⟨ha, hp'⟩
        exact ⟨ha b (by simp), ih.2 hp'⟩

theorem sorted_desc_iff_pairwise (l : List Nat) :
    sorted_desc l = true ↔ l.Pairwise (· > ·) := by
  induction l with
  | nil => simp [sorted_desc]
  | cons a l ih =>
    cases l with
    | nil => simp [sorted_desc]
    | cons b r =>
      simp only [sorted_desc, Bool.and_eq_true, decide_eq_true_iff] at *
      constructor
      · rintro ⟨hab, hs⟩
        have hp := ih.1 hs
        refine List.Pairwise.cons ?_ hp
        intro x hx
        rcases List.mem_cons.1 hx with rfl | hx
        · exact hab
        · exact lt_trans (List.rel_of_pairwise_cons hp hx) hab
      · intro hp
        rcases List.pairwise_cons.1 hp with ⟨ha, hp'⟩
        exact ⟨ha b (by simp), ih.2 hp'⟩

theorem head_price_headD (l : List PriceLevel) :
    head_price l = (l.map PriceLevel.price).headD 0 := by
  cases l <;> rfl

theorem foldr_max_le (l : List Nat) (a : Nat) (h : ∀ x ∈ l, x ≤ a) :
    l.foldr max 0 ≤ a := by
  induction l with
  | nil => simp
  | cons b r ih =>
    simp only [List.foldr_cons]
    exact max_le (h b (by simp)) (ih fun x hx => h x (by simp [hx]))

theorem foldr_min_eq (l : List Nat) (a : Nat) (h : ∀ x ∈ l, a ≤ x) :
    l.foldr min a = a := by
  induction l with
  | nil => rfl
  | cons b r ih =>
    simp only [List.foldr_cons]
    rw [ih fun x hx => h x (by simp [hx])]
    exact min_eq_right (h b (by simp))

theorem sorted_desc_head_max (lvls : List PriceLevel)
    (hs : sorted_desc (lvls.map PriceLevel.price) = true) :
    head_price lvls = max_key lvls := by
  cases lvls with
  | nil => rfl
  | cons lvl rest =>
    have hp := (sorted_desc_iff_pairwise _).1 (by simpa using hs)
    simp only [head_price, max_key, List.map_cons, List.foldr_cons]
    have hle : ((rest.map PriceLevel.price).foldr max 0) ≤ lvl.price := by
      apply foldr_max_le
      intro x hx
      exact le_of_lt (List.rel_of_pairwise_cons hp hx)
    exact (max_eq_left hle).symm

theorem sorted_asc_head_min (lvls : List PriceLevel)
    (hs : sorted_asc (lvls.map PriceLevel.price) = true) :
    head_price lvls = min_key lvls := by
  cases lvls with
  | nil => rfl
  | cons lvl rest =>
    have hp := (sorted_asc_iff_pairwise _).1 (by simpa using hs)
    simp only [head_price, min_key]
    symm
    apply foldr_min_eq
    intro x hx
    exact le_of_lt (List.rel_of_pairwise_cons hp hx)

theorem find_order_mem (p : Pool) (id : Nat) (o : Order)
    (h : p.find_order id = some o) : (id, o) ∈ p := by
  induction p with
  | nil => simp [Pool.find_order] at h
  | cons hd tl ih =>
    obtain ⟨i, x⟩ := hd
    by_cases hi : i = id
    · subst hi
      simp [Pool.find_order] at h
      simp [h]
    · simp [Pool.find_order, hi] at h
      simp [ih h]

theorem find_order_none_iff (p : Pool) (id : Nat) :
    p.find_order id = none ↔ id ∉ p.map Prod.fst := by
  induction p with
  | nil => simp [Pool.find_order]
  | cons hd tl ih =>
    obtain ⟨i, x⟩ := hd
    by_cases hi : i = id
    · subst hi
      simp [Pool.find_order]
    · simp [Pool.find_order, hi, ih, Ne.symm hi]

theorem keys_update_eq (p : Pool) (id : Nat) (o : Order) :
    (p.update id o).map Prod.fst = p.map Prod.fst := by
  induction p with
  | nil => rfl
  | cons hd tl ih =>
    obtain ⟨i, x⟩ := hd
    by_cases hi : i = id <;> simp [Pool.update, hi, ih]

theorem destroy_sublist_pool (p : Pool) (id : Nat) :
    (p.destroy id).Sublist p := by
  induction p with
  | nil => simp [Pool.destroy]
  | cons hd tl ih =>
    obtain ⟨i, x⟩ := hd
    by_cases hi : i = id
    · simpa [Pool.destroy, hi] using List.sublist_cons_self (i, x) tl
    · simpa [Pool.destroy, hi] using ih.cons₂ (i, x)

theorem find_destroy_self_of_nodup (p : Pool) (id : Nat)
    (h : (p.map Prod.fst).Nodup) : (p.destroy id).find_order id = none := by
  induction p with
  | nil => rfl
  | cons hd tl ih =>
    obtain ⟨i, x⟩ := hd
    simp only [List.map_cons, List.nodup_cons] at h
    by_cases hi : i = id
    · subst hi
      simp only [Pool.destroy, if_pos rfl]
      exact (find_order_none_iff tl i).2 h.1
    · simp only [Pool.destroy, if_neg hi, Pool.find_order, if_neg hi]
      exact ih h.2

theorem find_insert_fresh (p : Pool) (id : Nat) (o : Order)
    (h : p.find_order id = none) : (p.insert id o).find_order id = some o := by
  induction p with
  | nil => simp [Pool.insert, Pool.find_order]
  | cons hd tl ih =>
    obtain ⟨i, x⟩ := hd
    by_cases hi : i = id
    · simp [Pool.find_order, hi] at h
    · simp only [Pool.insert, List.cons_append, Pool.find_order, if_neg hi]
      simp [Pool.find_order, hi] at h
      exact ih h

theorem find_of_mem_nodup (p : Pool) (id : Nat) (o : Order)
    (hnd : (p.map Prod.fst).Nodup) (hm : (id, o) ∈ p) :
    p.find_order id = some o := by
  induction p with
  | nil => simp at hm
  | cons hd tl ih =>
    obtain ⟨i, x⟩ := hd
    simp only [List.map_cons, List.nodup_cons] at hnd
    rcases List.mem_cons.1 hm with he | hm
    · obtain ⟨rfl, rfl⟩ := Prod.mk.injEq .. ▸ he
      simp [Pool.find_order]
    · have hi : i ≠ id := by
        intro h
        subst h
        exact hnd.1 (List.mem_map.2 ⟨(i, o), hm, rfl⟩)
      simp only [Pool.find_order, if_neg hi]
      exact ih hnd.2 hm

theorem mem_update_pool (p : Pool) (id : Nat) (o' : Order) (q : Nat × Order)
    (h : q ∈ p.update id o') : q ∈ p ∨ q = (id, o') := by
  induction p with
  | nil => simp [Pool.update] at h
  | cons hd tl ih =>
    obtain ⟨i, x⟩ := hd
    by_cases hi : i = id
    · subst hi
      simp only [Pool.update, if_pos rfl] at h
      rcases List.mem_cons.1 h with rfl | h
      · exact Or.inr rfl
      · exact Or.inl (by simp [h])
    · simp only [Pool.update, if_neg hi] at h
      rcases List.mem_cons.1 h with rfl | h
      · exact Or.inl (by simp)
      · rcases ih h with h | h
        · exact Or.inl (by simp [h])
        · exact Or.inr h

theorem pool_ok_find (p : Pool) (hp : pool_ok p) (id : Nat) (o : Order)
    (hf : p.find_order id = some o) :
    (o.order_type = OrderType.limit ∨ o.order_type = OrderType.stopLimit) →
      0 < o.price :=
  hp.2 (id, o) (find_order_mem p id o hf)

theorem pool_ok_destroy (p : Pool) (id : Nat) (hp : pool_ok p) :
    pool_ok (p.destroy id) := by
  refine ⟨List.Nodup.sublist ((destroy_sublist_pool p id).map Prod.fst) hp.1, ?_⟩
  intro q hq
  exact hp.2 q ((destroy_sublist_pool p id).subset hq)

theorem pool_ok_update (p : Pool) (id : Nat) (o' : Order) (hp : pool_ok p)
    (ho : (o'.order_type = OrderType.limit ∨
      o'.order_type = OrderType.stopLimit) → 0 < o'.price) :
    pool_ok (p.update id o') := by
  refine ⟨by rw [keys_update_eq]; exact hp.1, ?_⟩
  intro q hq
  rcases mem_update_pool p id o' q hq with h | rfl
  · exact hp.2 q h
  · exact ho

theorem pool_ok_insert (p : Pool) (id : Nat) (o : Order) (hp : pool_ok p)
    (hfresh : p.find_order id = none)
    (ho : (o.order_type = OrderType.limit ∨
      o.order_type = OrderType.stopLimit) → 0 < o.price) :
    pool_ok (p.insert id o) := by
  constructor
  · simp only [Pool.insert, List.map_append, List.map_cons, List.map_nil]
    simp [List.nodup_append, hp.1, (find_order_none_iff p id).1 hfresh]
  · intro q hq
    simp only [Pool.insert] at hq
    rcases List.mem_append.1 hq with h | h
    · exact hp.2 q h
    · simp at h
      subst h
      exact ho

theorem evolves_refl (p : Pool) : pool_evolves p p := by
  intro hnd
  exact ⟨hnd, fun id o' h => ⟨o', h, rfl, rfl⟩⟩

theorem evolves_trans (p q r : Pool) (h1 : pool_evolves p q)
    (h2 : pool_evolves q r) : pool_evolves p r := by
  intro hnd
  obtain ⟨hq, hf1⟩ := h1 hnd
  obtain ⟨hr, hf2⟩ := h2 hq
  refine ⟨hr, fun id o' h => ?_⟩
  obtain ⟨o1, ho1, ht1, hp1⟩ := hf2 id o' h
  obtain ⟨o0, ho0, ht0, hp0⟩ := hf1 id o1 ho1
  exact ⟨o0, ho0, ht1.trans ht0, hp1.trans hp0⟩

theorem evolves_update (p : Pool) (id : Nat) (a o' : Order)
    (hf : p.find_order id = some a)
    (ht : o'.order_type = a.order_type) (hpr : o'.price = a.price) :
    pool_evolves p (p.update id o') := by
  intro hnd
  refine ⟨by rw [keys_update_eq]; exact hnd, fun i x hx => ?_⟩
  by_cases hi : i = id
  · subst hi
    rw [Pool.find_update_self p i o' (by simp [hf])] at hx
    injection hx with hx
    subst hx
    exact ⟨a, hf, ht, hpr⟩
  · rw [Pool.find_update_of_ne p id i o' hi] at hx
    exact ⟨x, hx, rfl, rfl⟩

theorem evolves_destroy (p : Pool) (id : Nat) :
    pool_evolves p (p.destroy id) := by
  intro hnd
  refine ⟨List.Nodup.sublist ((destroy_sublist_pool p id).map Prod.fst) hnd,
    fun i x hx => ?_⟩
  by_cases hi : i = id
  · subst hi
    rw [find_destroy_self_of_nodup p i hnd] at hx
    cases hx
  · rw [Pool.find_destroy_of_ne p id i hi] at hx
    exact ⟨x, hx, rfl, rfl⟩

theorem pool_ok_of_evolves (p q : Pool) (hp : pool_ok p)
    (he : pool_evolves p q) : pool_ok q := by
  obtain ⟨hnd, hf⟩ := he hp.1
  refine ⟨hnd, fun x hx => ?_⟩
  obtain ⟨id, o'⟩ := x
  have hfq := find_of_mem_nodup q id o' hnd hx
  obtain ⟨o, ho, ht, hpr⟩ := hf id o' hfq
  intro hlim
  rw [hpr]
  refine hp.2 (id, o) (find_order_mem p id o ho) ?_
  simpa [ht] using hlim

theorem mof_evolves (fuel : Nat) (pool : Pool) (agg_id maxq tm : Nat)
    (lvl : PriceLevel) (ts : Nat) :
    pool_evolves pool
      (match_orders_fuel fuel pool agg_id maxq tm lvl ts).pool := by
  induction fuel generalizing pool lvl tm with
  | zero => exact evolves_refl pool
  | succ fuel ih =>
    rw [match_orders_fuel]
    by_cases hg : tm < maxq
    · simp only [if_pos hg]
      cases hq : lvl.orders with
      | nil => exact evolves_refl pool
      | cons pass_id restq =>
        cases hfp : pool.find_order pass_id with
        | none => simp only [hfp]; exact evolves_refl pool
        | some passive =>
          cases hfa : pool.find_order agg_id with
          | none => simp only [hfp, hfa]; exact evolves_refl pool
          | some agg =>
            simp only [hfp, hfa]
            generalize (maxq - tm) ⊓ passive.remaining_quantity = mq
            have he1 : pool_evolves pool
                ((pool.update agg_id (agg.fill mq).1).update pass_id
                  (passive.fill mq).1) := by
              refine evolves_trans _ _ _
                (evolves_update pool agg_id agg (agg.fill mq).1 hfa
                  (Order.fill_type agg mq) (Order.fill_price agg mq)) ?_
              by_cases hpa : pass_id = agg_id
              · subst hpa
                have hsame : some passive = some agg := hfp.symm.trans hfa
                injection hsame with hsame
                subst hsame
                exact evolves_update _ pass_id (passive.fill mq).1
                  (passive.fill mq).1
                  (Pool.find_update_self pool pass_id _ (by simp [hfp])) rfl rfl
              · exact evolves_update _ pass_id passive (passive.fill mq).1
                  (by rw [Pool.find_update_of_ne _ _ _ _ hpa]; exact hfp)
                  (Order.fill_type passive mq) (Order.fill_price passive mq)
            split_ifs
            all_goals first
              | exact he1
              | exact evolves_trans _ _ _ he1 (ih _ _ _)
    · simp only [if_neg hg]
      exact evolves_refl pool

theorem destroy_filled_evolves (ids : List Nat) (pool : Pool) :
    pool_evolves pool (destroy_filled pool ids).1 := by
  induction ids generalizing pool with
  | nil => exact evolves_refl pool
  | cons id rest ih =>
    rw [destroy_filled]
    cases hf : pool.find_order id with
    | some o =>
      simp only [hf]
      exact evolves_trans _ _ _ (evolves_destroy pool id) (ih _)
    | none =>
      simp only [hf]
      exact ih pool

theorem head_price_congr (l1 l2 : List PriceLevel)
    (h : l1.map PriceLevel.price = l2.map PriceLevel.price) :
    head_price l1 = head_price l2 := by
  rw [head_price_headD, head_price_headD, h]

theorem find_level_price_eq (l : List PriceLevel) (p : Nat) (lvl : PriceLevel)
    (h : find_level l p = some lvl) : lvl.price = p := by
  induction l with
  | nil => simp [find_level] at h
  | cons x r ih =>
    by_cases hx : x.price = p
    · simp [find_level, hx] at h
      subst h
      exact hx
    · simp [find_level, hx] at h
      exact ih h

theorem set_level_map_price (l : List PriceLevel) (p : Nat)
    (lvl' : PriceLevel) (h : lvl'.price = p) :
    (set_level l p lvl').map PriceLevel.price = l.map PriceLevel.price := by
  induction l with
  | nil => rfl
  | cons x r ih =>
    by_cases hx : x.price = p
    · simp [set_level, hx, h]
    · simp [set_level, hx, ih]

theorem erase_level_sublist (l : List PriceLevel) (p : Nat) :
    (erase_level l p).Sublist l := by
  induction l with
  | nil => simp [erase_level]
  | cons x r ih =>
    by_cases hx : x.price = p
    · simpa [erase_level, hx] using List.sublist_cons_self x r
    · simpa [erase_level, hx] using ih.cons₂ x

theorem erase_level_head (l : List PriceLevel) (p : Nat)
    (h : head_price l ≠ p) :
    head_price (erase_level l p) = head_price l := by
  cases l with
  | nil => rfl
  | cons x r =>
    have hx : x.price ≠ p := h
    simp [erase_level, hx, head_price]

theorem add_level_desc_prices (o : Order) (l : List PriceLevel) (x : Nat)
    (h : x ∈ (add_level_desc o l).map PriceLevel.price) :
    x = o.price ∨ x ∈ l.map PriceLevel.price := by
  induction l with
  | nil =>
    simp [add_level_desc, level_add_order_price] at h
    exact Or.inl h
  | cons lvl rest ih =>
    by_cases h1 : lvl.price < o.price
    · simp only [add_level_desc, if_pos h1, List.map_cons,
        level_add_order_price] at h
      rcases List.mem_cons.1 h with rfl | h
      · exact Or.inl rfl
      · exact Or.inr h
    · by_cases h2 : lvl.price = o.price
      · simp only [add_level_desc, if_neg h1, if_pos h2, List.map_cons,
          level_add_order_price] at h
        rcases List.mem_cons.1 h with rfl | h
        · exact Or.inr (by simp)
        · exact Or.inr (by simp [h])
      · simp only [add_level_desc, if_neg h1, if_neg h2, List.map_cons] at h
        rcases List.mem_cons.1 h with rfl | h
        · exact Or.inr (by simp)
        · rcases ih h with h | h
          · exact Or.inl h
          · exact Or.inr (by simp [h])

theorem add_level_asc_prices (o : Order) (l : List PriceLevel) (x : Nat)
    (h : x ∈ (add_level_asc o l).map PriceLevel.price) :
    x = o.price ∨ x ∈ l.map PriceLevel.price := by
  induction l with
  | nil =>
    simp [add_level_asc, level_add_order_price] at h
    exact Or.inl h
  | cons lvl rest ih =>
    by_cases h1 : o.price < lvl.price
    · simp only [add_level_asc, if_pos h1, List.map_cons,
        level_add_order_price] at h
      rcases List.mem_cons.1 h with rfl | h
      · exact Or.inl rfl
      · exact Or.inr h
    · by_cases h2 : lvl.price = o.price
      · simp only [add_level_asc, if_neg h1, if_pos h2, List.map_cons,
          level_add_order_price] at h
        rcases List.mem_cons.1 h with rfl | h
        · exact Or.inr (by simp)
        · exact Or.inr (by simp [h])
      · simp only [add_level_asc, if_neg h1, if_neg h2, List.map_cons] at h
        rcases List.mem_cons.1 h with rfl | h
        · exact Or.inr (by simp)
        · rcases ih h with h | h
          · exact Or.inl h
          · exact Or.inr (by simp [h])

theorem add_level_desc_wf (o : Order) (bids : List PriceLevel)
    (hs : sorted_desc (bids.map PriceLevel.price) = true) :
    sorted_desc ((add_level_desc o bids).map PriceLevel.price) = true ∧
    head_price (add_level_desc o bids) =
      (if head_price bids < o.price then o.price else head_price bids) := by
  induction bids with
  | nil =>
    refine ⟨by simp [add_level_desc, sorted_desc], ?_⟩
    simp only [add_level_desc, head_price, level_add_order_price]
    by_cases h : (0 : Nat) < o.price
    · simp [h]
    · simp at h
      simp [h]
  | cons lvl rest ih =>
    have hpw := (sorted_desc_iff_pairwise _).1 (by simpa using hs)
    have hs' : sorted_desc (rest.map PriceLevel.price) = true := by
      rw [sorted_desc_iff_pairwise]
      exact (List.pairwise_cons.1 hpw).2
    by_cases h1 : lvl.price < o.price
    · simp only [add_level_desc, if_pos h1]
      constructor
      · rw [sorted_desc_iff_pairwise]
        simp only [List.map_cons, level_add_order_price]
        refine List.Pairwise.cons ?_ hpw
        intro x hx
        rcases List.mem_cons.1 hx with rfl | hx
        · exact h1
        · exact lt_trans (List.rel_of_pairwise_cons hpw hx) h1
      · simp [head_price, level_add_order_price, h1]
    · by_cases h2 : lvl.price = o.price
      · simp only [add_level_desc, if_neg h1, if_pos h2]
        constructor
        · have hmap : ((lvl.add_order o) :: rest).map PriceLevel.price =
              (lvl :: rest).map PriceLevel.price := by
            simp [level_add_order_price]
          rw [hmap]
          exact hs
        · simp [head_price, level_add_order_price, h1]
      · simp only [add_level_desc, if_neg h1, if_neg h2]
        have h3 : o.price < lvl.price := by omega
        obtain ⟨ihs, ihh⟩ := ih hs'
        constructor
        · rw [sorted_desc_iff_pairwise]
          simp only [List.map_cons]
          refine List.Pairwise.cons ?_ ((sorted_desc_iff_pairwise _).1 ihs)
          intro x hx
          rcases add_level_desc_prices o rest x hx with rfl | hx
          · exact h3
          · exact List.rel_of_pairwise_cons hpw hx
        · simp [head_price, h1]

theorem add_level_asc_wf (o : Order) (asks : List PriceLevel)
    (hs : sorted_asc (asks.map PriceLevel.price) = true)
    (hpos : ∀ q ∈ asks.map PriceLevel.price, 0 < q) (hop : 0 < o.price) :
    sorted_asc ((add_level_asc o asks).map PriceLevel.price) = true ∧
    (∀ q ∈ (add_level_asc o asks).map PriceLevel.price, 0 < q) ∧
    head_price (add_level_asc o asks) =
      (if head_price asks = 0 ∨ o.price < head_price asks then o.price
       else head_price asks) := by
  induction asks with
  | nil =>
    refine ⟨by simp [add_level_asc, sorted_asc], ?_, ?_⟩
    · simp [add_level_asc, level_add_order_price]
      exact hop
    · simp [add_level_asc, head_price, level_add_order_price]
  | cons lvl rest ih =>
    have hpw := (sorted_asc_iff_pairwise _).1 (by simpa using hs)
    have hs' : sorted_asc (rest.map PriceLevel.price) = true := by
      rw [sorted_asc_iff_pairwise]
      exact (List.pairwise_cons.1 hpw).2
    have hpos' : ∀ q ∈ rest.map PriceLevel.price, 0 < q := by
      intro q hq
      exact hpos q (by simp [hq])
    have hlp : 0 < lvl.price := hpos lvl.price (by simp)
    by_cases h1 : o.price < lvl.price
    · simp only [add_level_asc, if_pos h1]
      refine ⟨?_, ?_, ?_⟩
      · rw [sorted_asc_iff_pairwise]
        simp only [List.map_cons, level_add_order_price]
        refine List.Pairwise.cons ?_ hpw
        intro x hx
        rcases List.mem_cons.1 hx with rfl | hx
        · exact h1
        · exact lt_trans h1 (List.rel_of_pairwise_cons hpw hx)
      · intro q hq
        simp only [List.map_cons, level_add_order_price] at hq
        rcases List.mem_cons.1 hq with rfl | hq
        · exact hop
        · exact hpos q hq
      · simp only [head_price, level_add_order_price]
        rw [if_pos (Or.inr h1)]
    · by_cases h2 : lvl.price = o.price
      · simp only [add_level_asc, if_neg h1, if_pos h2]
        have hmap : ((lvl.add_order o) :: rest).map PriceLevel.price =
            (lvl :: rest).map PriceLevel.price := by
          simp [level_add_order_price]
        refine ⟨by rw [hmap]; exact hs, ?_, ?_⟩
        · intro q hq
          rw [hmap] at hq
          exact hpos q hq
        · simp only [head_price, level_add_order_price]
          rw [if_neg]
          push_neg
          exact ⟨by omega, by omega⟩
      · simp only [add_level_asc, if_neg h1, if_neg h2]
        have h3 : lvl.price < o.price := by omega
        obtain ⟨ihs, ihp, ihh⟩ := ih hs' hpos'
        refine ⟨?_, ?_, ?_⟩
        · rw [sorted_asc_iff_pairwise]
          simp only [List.map_cons]
          refine List.Pairwise.cons ?_ ((sorted_asc_iff_pairwise _).1 ihs)
          intro x hx
          rcases add_level_asc_prices o rest x hx with rfl | hx
          · exact h3
          · exact List.rel_of_pairwise_cons hpw hx
        · intro q hq
          simp only [List.map_cons] at hq
          rcases List.mem_cons.1 hq with rfl | hq
          · exact hlp
          · exact ihp q hq
        · simp only [head_price]
          rw [if_neg]
          push_neg
          exact ⟨by omega, by omega⟩

theorem add_to_book_ok (b : OrderBook) (o : Order)
    (hl : levels_ok b) (hop : 0 < o.price) :
    levels_ok (add_to_book b o) ∧ (add_to_book b o).pool = b.pool := by
  obtain ⟨hd, ha, hpos, hbb, hba⟩ := hl
  unfold add_to_book
  by_cases hbuy : o.is_buy = true
  · simp only [if_pos hbuy]
    obtain ⟨hs', hh'⟩ := add_level_desc_wf o b.bids hd
    exact ⟨⟨hs', ha, hpos, by rw [hh', hbb], hba⟩, by trivial⟩
  · simp only [if_neg hbuy]
    obtain ⟨hs', hp', hh'⟩ := add_level_asc_wf o b.asks ha hpos hop
    exact ⟨⟨hd, hs', hp', hbb, by rw [hh', hba]⟩, by trivial⟩

theorem remove_from_book_ok (b : OrderBook) (o : Order) (hl : levels_ok b) :
    levels_ok (remove_from_book b o) ∧ (remove_from_book b o).pool = b.pool := by
  obtain ⟨hd, ha, hpos, hbb, hba⟩ := hl
  unfold remove_from_book
  by_cases hst : ¬ (o.is_active || o.is_partially_filled) = true
  · simp only [if_pos hst]
    exact ⟨⟨hd, ha, hpos, hbb, hba⟩, by trivial⟩
  · simp only [if_neg hst]
    by_cases hbuy : o.is_buy = true
    · simp only [if_pos hbuy]
      cases hfl : find_level b.bids o.price with
      | none => exact ⟨⟨hd, ha, hpos, hbb, hba⟩, by trivial⟩
      | some lvl =>
        simp only []
        have hlp : (lvl.remove_order o).price = o.price :=
          find_level_price_eq b.bids o.price lvl hfl
        have hmap : (set_level b.bids o.price (lvl.remove_order o)).map
            PriceLevel.price = b.bids.map PriceLevel.price :=
          set_level_map_price b.bids o.price (lvl.remove_order o) hlp
        set bids1 := set_level b.bids o.price (lvl.remove_order o) with hb1
        have hhead1 : head_price bids1 = head_price b.bids :=
          head_price_congr _ _ hmap
        by_cases hemp : (lvl.remove_order o).empty = true
        · simp only [if_pos hemp]
          refine ⟨⟨?_, ha, hpos, ?_, hba⟩, by trivial⟩
          · rw [sorted_desc_iff_pairwise]
            refine List.Pairwise.sublist ?_ ((sorted_desc_iff_pairwise _).1 hd)
            rw [← hmap]
            exact (erase_level_sublist bids1 o.price).map PriceLevel.price
          · by_cases he : o.price = b.best_bid
            · rw [if_pos he]
            · rw [if_neg he, erase_level_head, hhead1, hbb]
              rw [hhead1, ← hbb]
              exact fun hcc => he hcc.symm
        · simp only [if_neg hemp]
          refine ⟨⟨by rw [hmap]; exact hd, ha, hpos, ?_, hba⟩, by trivial⟩
          by_cases he : o.price = b.best_bid
          · rw [if_pos he]
          · rw [if_neg he, hhead1, hbb]
    · simp only [if_neg hbuy]
      cases hfl : find_level b.asks o.price with
      | none => exact ⟨⟨hd, ha, hpos, hbb, hba⟩, by trivial⟩
      | some lvl =>
        simp only []
        have hlp : (lvl.remove_order o).price = o.price :=
          find_level_price_eq b.asks o.price lvl hfl
        have hmap : (set_level b.asks o.price (lvl.remove_order o)).map
            PriceLevel.price = b.asks.map PriceLevel.price :=
          set_level_map_price b.asks o.price (lvl.remove_order o) hlp
        set asks1 := set_level b.asks o.price (lvl.remove_order o) with ha1
        have hhead1 : head_price asks1 = head_price b.asks :=
          head_price_congr _ _ hmap
        by_cases hemp : (lvl.remove_order o).empty = true
        · simp only [if_pos hemp]
          refine ⟨⟨hd, ?_, ?_, hbb, ?_⟩, by trivial⟩
          · rw [sorted_asc_iff_pairwise]
            refine List.Pairwise.sublist ?_ ((sorted_asc_iff_pairwise _).1 ha)
            rw [← hmap]
            exact (erase_level_sublist asks1 o.price).map PriceLevel.price
          · intro q hq
            refine hpos q ?_
            rw [← hmap]
            exact ((erase_level_sublist asks1 o.price).map
              PriceLevel.price).subset hq
          · by_cases he : o.price = b.best_ask
            · rw [if_pos he]
            · rw [if_neg he, erase_level_head, hhead1, hba]
              rw [hhead1, ← hba]
              exact fun hcc => he hcc.symm
        · simp only [if_neg hemp]
          refine ⟨⟨hd, by rw [hmap]; exact ha, ?_, hbb, ?_⟩, by trivial⟩
          · intro q hq
            rw [hmap] at hq
            exact hpos q hq
          · by_cases he : o.price = b.best_ask
            · rw [if_pos he]
            · rw [if_neg he, hhead1, hba]

theorem walk_buy_wf (asks : List PriceLevel) (pool : Pool) (agg_id : Nat)
    (acc : List PriceLevel) (best tt tv ts : Nat) (mkt : Bool)
    (hs : sorted_asc ((acc ++ asks).map PriceLevel.price) = true)
    (hpos : ∀ q ∈ (acc ++ asks).map PriceLevel.price, 0 < q)
    (hb : best = head_price (acc ++ asks)) :
    sorted_asc ((match_buy_asks pool agg_id acc asks best tt tv ts
      mkt).lvls.map PriceLevel.price) = true ∧
    (∀ q ∈ (match_buy_asks pool agg_id acc asks best tt tv ts
      mkt).lvls.map PriceLevel.price, 0 < q) ∧
    (match_buy_asks pool agg_id acc asks best tt tv ts mkt).best =
      head_price (match_buy_asks pool agg_id acc asks best tt tv ts
        mkt).lvls ∧
    pool_evolves pool (match_buy_asks pool agg_id acc asks best tt tv ts
      mkt).pool := by
  induction asks generalizing pool acc best tt tv with
  | nil =>
    rw [match_buy_asks]
    simp only [List.append_nil] at hs hpos hb
    exact ⟨hs, hpos, hb, evolves_refl pool⟩
  | cons lvl rest ih =>
    rw [match_buy_asks]
    cases hfa : pool.find_order agg_id with
    | none => exact ⟨hs, hpos, hb, evolves_refl pool⟩
    | some agg =>
      simp only []
      by_cases hr : agg.remaining_quantity = 0
      · simp only [hr, if_pos]
        exact ⟨hs, hpos, hb, evolves_refl pool⟩
      · simp only [if_neg hr]
        by_cases hstop : ¬ mkt = true ∧ agg.price < lvl.price
        · rw [if_pos hstop]
          exact ⟨hs, hpos, hb, evolves_refl pool⟩
        · rw [if_neg hstop]
          have hscope := match_scope (lvl.orders.length + 1) pool agg_id
            agg.remaining_quantity 0 lvl ts
          have hev1 := mof_evolves (lvl.orders.length + 1) pool agg_id
            agg.remaining_quantity 0 lvl ts
          have hev2 := destroy_filled_evolves
            (match_orders_fuel (lvl.orders.length + 1) pool agg_id
              agg.remaining_quantity 0 lvl ts).filled_ids
            (match_orders_fuel (lvl.orders.length + 1) pool agg_id
              agg.remaining_quantity 0 lvl ts).pool
          have hsub : ((acc ++ rest).map PriceLevel.price).Sublist
              ((acc ++ lvl :: rest).map PriceLevel.price) :=
            ((List.append_sublist_append_left acc).2
              (List.sublist_cons_self lvl rest)).map PriceLevel.price
          have hs2 : sorted_asc ((acc ++ rest).map PriceLevel.price) = true := by
            rw [sorted_asc_iff_pairwise]
            exact List.Pairwise.sublist hsub ((sorted_asc_iff_pairwise _).1 hs)
          have hpos2 : ∀ q ∈ (acc ++ rest).map PriceLevel.price, 0 < q :=
            fun q hq => hpos q (hsub.subset hq)
          have hmapEq : (((acc ++ [(match_orders_fuel (lvl.orders.length + 1)
              pool agg_id agg.remaining_quantity 0 lvl ts).lvl]) ++ rest).map
                PriceLevel.price) =
              ((acc ++ lvl :: rest).map PriceLevel.price) := by
            simp [hscope.1]
          have hs3 : sorted_asc (((acc ++ [(match_orders_fuel
              (lvl.orders.length + 1) pool agg_id agg.remaining_quantity 0
              lvl ts).lvl]) ++ rest).map PriceLevel.price) = true := by
            rw [hmapEq]
            exact hs
          have hpos3 : ∀ q ∈ ((acc ++ [(match_orders_fuel
              (lvl.orders.length + 1) pool agg_id agg.remaining_quantity 0
              lvl ts).lvl]) ++ rest).map PriceLevel.price, 0 < q := by
            rw [hmapEq]
            exact hpos
          have hb3 : best = head_price ((acc ++ [(match_orders_fuel
              (lvl.orders.length + 1) pool agg_id agg.remaining_quantity 0
              lvl ts).lvl]) ++ rest) := by
            rw [head_price_congr _ _ hmapEq]
            exact hb
          split_ifs with hemp
          · obtain ⟨ws, wp, wb, wev⟩ := ih _ _ _ _ _ hs2 hpos2 rfl
            exact ⟨ws, wp, wb,
              evolves_trans _ _ _ hev1 (evolves_trans _ _ _ hev2 wev)⟩
          · obtain ⟨ws, wp, wb, wev⟩ := ih _ _ _ _ _ hs3 hpos3 hb3
            exact ⟨ws, wp, wb,
              evolves_trans _ _ _ hev1 (evolves_trans _ _ _ hev2 wev)⟩

theorem walk_sell_wf (bids : List PriceLevel) (pool : Pool) (agg_id : Nat)
    (acc : List PriceLevel) (best tt tv ts : Nat) (mkt : Bool)
    (hs : sorted_desc ((acc ++ bids).map PriceLevel.price) = true)
    (hb : best = head_price (acc ++ bids)) :
    sorted_desc ((match_sell_bids pool agg_id acc bids best tt tv ts
      mkt).lvls.map PriceLevel.price) = true ∧
    (match_sell_bids pool agg_id acc bids best tt tv ts mkt).best =
      head_price (match_sell_bids pool agg_id acc bids best tt tv ts
        mkt).lvls ∧
    pool_evolves pool (match_sell_bids pool agg_id acc bids best tt tv ts
      mkt).pool := by
  induction bids generalizing pool acc best tt tv with
  | nil =>
    rw [match_sell_bids]
    simp only [List.append_nil] at hs hb
    exact ⟨hs, hb, evolves_refl pool⟩
  | cons lvl rest ih =>
    rw [match_sell_bids]
    cases hfa : pool.find_order agg_id with
    | none => exact ⟨hs, hb, evolves_refl pool⟩
    | some agg =>
      simp only []
      by_cases hr : agg.remaining_quantity = 0
      · simp only [hr, if_pos]
        exact ⟨hs, hb, evolves_refl pool⟩
      · simp only [if_neg hr]
        by_cases hstop : ¬ mkt = true ∧ lvl.price < agg.price
        · rw [if_pos hstop]
          exact ⟨hs, hb, evolves_refl pool⟩
        · rw [if_neg hstop]
          have hscope := match_scope (lvl.orders.length + 1) pool agg_id
            agg.remaining_quantity 0 lvl ts
          have hev1 := mof_evolves (lvl.orders.length + 1) pool agg_id
            agg.remaining_quantity 0 lvl ts
          have hev2 := destroy_filled_evolves
            (match_orders_fuel (lvl.orders.length + 1) pool agg_id
              agg.remaining_quantity 0 lvl ts).filled_ids
            (match_orders_fuel (lvl.orders.length + 1) pool agg_id
              agg.remaining_quantity 0 lvl ts).pool
          have hsub : ((acc ++ rest).map PriceLevel.price).Sublist
              ((acc ++ lvl :: rest).map PriceLevel.price) :=
            ((List.append_sublist_append_left acc).2
              (List.sublist_cons_self lvl rest)).map PriceLevel.price
          have hs2 : sorted_desc ((acc ++ rest).map PriceLevel.price) = true := by
            rw [sorted_desc_iff_pairwise]
            exact List.Pairwise.sublist hsub ((sorted_desc_iff_pairwise _).1 hs)
          have hmapEq : (((acc ++ [(match_orders_fuel (lvl.orders.length + 1)
              pool agg_id agg.remaining_quantity 0 lvl ts).lvl]) ++ rest).map
                PriceLevel.price) =
              ((acc ++ lvl :: rest).map PriceLevel.price) := by
            simp [hscope.1]
          have hs3 : sorted_desc (((acc ++ [(match_orders_fuel
              (lvl.orders.length + 1) pool agg_id agg.remaining_quantity 0
              lvl ts).lvl]) ++ rest).map PriceLevel.price) = true := by
            rw [hmapEq]
            exact hs
          have hb3 : best = head_price ((acc ++ [(match_orders_fuel
              (lvl.orders.length + 1) pool agg_id agg.remaining_quantity 0
              lvl ts).lvl]) ++ rest) := by
            rw [head_price_congr _ _ hmapEq]
            exact hb
          split_ifs with hemp
          · obtain ⟨ws, wb, wev⟩ := ih _ _ _ _ _ hs2 rfl
            exact ⟨ws, wb,
              evolves_trans _ _ _ hev1 (evolves_trans _ _ _ hev2 wev)⟩
          · obtain ⟨ws, wb, wev⟩ := ih _ _ _ _ _ hs3 hb3
            exact ⟨ws, wb,
              evolves_trans _ _ _ hev1 (evolves_trans _ _ _ hev2 wev)⟩

theorem match_limit_order_ok (b : OrderBook) (oid ts : Nat)
    (hl : levels_ok b) :
    levels_ok (match_limit_order b oid ts).1 ∧
    pool_evolves b.pool ((match_limit_order b oid ts).1).pool := by
  obtain ⟨hd, ha, hpos, hbb, hba⟩ := hl
  simp only [match_limit_order]
  cases hf : b.pool.find_order oid with
  | none => exact ⟨⟨hd, ha, hpos, hbb, hba⟩, evolves_refl _⟩
  | some agg =>
    simp only []
    by_cases hbuy : agg.is_buy = true
    · simp only [if_pos hbuy]
      obtain ⟨ws, wp, wb, wev⟩ := walk_buy_wf b.asks b.pool oid [] b.best_ask
        b.total_trades b.total_volume ts false (by simpa using ha)
        (by simpa using hpos) (by simpa using hba)
      exact ⟨⟨hd, ws, wp, hbb, wb⟩, wev⟩
    · simp only [if_neg hbuy]
      obtain ⟨ws, wb, wev⟩ := walk_sell_wf b.bids b.pool oid [] b.best_bid
        b.total_trades b.total_volume ts false (by simpa using hd)
        (by simpa using hbb)
      exact ⟨⟨ws, ha, hpos, wb, hba⟩, wev⟩

theorem match_market_order_ok (b : OrderBook) (oid ts : Nat)
    (hl : levels_ok b) :
    levels_ok (match_market_order b oid ts).1 ∧
    pool_evolves b.pool ((match_market_order b oid ts).1).pool := by
  obtain ⟨hd, ha, hpos, hbb, hba⟩ := hl
  simp only [match_market_order]
  cases hf : b.pool.find_order oid with
  | none => exact ⟨⟨hd, ha, hpos, hbb, hba⟩, evolves_refl _⟩
  | some agg =>
    simp only []
    by_cases hbuy : agg.is_buy = true
    · simp only [if_pos hbuy]
      obtain ⟨ws, wp, wb, wev⟩ := walk_buy_wf b.asks b.pool oid [] b.best_ask
        b.total_trades b.total_volume ts true (by simpa using ha)
        (by simpa using hpos) (by simpa using hba)
      exact ⟨⟨hd, ws, wp, hbb, wb⟩, wev⟩
    · simp only [if_neg hbuy]
      obtain ⟨ws, wb, wev⟩ := walk_sell_wf b.bids b.pool oid [] b.best_bid
        b.total_trades b.total_volume ts true (by simpa using hd)
        (by simpa using hbb)
      exact ⟨⟨ws, ha, hpos, wb, hba⟩, wev⟩

theorem match_order_ok (b : OrderBook) (oid ts : Nat) (hl : levels_ok b) :
    levels_ok (match_order b oid ts).1 ∧
    pool_evolves b.pool ((match_order b oid ts).1).pool := by
  simp only [match_order]
  cases hf : b.pool.find_order oid with
  | none => exact ⟨hl, evolves_refl _⟩
  | some agg =>
    simp only []
    by_cases hm : agg.is_market = true
    · simp only [if_pos hm]
      exact match_market_order_ok b oid ts hl
    · simp only [if_neg hm]
      exact match_limit_order_ok b oid ts hl

theorem ioc_epilogue_ok (b : OrderBook) (oid : Nat) (hl : levels_ok b)
    (hp : pool_ok b.pool) :
    levels_ok (ioc_epilogue b oid).1 ∧
    pool_ok ((ioc_epilogue b oid).1).pool := by
  simp only [ioc_epilogue]
  cases hf : b.pool.find_order oid with
  | none => exact ⟨hl, hp⟩
  | some o1 =>
    simp only []
    exact ⟨hl, pool_ok_destroy _ _ hp⟩

theorem handle_ioc_order_ok (b : OrderBook) (oid ts : Nat) (hl : levels_ok b)
    (hp : pool_ok b.pool) :
    levels_ok (handle_ioc_order b oid ts).1 ∧
    pool_ok ((handle_ioc_order b oid ts).1).pool := by
  obtain ⟨hl1, hev⟩ := match_order_ok b oid ts hl
  exact ioc_epilogue_ok _ oid hl1 (pool_ok_of_evolves _ _ hp hev)

theorem handle_fok_order_ok (b : OrderBook) (oid ts : Nat) (hl : levels_ok b)
    (hp : pool_ok b.pool) :
    levels_ok (handle_fok_order b oid ts).1 ∧
    pool_ok ((handle_fok_order b oid ts).1).pool := by
  simp only [handle_fok_order]
  cases hf : b.pool.find_order oid with
  | none => exact ⟨hl, hp⟩
  | some o =>
    simp only []
    by_cases hcan : ¬ can_fill_fok b o = true
    · simp only [if_pos hcan]
      exact ⟨hl, pool_ok_destroy _ _ hp⟩
    · simp only [if_neg hcan]
      obtain ⟨hl1, hev⟩ := match_order_ok b oid ts hl
      have hp1 := pool_ok_of_evolves _ _ hp hev
      cases hf1 : ((match_order b oid ts).1).pool.find_order oid with
      | none => exact ⟨hl1, hp1⟩
      | some o1 =>
        simp only []
        exact ⟨hl1, pool_ok_destroy _ _ hp1⟩

theorem process_new_order_ok (b : OrderBook) (oid ts : Nat)
    (hl : levels_ok b) (hp : pool_ok b.pool)
    (ho : ∀ o, b.pool.find_order oid = some o →
      o.order_type = OrderType.market ∨ 0 < o.price) :
    levels_ok (process_new_order b oid ts).1 ∧
    pool_ok ((process_new_order b oid ts).1).pool := by
  simp only [process_new_order]
  cases hfind : b.pool.find_order oid with
  | none => exact ⟨hl, hp⟩
  | some o =>
    simp only []
    by_cases hpo : (o.is_post_only && would_match_immediately b o) = true
    · simp only [hpo, if_pos]
      exact ⟨hl, pool_ok_destroy _ _ hp⟩
    · simp only [hpo, Bool.false_eq_true, if_false]
      by_cases hfok : o.is_fok = true
      · rw [if_pos hfok]
        exact handle_fok_order_ok b oid ts hl hp
      · rw [if_neg hfok]
        by_cases hioc : o.is_ioc = true
        · rw [if_pos hioc]
          exact handle_ioc_order_ok b oid ts hl hp
        · rw [if_neg hioc]
          obtain ⟨hl1, hev⟩ := match_order_ok b oid ts hl
          have hp1 := pool_ok_of_evolves _ _ hp hev
          cases hf1 : ((match_order b oid ts).1).pool.find_order oid with
          | none => exact ⟨hl1, hp1⟩
          | some o1 =>
            simp only []
            by_cases hmkt : o.is_market = true
            · rw [if_pos hmkt]
              exact ⟨hl1, pool_ok_destroy _ _ hp1⟩
            · rw [if_neg hmkt]
              have hopr : 0 < o1.price := by
                obtain ⟨hnd1, hfc⟩ := hev hp.1
                obtain ⟨o0, hf0, ht0, hpr0⟩ := hfc oid o1 hf1
                rw [hfind] at hf0
                injection hf0 with hf0
                subst hf0
                rcases ho o hfind with hm | hpr
                · exact absurd (by simp [Order.is_market, hm]) hmkt
                · rw [hpr0]
                  exact hpr
              by_cases hrem : 0 < o1.remaining_quantity ∧ ¬ o1.is_filled = true
              · rw [if_pos hrem]
                by_cases htif : (o1.is_gtc || o1.is_day || o1.is_gtd) = true
                · rw [if_pos htif]
                  obtain ⟨hl2, hpool2⟩ :=
                    add_to_book_ok (match_order b oid ts).1 o1 hl1 hopr
                  refine ⟨hl2, ?_⟩
                  rw [hpool2]
                  exact hp1
                · rw [if_neg htif]
                  exact ⟨hl1, pool_ok_destroy _ _ hp1⟩
              · rw [if_neg hrem]
                by_cases hfil : o1.is_filled = true
                · rw [if_pos hfil]
                  exact ⟨hl1, pool_ok_destroy _ _ hp1⟩
                · rw [if_neg hfil]
                  exact ⟨hl1, hp1⟩

theorem trigger_pool_ok (p : Pool) (id : Nat) (o : Order) (hp : pool_ok p)
    (hf : p.find_order id = some o) :
    pool_ok (p.update id o.trigger_stop) := by
  refine pool_ok_update _ _ _ hp ?_
  intro hlim
  have hpr : (o.trigger_stop).price = o.price := rfl
  rw [hpr]
  refine pool_ok_find p hp id o hf ?_
  cases hcase : o.order_type with
  | stop => simp [Order.trigger_stop, hcase] at hlim
  | market => simp [Order.trigger_stop, hcase] at hlim
  | limit => exact Or.inl rfl
  | stopLimit => exact Or.inr rfl

theorem trigger_price_pos (p : Pool) (id : Nat) (o : Order) (hp : pool_ok p)
    (hf : p.find_order id = some o) :
    (o.trigger_stop).order_type = OrderType.market ∨
      0 < (o.trigger_stop).price := by
  cases hcase : o.order_type with
  | stop => exact Or.inl (by simp [Order.trigger_stop, hcase])
  | market => exact Or.inl (by simp [Order.trigger_stop, hcase])
  | limit => exact Or.inr (pool_ok_find p hp id o hf (Or.inl hcase))
  | stopLimit => exact Or.inr (pool_ok_find p hp id o hf (Or.inr hcase))

theorem add_limit_order_ok (b : OrderBook) (oid : Nat) (side : Side)
    (price quantity ts : Nat) (hl : levels_ok b) (hp : pool_ok b.pool) :
    levels_ok (add_limit_order b oid side price quantity ts).1 ∧
    pool_ok ((add_limit_order b oid side price quantity ts).1).pool := by
  simp only [add_limit_order]
  split_ifs with h1 h2 h3 h4
  · exact ⟨hl, hp⟩
  · exact ⟨hl, hp⟩
  · exact ⟨hl, hp⟩
  · exact ⟨hl, hp⟩
  · have hfresh : b.pool.find_order oid = none := by
      cases hcase : b.pool.find_order oid with
      | none => rfl
      | some o => simp [Pool.has_order, hcase] at h4
    have hp1 : pool_ok (b.pool.insert oid ⟨oid, side, OrderType.limit,
        OrderState.active, TimeInForce.gtc, 0, price, 0, quantity, 0, 0, 0,
        ts, 0⟩) :=
      pool_ok_insert b.pool oid _ hp hfresh fun _ => Nat.pos_of_ne_zero h2
    refine process_new_order_ok _ oid ts hl hp1 ?_
    intro o' hf'
    rw [find_insert_fresh b.pool oid _ hfresh] at hf'
    injection hf' with hf'
    subst hf'
    exact Or.inr (Nat.pos_of_ne_zero h2)

theorem add_market_order_ok (b : OrderBook) (oid : Nat) (side : Side)
    (quantity ts : Nat) (hl : levels_ok b) (hp : pool_ok b.pool) :
    levels_ok (add_market_order b oid side quantity ts).1 ∧
    pool_ok ((add_market_order b oid side quantity ts).1).pool := by
  simp only [add_market_order]
  split_ifs with h1 h2 h3
  · exact ⟨hl, hp⟩
  · exact ⟨hl, hp⟩
  · exact ⟨hl, hp⟩
  · have hfresh : b.pool.find_order oid = none := by
      cases hcase : b.pool.find_order oid with
      | none => rfl
      | some o => simp [Pool.has_order, hcase] at h3
    have hp1 : pool_ok (b.pool.insert oid ⟨oid, side, OrderType.market,
        OrderState.active, TimeInForce.gtc, 0, 0, 0, quantity, 0, 0, 0,
        ts, 0⟩) :=
      pool_ok_insert b.pool oid _ hp hfresh fun hc => by
        rcases hc with hc | hc <;> cases hc
    refine process_new_order_ok _ oid ts hl hp1 ?_
    intro o' hf'
    rw [find_insert_fresh b.pool oid _ hfresh] at hf'
    injection hf' with hf'
    subst hf'
    exact Or.inl rfl

theorem handle_stop_order_ok (b : OrderBook) (oid ts : Nat)
    (hl : levels_ok b) (hp : pool_ok b.pool) :
    levels_ok (handle_stop_order b oid ts).1 ∧
    pool_ok ((handle_stop_order b oid ts).1).pool := by
  simp only [handle_stop_order]
  cases hf : b.pool.find_order oid with
  | none => exact ⟨hl, hp⟩
  | some o =>
    simp only []
    by_cases htr : should_trigger_stop b o = true
    · rw [if_pos htr]
      refine process_new_order_ok _ oid ts hl (trigger_pool_ok _ _ _ hp hf) ?_
      intro o' hf'
      rw [Pool.find_update_self b.pool oid o.trigger_stop
        (by simp [hf])] at hf'
      injection hf' with hf'
      subst hf'
      exact trigger_price_pos b.pool oid o hp hf
    · rw [if_neg htr]
      exact ⟨hl, hp⟩

theorem validate_order_ok_facts (b : OrderBook) (oid : Nat) (t : OrderType)
    (price stop_price quantity : Nat)
    (hv : validate_order b oid t price stop_price quantity = Status.ok) :
    ((t = OrderType.limit ∨ t = OrderType.stopLimit) → 0 < price) ∧
    b.pool.find_order oid = none := by
  simp only [validate_order] at hv
  by_cases h1 : oid = 0
  · rw [if_pos h1] at hv
    exact absurd hv (by decide)
  · rw [if_neg h1] at hv
    by_cases h2 : quantity = 0
    · rw [if_pos h2] at hv
      exact absurd hv (by decide)
    · rw [if_neg h2] at hv
      by_cases h3 : (t = OrderType.limit ∨ t = OrderType.stopLimit) ∧
          price = 0
      · rw [if_pos h3] at hv
        exact absurd hv (by decide)
      · rw [if_neg h3] at hv
        by_cases h4 : (t = OrderType.stop ∨ t = OrderType.stopLimit) ∧
            stop_price = 0
        · rw [if_pos h4] at hv
          exact absurd hv (by decide)
        · rw [if_neg h4] at hv
          by_cases h5 : b.pool.has_order oid = true
          · rw [if_pos h5] at hv
            exact absurd hv (by decide)
          · refine ⟨?_, ?_⟩
            · intro hd2
              rcases Nat.eq_zero_or_pos price with h0 | h0
              · exact absurd ⟨hd2, h0⟩ h3
              · exact h0
            · cases hcase : b.pool.find_order oid with
              | none => rfl
              | some o => simp [Pool.has_order, hcase] at h5

theorem add_order_ok (b : OrderBook) (oid : Nat) (t : OrderType) (side : Side)
    (price stop_price quantity display_qty : Nat) (tif : TimeInForce)
    (flags expire_time ts : Nat) (hl : levels_ok b) (hp : pool_ok b.pool) :
    levels_ok (add_order b oid t side price stop_price quantity display_qty
      tif flags expire_time ts).1 ∧
    pool_ok ((add_order b oid t side price stop_price quantity display_qty
      tif flags expire_time ts).1).pool := by
  simp only [add_order]
  cases hv : validate_order b oid t price stop_price quantity
  case ok =>
    simp only []
    obtain ⟨hprice, hfresh⟩ :=
      validate_order_ok_facts b oid t price stop_price quantity hv
    · have hp1 : pool_ok (b.pool.insert oid ⟨oid, side, t,
          (if t = OrderType.stop ∨ t = OrderType.stopLimit then
            OrderState.pendingNew else OrderState.active), tif, flags, price,
          stop_price, quantity, 0, display_qty, 0, ts, expire_time⟩) :=
        pool_ok_insert b.pool oid _ hp hfresh hprice
      have hfo := find_insert_fresh b.pool oid (⟨oid, side, t,
          (if t = OrderType.stop ∨ t = OrderType.stopLimit then
            OrderState.pendingNew else OrderState.active), tif, flags, price,
          stop_price, quantity, 0, display_qty, 0, ts, expire_time⟩ : Order)
          hfresh
      by_cases hstp : (⟨oid, side, t,
          (if t = OrderType.stop ∨ t = OrderType.stopLimit then
            OrderState.pendingNew else OrderState.active), tif, flags, price,
          stop_price, quantity, 0, display_qty, 0, ts, expire_time⟩ :
            Order).is_stop = true
      · rw [if_pos hstp]
        exact handle_stop_order_ok _ oid ts hl hp1
      · rw [if_neg hstp]
        refine process_new_order_ok _ oid ts hl hp1 ?_
        intro o' hf'
        rw [hfo] at hf'
        injection hf' with hf'
        subst hf'
        simp [Order.is_stop] at hstp
        cases hcase : t with
        | market => exact Or.inl rfl
        | limit => exact Or.inr (hprice (Or.inl hcase))
        | stop => exact absurd hcase hstp.1
        | stopLimit => exact absurd hcase hstp.2
  all_goals exact ⟨hl, hp⟩

theorem cancel_order_ok (b : OrderBook) (oid : Nat) (hl : levels_ok b)
    (hp : pool_ok b.pool) :
    levels_ok (cancel_order b oid).1 ∧
    pool_ok ((cancel_order b oid).1).pool := by
  simp only [cancel_order]
  cases hf : b.pool.find_order oid with
  | none => exact ⟨hl, hp⟩
  | some o =>
    simp only []
    split_ifs with hc
    · exact ⟨hl, pool_ok_destroy _ _ hp⟩
    · obtain ⟨hl1, hpe⟩ := remove_from_book_ok b o hl
      refine ⟨hl1, ?_⟩
      rw [hpe]
      exact pool_ok_destroy _ _ hp

theorem modify_order_ok (b : OrderBook) (oid new_quantity : Nat)
    (hl : levels_ok b) (hp : pool_ok b.pool) :
    levels_ok (modify_order b oid new_quantity).1 ∧
    pool_ok ((modify_order b oid new_quantity).1).pool := by
  obtain ⟨hd, ha, hpos, hbb, hba⟩ := hl
  simp only [modify_order]
  cases hf : b.pool.find_order oid with
  | none => exact ⟨⟨hd, ha, hpos, hbb, hba⟩, hp⟩
  | some o =>
    simp only []
    have hred : pool_ok (b.pool.update oid
        (o.reduce_quantity new_quantity)) := by
      refine pool_ok_update _ _ _ hp ?_
      intro hlim
      have hpr : (o.reduce_quantity new_quantity).price = o.price := by
        unfold Order.reduce_quantity
        split_ifs <;> rfl
      have ht : (o.reduce_quantity new_quantity).order_type = o.order_type := by
        unfold Order.reduce_quantity
        split_ifs <;> rfl
      rw [hpr]
      refine pool_ok_find b.pool hp oid o hf ?_
      rwa [ht] at hlim
    by_cases h1 : o.total_quantity ≤ new_quantity
    · rw [if_pos h1]
      exact ⟨⟨hd, ha, hpos, hbb, hba⟩, hp⟩
    · rw [if_neg h1]
      by_cases h2 : new_quantity ≤ o.filled_quantity
      · rw [if_pos h2]
        exact ⟨⟨hd, ha, hpos, hbb, hba⟩, hp⟩
      · rw [if_neg h2]
        by_cases h3 : (o.is_active || o.is_partially_filled) = true
        · rw [if_pos h3]
          by_cases hbuy : o.is_buy = true
          · simp only [if_pos hbuy]
            cases hfl : find_level b.bids o.price with
            | none => exact ⟨⟨hd, ha, hpos, hbb, hba⟩, hp⟩
            | some lvl =>
              simp only [if_pos hbuy]
              have hlvlp : lvl.price = o.price :=
                find_level_price_eq _ _ _ hfl
              have hmap : (set_level b.bids o.price
                  (lvl.update_order_volume (o.reduce_quantity new_quantity)
                    o.remaining_quantity o.visible_quantity)).map
                      PriceLevel.price = b.bids.map PriceLevel.price :=
                set_level_map_price _ _ _ hlvlp
              refine ⟨⟨?_, ha, hpos, ?_, hba⟩, hred⟩
              · rw [hmap]
                exact hd
              · rw [head_price_congr _ _ hmap]
                exact hbb
          · simp only [if_neg hbuy]
            cases hfl : find_level b.asks o.price with
            | none => exact ⟨⟨hd, ha, hpos, hbb, hba⟩, hp⟩
            | some lvl =>
              simp only [if_neg hbuy]
              have hlvlp : lvl.price = o.price :=
                find_level_price_eq _ _ _ hfl
              have hmap : (set_level b.asks o.price
                  (lvl.update_order_volume (o.reduce_quantity new_quantity)
                    o.remaining_quantity o.visible_quantity)).map
                      PriceLevel.price = b.asks.map PriceLevel.price :=
                set_level_map_price _ _ _ hlvlp
              refine ⟨⟨hd, ?_, ?_, hbb, ?_⟩, hred⟩
              · rw [hmap]
                exact ha
              · intro q hq
                rw [hmap] at hq
                exact hpos q hq
              · rw [head_price_congr _ _ hmap]
                exact hba
        · rw [if_neg h3]
          exact ⟨⟨hd, ha, hpos, hbb, hba⟩, hred⟩

theorem replace_order_ok (b : OrderBook)
    (old_oid new_oid new_price new_quantity ts : Nat)
    (hl : levels_ok b) (hp : pool_ok b.pool) :
    levels_ok (replace_order b old_oid new_oid new_price new_quantity ts).1 ∧
    pool_ok ((replace_order b old_oid new_oid new_price new_quantity
      ts).1).pool := by
  simp only [replace_order]
  obtain ⟨hl1, hp1⟩ := cancel_order_ok b old_oid hl hp
  cases hst : (cancel_order b old_oid).2.2
  case ok =>
    simp only []
    cases hfo : ((cancel_order b old_oid).1).pool.find_order old_oid with
    | none => exact ⟨hl1, hp1⟩
    | some old_o =>
      simp only []
      exact add_limit_order_ok _ new_oid old_o.side new_price new_quantity ts
        hl1 hp1
  all_goals exact ⟨hl1, hp1⟩

theorem process_stops_go_ok (ts : Nat) (ids : List Nat) (b : OrderBook)
    (hl : levels_ok b) (hp : pool_ok b.pool) :
    levels_ok (process_stops_go ts b ids).1 ∧
    pool_ok ((process_stops_go ts b ids).1).pool := by
  induction ids generalizing b with
  | nil => exact ⟨hl, hp⟩
  | cons id rest ih =>
    simp only [process_stops_go]
    by_cases hmem : id ∈ b.stop_orders
    · rw [if_pos hmem]
      cases hf : b.pool.find_order id with
      | some o =>
        simp only []
        have hpn := process_new_order_ok
          { b with
              stop_orders := b.stop_orders.erase id
              pool := b.pool.update id o.trigger_stop } id ts hl
          (trigger_pool_ok _ _ _ hp hf)
          (by
            intro o' hf'
            rw [Pool.find_update_self b.pool id o.trigger_stop
              (by simp [hf])] at hf'
            injection hf' with hf'
            subst hf'
            exact trigger_price_pos b.pool id o hp hf)
        exact ih _ hpn.1 hpn.2
      | none =>
        simp only []
        exact ih _ hl hp
    · rw [if_neg hmem]
      exact ih _ hl hp

theorem process_stops_ok (b : OrderBook) (ts : Nat) (hl : levels_ok b)
    (hp : pool_ok b.pool) :
    levels_ok (process_stops b ts).1 ∧
    pool_ok ((process_stops b ts).1).pool :=
  process_stops_go_ok ts _ b hl hp

theorem process_expirations_go_ok (ids : List Nat) (b : OrderBook)
    (hl : levels_ok b) (hp : pool_ok b.pool) :
    levels_ok (process_expirations_go b ids).1 ∧
    pool_ok ((process_expirations_go b ids).1).pool := by
  induction ids generalizing b with
  | nil => exact ⟨hl, hp⟩
  | cons id rest ih =>
    rw [process_expirations_go]
    cases hf : b.pool.find_order id with
    | some o =>
      simp only []
      obtain ⟨hl1, hpe⟩ := remove_from_book_ok b o hl
      have hup : pool_ok ((remove_from_book b o).pool.update id
          { o with state := OrderState.expired }) := by
        rw [hpe]
        refine pool_ok_update _ _ _ hp ?_
        intro hlim
        exact pool_ok_find b.pool hp id o hf hlim
      exact ih _ hl1 (pool_ok_destroy _ _ hup)
    | none =>
      simp only []
      exact ih _ hl hp

theorem process_expirations_ok (b : OrderBook) (ct : Nat) (hl : levels_ok b)
    (hp : pool_ok b.pool) :
    levels_ok (process_expirations b ct).1 ∧
    pool_ok ((process_expirations b ct).1).pool :=
  process_expirations_go_ok _ b hl hp

theorem clear_ok (b : OrderBook) :
    levels_ok (clear b) ∧ pool_ok ((clear b).pool) := by
  refine ⟨⟨rfl, rfl, ?_, rfl, rfl⟩, ?_, ?_⟩
  · intro q hq
    simp [clear] at hq
  · simp [clear]
  · intro p hq
    simp [clear] at hq

theorem book_wf_iff (b : OrderBook) :
    book_wf b = true ↔ levels_ok b ∧ pool_ok b.pool := by
  simp only [book_wf, pool_wf, levels_ok, pool_ok, Bool.and_eq_true,
    List.all_eq_true, decide_eq_true_iff, List.forall_mem_map]
  tauto

/-- C4: after every public `OrderBook` operation (add_limit_order,
add_market_order, add_order, cancel_order, modify_order, replace_order,
process_stops, process_expirations, clear) applied to a well-formed book,
the book remains well-formed and the cached `best_bid_` equals the largest
key of the bid level map (0 when it is empty) while the cached `best_ask_`
equals the smallest key of the ask level map (0 when it is empty). -/
theorem best_price_cache_invariant (b : OrderBook) (ts : Nat) (op : BookOp)
    (h : book_wf b = true) :
    book_wf (apply_op b ts op) = true ∧
    (apply_op b ts op).best_bid = max_key (apply_op b ts op).bids ∧
    (apply_op b ts op).best_ask = min_key (apply_op b ts op).asks := by
  obtain ⟨hl, hp⟩ := (book_wf_iff b).1 h
  have main : levels_ok (apply_op b ts op) ∧
      pool_ok (apply_op b ts op).pool := by
    cases op with
    | addLimit oid side price quantity =>
      exact add_limit_order_ok b oid side price quantity ts hl hp
    | addMarket oid side quantity =>
      exact add_market_order_ok b oid side quantity ts hl hp
    | addFull oid t side price stop_price quantity display_qty tif flags expire_time =>
      exact add_order_ok b oid t side price stop_price quantity display_qty
        tif flags expire_time ts hl hp
    | cancel oid => exact cancel_order_ok b oid hl hp
    | modify oid nq => exact modify_order_ok b oid nq hl hp
    | replace old_oid new_oid new_price new_quantity =>
      exact replace_order_ok b old_oid new_oid new_price new_quantity ts hl hp
    | stops => exact process_stops_ok b ts hl hp
    | expirations ct => exact process_expirations_ok b ct hl hp
    | clearOp => exact clear_ok b
  refine ⟨(book_wf_iff _).2 main, ?_, ?_⟩
  · rw [← sorted_desc_head_max _ main.1.1]
    exact main.1.2.2.2.1
  · rw [← sorted_asc_head_min _ main.1.2.1]
    exact main.1.2.2.2.2

theorem best_price_cache_invariant_witness :
    book_wf emptyBook = true ∧
    (book_wf (apply_op emptyBook 1 (BookOp.addLimit 1 Side.buy 100 10)) =
        true ∧
      (apply_op emptyBook 1 (BookOp.addLimit 1 Side.buy 100 10)).best_bid =
        max_key (apply_op emptyBook 1
          (BookOp.addLimit 1 Side.buy 100 10)).bids ∧
      (apply_op emptyBook 1 (BookOp.addLimit 1 Side.buy 100 10)).best_ask =
        min_key (apply_op emptyBook 1
          (BookOp.addLimit 1 Side.buy 100 10)).asks) :=
  ⟨by decide, best_price_cache_invariant emptyBook 1
    (BookOp.addLimit 1 Side.buy 100 10) (by decide)⟩

end MatchX
